import Mathlib

/-!
# AVL tree of `src/Tree/AVL/AVL_Tree.c`

A shallow embedding of the AVL tree of the repository and a verification of
its invariants and of the functional behaviour of `insert` and `delete`.

Modelling decisions.

* A C pointer to a node that is exclusively owned by its parent is an
  inductive tree; `NULL` is `AVL_Tree.null`.
* Every function that dereferences a pointer returns `Option`: `none` stands
  for the dereference of a `NULL` pointer (undefined behaviour in C).  The
  right operand of `&&` is evaluated only when the left operand is true
  (`cAnd`).
* `int` keys are only compared, never computed with, and are modelled by `Int`.
  The `height` field is an `int` that is only ever assigned
  `max (..) (..) + 1`; on the trees considered here (stored heights correct) it
  is bounded by the number of nodes, so the addition does not wrap and `Int`
  is exact.
* `malloc` in `createNode` is taken to succeed (the other branch prints a
  message and returns `NULL`); `free` has no observable effect on the tree
  value that is returned.
-/

namespace AVL

/-- The node of the C source: `struct AVL_Tree { int data; int height; left; right; }`. -/
inductive AVL_Tree where
  | null : AVL_Tree
  | node (data : Int) (height : Int) (left : AVL_Tree) (right : AVL_Tree) : AVL_Tree
  deriving DecidableEq

open AVL_Tree

/-- Source `createNode` (lines 14-29), allocation succeeding. -/
def createNode (value : Int) : AVL_Tree :=
  node value 1 null null

/-- Source `getHeight` (lines 31-36). -/
def getHeight : AVL_Tree → Int
  | null => 0
  | node _ h _ _ => h

/-- Source `max` (lines 68-71): `(a > b) ? a : b`. -/
def max (a b : Int) : Int :=
  if a > b then a else b

/-- Source `getBalance` (lines 38-43); `node->left` on `NULL` is `none`. -/
def getBalance : AVL_Tree → Option Int
  | null => none
  | node _ _ l r => some (getHeight l - getHeight r)

/-- The expression `node->left`. -/
def left : AVL_Tree → Option AVL_Tree
  | null => none
  | node _ _ l _ => some l

/-- The expression `node->right`. -/
def right : AVL_Tree → Option AVL_Tree
  | null => none
  | node _ _ _ r => some r

/-- The expression `node->data`. -/
def data : AVL_Tree → Option Int
  | null => none
  | node d _ _ _ => some d

/-- The statement `node->height = max(getHeight(node->left), getHeight(node->right)) + 1;`
that occurs in the rotations, in `insert` (line 119) and in `delete` (line 194). -/
def updateHeight : AVL_Tree → Option AVL_Tree
  | null => none
  | node d _ l r => some (node d (max (getHeight l) (getHeight r) + 1) l r)

/-- C's `a && b` with a right operand that may dereference `NULL`: the right
operand is evaluated only when the left one is true. -/
def cAnd (a : Bool) (b : Option Bool) : Option Bool :=
  if a then b else some false

/-- Source `rightRotate` (lines 45-66). -/
def rightRotate : AVL_Tree → Option AVL_Tree
  | node zd _ (node yd _ yl T3) zr =>
    -- y->right = z; z->left = T3; z->height = ...; y->height = ...
    let z := node zd (max (getHeight T3) (getHeight zr) + 1) T3 zr
    some (node yd (max (getHeight yl) (getHeight z) + 1) yl z)
  | _ => none

/-- Source `leftRotate` (lines 73-91). -/
def leftRotate : AVL_Tree → Option AVL_Tree
  | node zd _ zl (node yd _ T2 yr) =>
    -- y->left = z; z->right = T2; z->height = ...; y->height = ...
    let z := node zd (max (getHeight zl) (getHeight T2) + 1) zl T2
    some (node yd (max (getHeight z) (getHeight yr) + 1) z yr)
  | _ => none

/-- Source `LR_Rotate` (lines 93-97). -/
def LR_Rotate : AVL_Tree → Option AVL_Tree
  | null => none
  | node d h l r => (leftRotate l).bind fun l' => rightRotate (node d h l' r)

/-- Source `RL_Rotate` (lines 99-103). -/
def RL_Rotate : AVL_Tree → Option AVL_Tree
  | null => none
  | node d h l r => (rightRotate r).bind fun r' => leftRotate (node d h l r')

/-- Lines 119-140 of `insert`: height update, balance factor and the four
rotation tests, which compare the inserted value with the key of a child. -/
def insertRebalance (value : Int) (node0 : AVL_Tree) : Option AVL_Tree :=
  (updateHeight node0).bind fun node =>
  (getBalance node).bind fun bf =>
  (cAnd (decide (bf > 1))
    (((left node).bind data).map fun ld => decide (value < ld))).bind fun ll =>
  if ll then rightRotate node else
  (cAnd (decide (bf > 1))
    (((left node).bind data).map fun ld => decide (value > ld))).bind fun lr =>
  if lr then LR_Rotate node else
  (cAnd (decide (bf < -1))
    (((right node).bind data).map fun rd => decide (value > rd))).bind fun rr =>
  if rr then leftRotate node else
  (cAnd (decide (bf < -1))
    (((right node).bind data).map fun rd => decide (value < rd))).bind fun rl =>
  if rl then RL_Rotate node else
  some node

/-- Source `insert` (lines 104-141). -/
def insert : AVL_Tree → Int → Option AVL_Tree
  | null, value => some (createNode value)
  | node d h l r, value =>
    (if value < d then (insert l value).map fun l' => node d h l' r
     else if value > d then (insert r value).map fun r' => node d h l r'
     else some (node d h l r)).bind (insertRebalance value)

/-- Source `minValueNode` (lines 143-152): follow `left` until it is `NULL`. -/
def minValueNode : AVL_Tree → Option AVL_Tree
  | null => none
  | node d h null r => some (node d h null r)
  | node _ _ (node ld lh ll lr) _ => minValueNode (node ld lh ll lr)

/-- Lines 193-214 of `delete`: height update, balance factor and the four
rotation tests, which look at the balance factor of a child. -/
def deleteRebalance (node0 : AVL_Tree) : Option AVL_Tree :=
  (updateHeight node0).bind fun node =>
  (getBalance node).bind fun bf =>
  (cAnd (decide (bf > 1))
    (((left node).bind getBalance).map fun bl => decide (bl ≥ 0))).bind fun ll =>
  if ll then rightRotate node else
  (cAnd (decide (bf > 1))
    (((left node).bind getBalance).map fun bl => decide (bl < 0))).bind fun lr =>
  if lr then LR_Rotate node else
  (cAnd (decide (bf < -1))
    (((right node).bind getBalance).map fun br => decide (br ≤ 0))).bind fun rr =>
  if rr then leftRotate node else
  (cAnd (decide (bf < -1))
    (((right node).bind getBalance).map fun br => decide (br > 0))).bind fun rl =>
  if rl then RL_Rotate node else
  some node

/-- Source `delete` (lines 154-215). -/
def delete : AVL_Tree → Int → Option AVL_Tree
  | null, _ => some null
  | node d h l r, value =>
    if value < d then
      ((delete l value).map fun l' => node d h l' r).bind deleteRebalance
    else if value > d then
      ((delete r value).map fun r' => node d h l r').bind deleteRebalance
    else
      match l, r with
      | null, _ => some r
      | node _ _ _ _, null => some l
      | node _ _ _ _, node _ _ _ _ =>
        ((minValueNode r).bind data).bind fun m =>
        ((delete r m).map fun r' => node m h l r').bind deleteRebalance

/-! ## Specification-level notions -/

/-- In-order key sequence. -/
def inorder : AVL_Tree → List Int
  | null => []
  | node d _ l r => inorder l ++ d :: inorder r

/-- Number of nodes. -/
def size : AVL_Tree → Nat
  | null => 0
  | node _ _ l r => size l + size r + 1

/-- Height computed recursively from scratch: 0 for the empty tree, otherwise
one more than the larger of the heights of the two subtrees. -/
def height : AVL_Tree → Nat
  | null => 0
  | node _ _ l r => 1 + Max.max (height l) (height r)

/-- All subtrees of a tree (the tree itself, the empty subtrees included). -/
def subtrees : AVL_Tree → List AVL_Tree
  | null => [null]
  | node d h l r => node d h l r :: (subtrees l ++ subtrees r)

/-- Strict BST order, node by node: every key of the left subtree is smaller
and every key of the right subtree is larger than the key of the node. -/
def BSTOrdered : AVL_Tree → Prop
  | null => True
  | node d _ l r =>
    (∀ x ∈ inorder l, x < d) ∧ (∀ x ∈ inorder r, d < x) ∧ BSTOrdered l ∧ BSTOrdered r

/-- Strict BST order as a property of the in-order sequence. -/
def BST (t : AVL_Tree) : Prop :=
  (inorder t).Sorted (· < ·)

/-- Balance invariant, with heights computed from scratch. -/
def Balanced : AVL_Tree → Prop
  | null => True
  | node _ _ l r =>
    |(height l : Int) - (height r : Int)| ≤ 1 ∧ Balanced l ∧ Balanced r

/-- Height correctness: the stored height of every node is its computed height. -/
def HeightsOK : AVL_Tree → Prop
  | null => True
  | node d h l r => h = (height (node d h l r) : Int) ∧ HeightsOK l ∧ HeightsOK r

/-- The three invariants of the AVL tree. -/
def Inv (t : AVL_Tree) : Prop :=
  BST t ∧ Balanced t ∧ HeightsOK t

/-- Decision procedure for `BSTOrdered`. -/
def decBSTOrdered : (t : AVL_Tree) → Decidable (BSTOrdered t)
  | null => isTrue trivial
  | node d _ l r =>
    have := decBSTOrdered l
    have := decBSTOrdered r
    (inferInstance : Decidable
      ((∀ x ∈ inorder l, x < d) ∧ (∀ x ∈ inorder r, d < x) ∧ BSTOrdered l ∧ BSTOrdered r))

instance (t : AVL_Tree) : Decidable (BSTOrdered t) := decBSTOrdered t

instance (t : AVL_Tree) : Decidable (BST t) :=
  (inferInstance : Decidable ((inorder t).Sorted (· < ·)))

/-- Decision procedure for `Balanced`. -/
def decBalanced : (t : AVL_Tree) → Decidable (Balanced t)
  | null => isTrue trivial
  | node _ _ l r =>
    have := decBalanced l
    have := decBalanced r
    (inferInstance : Decidable
      (|(height l : Int) - (height r : Int)| ≤ 1 ∧ Balanced l ∧ Balanced r))

instance (t : AVL_Tree) : Decidable (Balanced t) := decBalanced t

/-- Decision procedure for `HeightsOK`. -/
def decHeightsOK : (t : AVL_Tree) → Decidable (HeightsOK t)
  | null => isTrue trivial
  | node d h l r =>
    have := decHeightsOK l
    have := decHeightsOK r
    (inferInstance : Decidable
      (h = (height (node d h l r) : Int) ∧ HeightsOK l ∧ HeightsOK r))

instance (t : AVL_Tree) : Decidable (HeightsOK t) := decHeightsOK t

instance (t : AVL_Tree) : Decidable (Inv t) :=
  (inferInstance : Decidable (BST t ∧ Balanced t ∧ HeightsOK t))

/-- A call of one of the two public mutating operations. -/
inductive Op where
  | ins (key : Int) : Op
  | del (key : Int) : Op
  deriving DecidableEq

/-- Perform one call on a tree. -/
def Op.apply (t : AVL_Tree) : Op → Option AVL_Tree
  | Op.ins k => insert t k
  | Op.del k => delete t k

/-- Perform a finite sequence of calls, from left to right, starting from `t`;
`none` if one of the calls dereferences `NULL`. -/
def runOps : AVL_Tree → List Op → Option AVL_Tree
  | t, [] => some t
  | t, op :: ops => (op.apply t).bind fun t' => runOps t' ops

/-- Insert a list of keys, from left to right. -/
def insertAll (t : AVL_Tree) (keys : List Int) : Option AVL_Tree :=
  runOps t (keys.map Op.ins)

/-- The balance and height invariants phrased over the stored heights. -/
def AVLh : AVL_Tree → Prop
  | null => True
  | node _ h l r =>
    AVLh l ∧ AVLh r ∧ h = Max.max (getHeight l) (getHeight r) + 1 ∧
      -1 ≤ getHeight l - getHeight r ∧ getHeight l - getHeight r ≤ 1

/-- The tree leans to the side on which `v` lies below its root. -/
def Leans (v : Int) : AVL_Tree → Prop
  | null => False
  | node d _ l r =>
    v ≠ d ∧ (v < d → getHeight l = getHeight r + 1) ∧ (v > d → getHeight r = getHeight l + 1)


/-- The tree that `insert` builds from the keys 20, 10, 30, 5, 25, 35. -/
def demoTree : AVL_Tree :=
  node 20 3 (node 10 2 (node 5 1 null null) null)
    (node 30 2 (node 25 1 null null) (node 35 1 null null))

/-- A sparsest AVL tree of height `n`: its left subtree is the sparsest tree of height
`n - 1`, its right subtree the sparsest tree of height `n - 2`.  The keys are the
consecutive integers from `lo` upwards, in order. -/
def fibTree : Nat → Int → AVL_Tree
  | 0, _ => null
  | 1, lo => node lo 1 null null
  | n + 2, lo =>
    node (lo + size (fibTree (n + 1) lo)) (n + 2) (fibTree (n + 1) lo)
      (fibTree n (lo + size (fibTree (n + 1) lo) + 1))

/-- The keys of a tree level by level, the root first (breadth-first order);
`fuel` bounds the number of levels visited. -/
def levelOrder : Nat → List AVL_Tree → List Int
  | 0, _ => []
  | fuel + 1, ts =>
    ts.filterMap data ++
      levelOrder fuel (ts.flatMap fun t =>
        match t with
        | null => []
        | node _ _ l r => [l, r])

/-- A rotation performed during `insert`, with the key of the node it is applied to. -/
inductive Rotation where
  | rightRotate (key : Int) : Rotation
  | LR_Rotate (key : Int) : Rotation
  | leftRotate (key : Int) : Rotation
  | RL_Rotate (key : Int) : Rotation
  deriving DecidableEq

/-- The function `insertRebalance` (lines 119-140 of `insert`) with a log: next to the
tree it returns the rotation it called on `node`, if any. -/
def insertRebalanceLog (value : Int) (node0 : AVL_Tree) :
    Option (AVL_Tree × List Rotation) :=
  (updateHeight node0).bind fun node =>
  (data node).bind fun key =>
  (getBalance node).bind fun bf =>
  (cAnd (decide (bf > 1))
    (((left node).bind data).map fun ld => decide (value < ld))).bind fun ll =>
  if ll then (rightRotate node).map fun t => (t, [Rotation.rightRotate key]) else
  (cAnd (decide (bf > 1))
    (((left node).bind data).map fun ld => decide (value > ld))).bind fun lr =>
  if lr then (LR_Rotate node).map fun t => (t, [Rotation.LR_Rotate key]) else
  (cAnd (decide (bf < -1))
    (((right node).bind data).map fun rd => decide (value > rd))).bind fun rr =>
  if rr then (leftRotate node).map fun t => (t, [Rotation.leftRotate key]) else
  (cAnd (decide (bf < -1))
    (((right node).bind data).map fun rd => decide (value < rd))).bind fun rl =>
  if rl then (RL_Rotate node).map fun t => (t, [Rotation.RL_Rotate key]) else
  some (node, [])

/-- Source `insert` (lines 104-141) with the log of the rotations it performs, in the
order in which they are performed (those of the recursive call first). -/
def insertLog : AVL_Tree → Int → Option (AVL_Tree × List Rotation)
  | null, value => some (createNode value, [])
  | node d h l r, value =>
    (if value < d then (insertLog l value).map fun p => (node d h p.1 r, p.2)
     else if value > d then (insertLog r value).map fun p => (node d h l p.1, p.2)
     else some (node d h l r, [])).bind fun p =>
    (insertRebalanceLog value p.1).map fun q => (q.1, p.2 ++ q.2)

/-- Insert a list of keys, from left to right, with the log of all rotations. -/
def insertAllLog : AVL_Tree → List Int → Option (AVL_Tree × List Rotation)
  | t, [] => some (t, [])
  | t, k :: ks =>
    (insertLog t k).bind fun p =>
    (insertAllLog p.1 ks).map fun q => (q.1, p.2 ++ q.2)

/-- The rebalancing decision table of the specification, applied to a node whose height
has been recomputed: with `bf` the balance factor of the node, if `bf > 1` then
`rightRotate` when the balance factor of the left child is `≥ 0` and `LR_Rotate`
otherwise; if `bf < -1` then `leftRotate` when the balance factor of the right child is
`≤ 0` and `RL_Rotate` otherwise; else the node itself. -/
def rebalanceTable (n : AVL_Tree) : Option AVL_Tree :=
  (getBalance n).bind fun bf =>
  if bf > 1 then
    ((left n).bind getBalance).bind fun bl =>
    if bl ≥ 0 then rightRotate n else LR_Rotate n
  else if bf < -1 then
    ((right n).bind getBalance).bind fun br =>
    if br ≤ 0 then leftRotate n else RL_Rotate n
  else some n

/-- The variant of `insert` described by the specification: the same descent, then the
height is recomputed and the rotation is chosen by `rebalanceTable`, that is by the balance
factor of the child instead of the comparison of the inserted value with the key of the
child. -/
def insertByTable : AVL_Tree → Int → Option AVL_Tree
  | null, value => some (createNode value)
  | node d h l r, value =>
    (if value < d then (insertByTable l value).map fun l' => node d h l' r
     else if value > d then (insertByTable r value).map fun r' => node d h l r'
     else some (node d h l r)).bind fun n => (updateHeight n).bind rebalanceTable


/-- The reference definition of the right rotation, in the words of the specification: for
the node `z` with key `kz`, right subtree `c` and left child `y` with key `ky` and
subtrees `a` and `b`, the node with key `ky`, left subtree `a` and right child the node with
key `kz`, left subtree `b` and right subtree `c`; the height stored in `z` is
`1 + max(getHeight b, getHeight c)` and the height stored in `y` is
`1 + max(getHeight a, new height of z)`, with the mathematical maximum. -/
def rightRotateRef (kz : Int) (c : AVL_Tree) (ky : Int) (a b : AVL_Tree) : AVL_Tree :=
  node ky (1 + Max.max (getHeight a) (1 + Max.max (getHeight b) (getHeight c))) a
    (node kz (1 + Max.max (getHeight b) (getHeight c)) b c)

/-- The mirror image of a tree: the left and the right subtree of every node are swapped;
keys and stored heights stay. -/
def mirror : AVL_Tree → AVL_Tree
  | null => null
  | node d h l r => node d h (mirror r) (mirror l)

/-- The branch of `delete` that handles the node holding the key: `node->left == NULL`
(lines 172-177), `node->right == NULL` (lines 178-183) or two children (lines 185-190). -/
inductive DeleteCase where
  | leftNull : DeleteCase
  | rightNull : DeleteCase
  | twoChildren : DeleteCase
  deriving DecidableEq

/-- Source `delete` (lines 154-215) with the log of the branches that the call and its
nested calls enter at the node holding the key, in the order in which they are entered.
The log comes first and does not depend on whether a later step dereferences `NULL`; the
second component is the result of `delete`. -/
def deleteLog : AVL_Tree → Int → List DeleteCase × Option AVL_Tree
  | null, _ => ([], some null)
  | node d h l r, value =>
    if value < d then
      ((deleteLog l value).1,
        ((deleteLog l value).2.map fun l' => node d h l' r).bind deleteRebalance)
    else if value > d then
      ((deleteLog r value).1,
        ((deleteLog r value).2.map fun r' => node d h l r').bind deleteRebalance)
    else
      match l, r with
      | null, _ => ([DeleteCase.leftNull], some r)
      | node _ _ _ _, null => ([DeleteCase.rightNull], some l)
      | node _ _ _ _, node _ _ _ _ =>
        match (minValueNode r).bind data with
        | none => ([DeleteCase.twoChildren], none)
        | some m =>
          (DeleteCase.twoChildren :: (deleteLog r m).1,
            ((deleteLog r m).2.map fun r' => node m h l r').bind deleteRebalance)

/-- Step 1 of `delete` (lines 158-165): the descent by key comparison; the result is the
node that holds the key, `null` when no node does. -/
def findNode : AVL_Tree → Int → AVL_Tree
  | null, _ => null
  | node d h l r, value =>
    if value < d then findNode l value
    else if value > d then findNode r value
    else node d h l r

end AVL

/-!
# Plain binary search tree of `src/Tree/BST/BinarySearchTree.c`

`NULL` is `Node.null`.  `createNode` leaves the program (`exit(1)`) when `malloc` fails, so
a call that returns has allocated the node.  `countNodes` adds `int`s; the model is exact
as long as the node count stays below `2 ^ 31` (signed overflow is undefined in C).
-/

namespace BinarySearchTree

/-- The node of the C source: `struct Node { int data; left; right; }`. -/
inductive Node where
  | null : Node
  | node (data : Int) (left : Node) (right : Node) : Node
  deriving DecidableEq

open Node

/-- Source `createNode` (lines 74-88). -/
def createNode (val : Int) : Node :=
  node val null null

/-- Source `insert` (lines 167-184): a value larger than the key goes right, a value
smaller than or equal to the key goes left. -/
def insert : Node → Int → Node
  | null, val => createNode val
  | node d l r, val =>
    if val > d then node d l (insert r val)
    else if val ≤ d then node d (insert l val) r
    else node d l r

/-- Source `search` (lines 186-206); the result is the node found, `null` for `NULL`. -/
def search : Node → Int → Node
  | null, _ => null
  | node d l r, val =>
    if val = d then node d l r
    else if val > d then search r val
    else if val ≤ d then search l val
    else node d l r

/-- Source `countNodes` (lines 228-239). -/
def countNodes : Node → Int
  | null => 0
  | node _ l r => countNodes l + countNodes r + 1

/-- Source `findMin` (lines 241-251): `NULL` for `NULL`, otherwise follow `left`. -/
def findMin : Node → Node
  | null => null
  | node d null r => node d null r
  | node _ (node ld ll lr) _ => findMin (node ld ll lr)

/-- The expression `node->data`; `none` on `NULL`. -/
def data : Node → Option Int
  | null => none
  | node d _ _ => some d

/-- Source `deleteNode` (lines 254-305); `none` if `successor->data` dereferences `NULL`. -/
def deleteNode : Node → Int → Option Node
  | null, _ => some null
  | node d l r, val =>
    if val < d then (deleteNode l val).map fun l' => node d l' r
    else if val > d then (deleteNode r val).map fun r' => node d l r'
    else
      match l, r with
      | null, null => some null
      | null, node _ _ _ => some r
      | node _ _ _, null => some l
      | node _ _ _, node _ _ _ =>
        (data (findMin r)).bind fun s =>
        (deleteNode r s).map fun r' => node s l r'

/-- The sequence of keys that `inorderTraversal` (lines 90-99) prints. -/
def inorder : Node → List Int
  | null => []
  | node d l r => inorder l ++ d :: inorder r

/-- A call of `insert` or of `deleteNode`. -/
inductive Op where
  | ins (val : Int) : Op
  | del (val : Int) : Op
  deriving DecidableEq

/-- Perform one call on a tree. -/
def Op.apply (t : Node) : Op → Option Node
  | Op.ins v => some (insert t v)
  | Op.del v => deleteNode t v

/-- Perform a finite sequence of calls, from left to right, starting from `t`. -/
def runOps : Node → List Op → Option Node
  | t, [] => some t
  | t, op :: ops => (op.apply t).bind fun t' => runOps t' ops

/-- The tree that `main` builds: `insert` of 20, 10, 30, 5, 25, 35 into the empty tree. -/
def demoTree : Node :=
  [20, 10, 30, 5, 25, 35].foldl insert null

end BinarySearchTree

/-!
# Singly linked list of `src/Linked-List/singly_linked_list.c`

A `NULL`-terminated chain of `struct Node { int data; struct Node *Next; }` is the list of
its `data` fields: `[]` is `NULL` and `x :: rest` is a node with `data = x` and
`Next = rest`.  A function that takes `struct Node **head` and updates `*head` returns the
new chain.
-/

namespace SinglyLinkedList

/-- Source `insertAtEnd` (lines 96-117). -/
def insertAtEnd : List Int → Int → List Int
  | [], value => [value]
  | [x], value => [x, value]
  | x :: y :: rest, value => x :: insertAtEnd (y :: rest) value

/-- The loop of `insertSorted` (lines 192-199) started at the node `curr` with
`curr->data = c` and `curr->Next = next`: it advances while the next node exists and holds
less than `value`, then links the new node after `curr`.  The result is the chain from the
initial `curr`. -/
def insertSortedLoop (value : Int) : Int → List Int → List Int
  | c, [] => [c, value]
  | c, n :: rest =>
    if n < value then c :: insertSortedLoop value n rest
    else c :: value :: n :: rest

/-- Source `insertSorted` (lines 174-200). -/
def insertSorted : List Int → Int → List Int
  | [], value => [value]
  | h :: rest, value =>
    if h ≥ value then value :: h :: rest
    else insertSortedLoop value h rest

/-- The loop of `reverseList` (lines 525-536) on the state `(prev, curr)`. -/
def reverseLoop : List Int → List Int → List Int
  | prev, [] => prev
  | prev, x :: next => reverseLoop (x :: prev) next

/-- Source `reverseList` (lines 520-540): the new value of `*head`. -/
def reverseList (head : List Int) : List Int :=
  reverseLoop [] head

/-- Source `insertAtBeginning` (lines 74-84). -/
def insertAtBeginning (head : List Int) (value : Int) : List Int :=
  value :: head

/-- The loop and the final links of `insertAtPosition` (lines 143-158) with `k` iterations
left and `current` at the head of the given chain; the result is the chain from `current`.
`none` is the dereference `current->Next` of `NULL`; when the loop meets `NULL` it prints
"Position out of range!" and returns, leaving the chain as it is. -/
def insertAtPositionLoop (value : Int) : Nat → List Int → Option (List Int)
  | 0, [] => none
  | 0, c :: next => some (c :: value :: next)
  | _ + 1, [] => some []
  | k + 1, c :: next => (insertAtPositionLoop value k next).map fun rest => c :: rest

/-- Source `insertAtPosition` (lines 130-159).  The loop `for (int i = 0; i < position - 1;
i++)` makes `position - 1` iterations, none when that number is not positive.  The
subtraction is taken over the integers, which is the `int` subtraction for every position
above `INT_MIN`. -/
def insertAtPosition (head : List Int) (value : Int) (position : Int) : Option (List Int) :=
  if position = 0 then some (insertAtBeginning head value)
  else insertAtPositionLoop value (position - 1).toNat head

/-- Source `deleteFromBeginning` (lines 213-228): the new chain and the returned value. -/
def deleteFromBeginning : List Int → List Int × Int
  | [] => ([], -1)
  | x :: rest => (rest, x)

/-- The loop of `deleteFromEnd` (lines 260-271) at a node `curr` with data `c` whose next
node holds `n` and is followed by the given chain. -/
def deleteFromEndLoop : Int → Int → List Int → List Int × Int
  | c, n, [] => ([c], n)
  | c, n, m :: rest => (c :: (deleteFromEndLoop n m rest).1, (deleteFromEndLoop n m rest).2)

/-- Source `deleteFromEnd` (lines 241-272): the new chain and the returned value. -/
def deleteFromEnd : List Int → List Int × Int
  | [] => ([], -1)
  | [x] => ([], x)
  | x :: y :: rest => deleteFromEndLoop x y rest

/-- The loop of `deleteByValue` (lines 300-312) at a node `curr` with data `c` followed by
the given chain.  The returned value is `none` when the loop ends without having found the
value: control then reaches the closing brace of the function, which has no `return`. -/
def deleteByValueLoop (value : Int) : Int → List Int → List Int × Option Int
  | c, [] => ([c], none)
  | c, n :: rest =>
    if n = value then (c :: rest, some n)
    else (c :: (deleteByValueLoop value n rest).1, (deleteByValueLoop value n rest).2)

/-- Source `deleteByValue` (lines 283-316): the new chain and the returned value, `none`
when the function ends without a `return` statement. -/
def deleteByValue : List Int → Int → List Int × Option Int
  | [], _ => ([], some (-1))
  | h :: rest, value =>
    if h = value then
      ((deleteFromBeginning (h :: rest)).1, some (deleteFromBeginning (h :: rest)).2)
    else deleteByValueLoop value h rest

/-- The loop and the end of `deleteAtPosition` (lines 347-370) with `k` iterations left at
a node `curr` with data `c` followed by the given chain. -/
def deleteAtPositionLoop : Nat → Int → List Int → List Int × Int
  | 0, c, [] => ([c], -1)
  | 0, c, t :: rest => (c :: rest, t)
  | _ + 1, c, [] => ([c], -1)
  | k + 1, c, n :: rest =>
    (c :: (deleteAtPositionLoop k n rest).1, (deleteAtPositionLoop k n rest).2)

/-- The value of the 32-bit `int` expression whose exact value is `x`: `x` itself when it
lies between `INT_MIN = -2 ^ 31` and `INT_MAX = 2 ^ 31 - 1`, and otherwise the two's
complement result, `x` reduced modulo `2 ^ 32` into that range. -/
def wrapInt32 (x : Int) : Int :=
  (x + 2 ^ 31) % 2 ^ 32 - 2 ^ 31

/-- Source `deleteAtPosition` (lines 327-371), `position` being an `int`.  The loop
`for (int i = 0; i < position - 1; i++)` makes as many iterations as the `int` expression
`position - 1` says, none when that number is not positive.  At `position = INT_MIN` the
subtraction overflows and the bound is the two's complement result `INT_MAX`. -/
def deleteAtPosition : List Int → Int → List Int × Int
  | [], _ => ([], -1)
  | h :: rest, position =>
    if position = 0 then (rest, h)
    else deleteAtPositionLoop (wrapInt32 (position - 1)).toNat h rest

/-- The loop of `search` (lines 387-395) on `curr` and `counter`. -/
def searchLoop (value : Int) : List Int → Int → Int
  | [], _ => -1
  | x :: rest, counter =>
    if x = value then counter + 1 else searchLoop value rest (counter + 1)

/-- Source `search` (lines 382-398). -/
def search (head : List Int) (value : Int) : Int :=
  searchLoop value head (-1)

/-- The loop and the end of `getElementAt` (lines 440-454) with `k` iterations left. -/
def getElementAtLoop : Nat → List Int → Int
  | 0, [] => -1
  | 0, x :: _ => x
  | _ + 1, [] => -1
  | k + 1, _ :: rest => getElementAtLoop k rest

/-- Source `getElementAt` (lines 430-455).  The loop `for (int i = 0; i < position; i++)`
makes `position` iterations, none when `position` is negative. -/
def getElementAt : List Int → Int → Int
  | [], _ => -1
  | h :: rest, position => getElementAtLoop position.toNat (h :: rest)

/-- The loop of `getMiddle` (lines 486-490) on `slow` and `fast`; `none` is the
dereference `slow->Next` of `NULL`. -/
def getMiddleLoop : List Int → List Int → Option (List Int)
  | slow, [] => some slow
  | slow, [_] => some slow
  | [], _ :: _ :: _ => none
  | _ :: slow, _ :: _ :: fast => getMiddleLoop slow fast

/-- Source `getMiddle` (lines 475-500). -/
def getMiddle : List Int → Option Int
  | [] => some (-1)
  | h :: rest =>
    (getMiddleLoop (h :: rest) (h :: rest)).map fun slow =>
      match slow with
      | [] => -1
      | x :: _ => x

end SinglyLinkedList

/-!
# Doubly linked list of `src/Linked-List/doubly_linked_list.c`

The nodes carry back pointers, so the list lives in an explicit heap: a pointer is
`Option Nat` (`none` is `NULL`, `some a` the address `a`) and the heap maps the addresses
of the allocated nodes to their contents.  A function that takes `struct DNode **head`
receives the heap and the value of `*head` and returns the new heap and the new `*head`.
The result is `none` when the code dereferences `NULL` or a pointer to a node that is not
allocated, and also when a `while` loop has not ended after `fuel` iterations.  `malloc`
is taken to succeed and to return the address that the caller of the model supplies.
-/

namespace DoublyLinkedList

/-- The node of the C source: `struct DNode { int data; prev; next; }`. -/
structure DNode where
  data : Int
  prev : Option Nat
  next : Option Nat
  deriving DecidableEq

/-- The allocated nodes, by address. -/
abbrev Heap := Nat → Option DNode

/-- Write the node `n` at the address `a`. -/
def store (h : Heap) (a : Nat) (n : DNode) : Heap :=
  fun x => if x = a then some n else h x

/-- The call `free(a)`. -/
def free (h : Heap) (a : Nat) : Heap :=
  fun x => if x = a then none else h x

/-- The assignment `a->next = q`. -/
def setNext (h : Heap) (a : Nat) (q : Option Nat) : Option Heap :=
  (h a).map fun n => store h a { n with next := q }

/-- The assignment `a->prev = q`. -/
def setPrev (h : Heap) (a : Nat) (q : Option Nat) : Option Heap :=
  (h a).map fun n => store h a { n with prev := q }

/-- The statement `if (p != NULL) p->prev = q;`. -/
def setPrevOf (h : Heap) (p q : Option Nat) : Option Heap :=
  match p with
  | some y => setPrev h y q
  | none => some h

/-- The statement `if (p != NULL) p->next = q; else *head = q;`: the new heap and the new
`*head`. -/
def setNextOrHead (h : Heap) (head p q : Option Nat) : Option (Heap × Option Nat) :=
  match p with
  | some x => (setNext h x q).map fun h1 => (h1, head)
  | none => some (h, q)

/-- Source `CreateNode` (lines 26-38), `malloc` returning the address `a`. -/
def CreateNode (h : Heap) (a : Nat) (val : Int) : Heap :=
  store h a { data := val, prev := none, next := none }

/-- Source `insertAtBeginningD` (lines 90-105). -/
def insertAtBeginningD (h : Heap) (head : Option Nat) (value : Int) (a : Nat) :
    Option (Heap × Option Nat) :=
  (setNext (CreateNode h a value) a head).bind fun h1 =>
  (setPrevOf h1 head (some a)).map fun h2 => (h2, some a)

/-- The loop of `insertAtEndD` (lines 129-133): follow `next` from `temp` to the last
node. -/
def lastNode (h : Heap) : Nat → Nat → Option Nat
  | 0, _ => none
  | fuel + 1, temp =>
    (h temp).bind fun n =>
    match n.next with
    | none => some temp
    | some x => lastNode h fuel x

/-- Source `insertAtEndD` (lines 117-138). -/
def insertAtEndD (h : Heap) (head : Option Nat) (value : Int) (a : Nat) (fuel : Nat) :
    Option (Heap × Option Nat) :=
  match head with
  | none => some (CreateNode h a value, some a)
  | some x =>
    (lastNode (CreateNode h a value) fuel x).bind fun temp =>
    (setNext (CreateNode h a value) temp (some a)).bind fun h1 =>
    (setPrev h1 a (some temp)).map fun h2 => (h2, head)

/-- Source `deleteFromBeginningD` (lines 148-171): new heap, new `*head`, returned
value. -/
def deleteFromBeginningD (h : Heap) (head : Option Nat) : Option (Heap × Option Nat × Int) :=
  match head with
  | none => some (h, none, -1)
  | some temp =>
    (h temp).bind fun n =>
    (setPrevOf h n.next none).map fun h1 => (free h1 temp, n.next, n.data)

/-- Source `deleteFromEndD` (lines 182-210): new heap, new `*head`, new `*tail`, returned
value. -/
def deleteFromEndD (h : Heap) (head tail : Option Nat) :
    Option (Heap × Option Nat × Option Nat × Int) :=
  match tail with
  | none => some (h, head, none, -1)
  | some temp =>
    (h temp).bind fun n =>
    (setNextOrHead h head n.prev none).bind fun (s : Heap × Option Nat) =>
    (s.1 temp).map fun (n1 : DNode) => (free s.1 temp, s.2, n.prev, n1.data)

/-- The search loop of `deleteByValueD` (lines 235-238): the final value of `curr`. -/
def findValue (h : Heap) (value : Int) : Nat → Option Nat → Option (Option Nat)
  | 0, _ => none
  | _ + 1, none => some none
  | fuel + 1, some c =>
    (h c).bind fun n =>
    if n.data ≠ value then findValue h value fuel n.next else some (some c)

/-- Source `deleteByValueD` (lines 221-268): new heap, new `*head`, returned value. -/
def deleteByValueD (h : Heap) (head : Option Nat) (value : Int) (fuel : Nat) :
    Option (Heap × Option Nat × Int) :=
  match head with
  | none => some (h, none, -1)
  | some _ =>
    (findValue h value fuel head).bind fun curr =>
    match curr with
    | none => some (h, head, -1)
    | some c =>
      (h c).bind fun n =>
      -- if (curr->prev != NULL) curr->prev->next = curr->next; else *head = curr->next;
      (setNextOrHead h head n.prev n.next).bind fun (s : Heap × Option Nat) =>
      -- if (curr->next != NULL) curr->next->prev = curr->prev;
      (s.1 c).bind fun n1 =>
      (setPrevOf s.1 n1.next n1.prev).map fun h2 => (free h2 c, s.2, n.data)

/-- How the loop of `insertAtPositionD` is left: by the `return` after "Position out of
range!" or at its end with `curr`. -/
inductive Walk where
  | outOfRange : Walk
  | done (curr : Option Nat) : Walk
  deriving DecidableEq

/-- The loop of `insertAtPositionD` (lines 294-303) with `k` iterations left. -/
def walk (h : Heap) : Nat → Option Nat → Option Walk
  | 0, curr => some (Walk.done curr)
  | _ + 1, none => some Walk.outOfRange
  | k + 1, some c => (h c).bind fun n => walk h k n.next

/-- The number of iterations that `for (size_t i = 0; i < position - 1; i++)` allows: the
`int` value `position - 1` is converted to the unsigned 64-bit type `size_t`, so a
negative value becomes a very large bound. -/
def loopBound (position : Int) : Nat :=
  ((position - 1) % 2 ^ 64).toNat

/-- Source `insertAtPositionD` (lines 281-324). -/
def insertAtPositionD (h : Heap) (head : Option Nat) (value : Int) (position : Int)
    (a : Nat) : Option (Heap × Option Nat) :=
  if position = 0 then insertAtBeginningD h head value a
  else
    (walk (CreateNode h a value) (loopBound position) head).bind fun w =>
    match w with
    | Walk.outOfRange => some (free (CreateNode h a value) a, head)
    | Walk.done none => some (free (CreateNode h a value) a, head)
    | Walk.done (some c) =>
      ((CreateNode h a value) c).bind fun n =>
      (setNext (CreateNode h a value) a n.next).bind fun h1 =>
      (setPrev h1 a (some c)).bind fun h2 =>
      (h2 c).bind fun n2 =>
      -- if (curr->next != NULL) curr->next->prev = newNode;
      (setPrevOf h2 n2.next (some a)).bind fun h3 =>
      (setNext h3 c (some a)).map fun h4 => (h4, head)

/-- The sequence that `printForward` (lines 46-58) prints. -/
def readForward (h : Heap) : Nat → Option Nat → Option (List Int)
  | _, none => some []
  | 0, some _ => none
  | fuel + 1, some c => (h c).bind fun n => (readForward h fuel n.next).map fun l => n.data :: l

/-- The sequence that `printBackward` (lines 66-78) prints. -/
def readBackward (h : Heap) : Nat → Option Nat → Option (List Int)
  | _, none => some []
  | 0, some _ => none
  | fuel + 1, some c => (h c).bind fun n => (readBackward h fuel n.prev).map fun l => n.data :: l

/-- The address of the first of the cells, `q` when there is none. -/
def headAddr (cells : List (Nat × Int)) (q : Option Nat) : Option Nat :=
  match cells with
  | [] => q
  | c :: _ => some c.1

/-- The address of the last of the cells, `prev` when there is none. -/
def lastAddr : List (Nat × Int) → Option Nat → Option Nat
  | [], prev => prev
  | c :: rest, _ => lastAddr rest (some c.1)

/-- The cells (address and data) are laid out in the heap as a doubly linked segment: each
node holds its data, points back to the node before it (`prev` for the first) and forward
to the node after it (`q` for the last). -/
def Linked (h : Heap) : Option Nat → List (Nat × Int) → Option Nat → Prop
  | _, [], _ => True
  | prev, c :: rest, q =>
    h c.1 = some { data := c.2, prev := prev, next := headAddr rest q } ∧
      Linked h (some c.1) rest q

/-- A well-linked list: `head` points to the first cell, the cells are linked in both
directions from `NULL` to `NULL`, and their addresses are distinct. -/
def WellLinked (h : Heap) (head : Option Nat) (cells : List (Nat × Int)) : Prop :=
  head = headAddr cells none ∧ Linked h none cells none ∧ (cells.map Prod.fst).Nodup

/-- Decision procedure for `Linked`. -/
def decLinked (h : Heap) : (prev : Option Nat) → (cells : List (Nat × Int)) →
    (q : Option Nat) → Decidable (Linked h prev cells q)
  | _, [], _ => isTrue trivial
  | prev, c :: rest, q =>
    have := decLinked h (some c.1) rest q
    (inferInstance : Decidable
      (h c.1 = some { data := c.2, prev := prev, next := headAddr rest q } ∧
        Linked h (some c.1) rest q))

instance (h : Heap) (prev : Option Nat) (cells : List (Nat × Int)) (q : Option Nat) :
    Decidable (Linked h prev cells q) := decLinked h prev cells q

instance (h : Heap) (head : Option Nat) (cells : List (Nat × Int)) :
    Decidable (WellLinked h head cells) :=
  (inferInstance : Decidable
    (head = headAddr cells none ∧ Linked h none cells none ∧ (cells.map Prod.fst).Nodup))

/-- The empty heap. -/
def emptyHeap : Heap := fun _ => none

/-- The list 10, 20, 30, 40, 50 that `main` builds with `insertAtEndD`, the nodes at the
addresses 1 to 5: heap and head. -/
def demoList : Option (Heap × Option Nat) :=
  (insertAtEndD emptyHeap none 10 1 9).bind fun s1 =>
  (insertAtEndD s1.1 s1.2 20 2 9).bind fun s2 =>
  (insertAtEndD s2.1 s2.2 30 3 9).bind fun s3 =>
  (insertAtEndD s3.1 s3.2 40 4 9).bind fun s4 =>
  insertAtEndD s4.1 s4.2 50 5 9

/-- The heap of `demoList`. -/
def demoHeap : Heap := (demoList.getD (emptyHeap, none)).1

/-- The head of `demoList`. -/
def demoHead : Option Nat := (demoList.getD (emptyHeap, none)).2

/-- The cells of `demoList`. -/
def demoCells : List (Nat × Int) := [(1, 10), (2, 20), (3, 30), (4, 40), (5, 50)]

/-- The demonstration of `main` (lines 411-429): 25 is inserted at position 2 (the new node
at the address 6), then 30, 10 and 50 are deleted by value.  Heap and head after each of
the four calls. -/
def demoSteps : Option (List (Heap × Option Nat)) :=
  (insertAtPositionD demoHeap demoHead 25 2 6).bind fun s1 =>
  (deleteByValueD s1.1 s1.2 30 9).bind fun s2 =>
  (deleteByValueD s2.1 s2.2.1 10 9).bind fun s3 =>
  (deleteByValueD s3.1 s3.2.1 50 9).map fun s4 =>
  [s1, (s2.1, s2.2.1), (s3.1, s3.2.1), (s4.1, s4.2.1)]

end DoublyLinkedList

/-!
# Singly circular linked list of `src/Linked-List/singly_circular_linked_list.c`

The last node points back to the first, so the list lives in a heap as the doubly linked
list does.  The global variable `head` is passed in and returned together with the heap.
-/

namespace SinglyCircularLinkedList

/-- The node of the C source: `struct CNode { int data; next; }`. -/
structure CNode where
  data : Int
  next : Option Nat
  deriving DecidableEq

/-- The allocated nodes, by address. -/
abbrev Heap := Nat → Option CNode

/-- Write the node `n` at the address `a`. -/
def store (h : Heap) (a : Nat) (n : CNode) : Heap :=
  fun x => if x = a then some n else h x

/-- The call `free(a)`. -/
def free (h : Heap) (a : Nat) : Heap :=
  fun x => if x = a then none else h x

/-- The assignment `a->next = q`. -/
def setNext (h : Heap) (a : Nat) (q : Option Nat) : Option Heap :=
  (h a).map fun n => store h a { n with next := q }

/-- The loop `do { curr = curr->next; } while (curr->next != head);` of
`deleteFromBeginning` (lines 228-231), entered with `curr`: the final value of `curr`. -/
def findTail (h : Heap) (head : Nat) : Nat → Nat → Option Nat
  | 0, _ => none
  | fuel + 1, curr =>
    (h curr).bind fun c =>
    c.next.bind fun x =>
    (h x).bind fun n =>
    if n.next ≠ some head then findTail h head fuel x else some x

/-- Source `deleteFromBeginning` (lines 203-246): new heap, new `head`, returned value. -/
def deleteFromBeginning (h : Heap) (head : Option Nat) (fuel : Nat) :
    Option (Heap × Option Nat × Int) :=
  match head with
  | none => some (h, none, -1)
  | some temp =>
    (h temp).bind fun n =>
    if n.next = some temp then some (free h temp, none, n.data)
    else
      (findTail h temp fuel temp).bind fun curr =>
      -- head = head->next; curr->next = head;
      (setNext h curr n.next).bind fun h1 =>
      (h1 temp).map fun n1 => (free h1 temp, n.next, n1.data)

/-- The loop `while (curr->next->next != head) curr = curr->next;` of `deleteFromEnd`
(lines 293-296): the final value of `curr`. -/
def findBeforeTail (h : Heap) (head : Nat) : Nat → Nat → Option Nat
  | 0, _ => none
  | fuel + 1, curr =>
    (h curr).bind fun c =>
    c.next.bind fun x =>
    (h x).bind fun n =>
    if n.next ≠ some head then findBeforeTail h head fuel x else some curr

/-- Source `deleteFromEnd` (lines 267-309): new heap, new `head`, returned value. -/
def deleteFromEnd (h : Heap) (head : Option Nat) (fuel : Nat) :
    Option (Heap × Option Nat × Int) :=
  match head with
  | none => some (h, none, -1)
  | some hd =>
    (h hd).bind fun n =>
    if n.next = some hd then some (free h hd, none, n.data)
    else
      (findBeforeTail h hd fuel hd).bind fun curr =>
      (h curr).bind fun c =>
      c.next.bind fun temp =>
      (h temp).bind fun t =>
      (setNext h curr (some hd)).map fun h1 => (free h1 temp, some hd, t.data)

/-- The sequence that `printList` (lines 321-341) prints: the data from `curr` until the
walk is back at `head`. -/
def readRing (h : Heap) (head : Nat) : Nat → Nat → Option (List Int)
  | 0, _ => none
  | fuel + 1, curr =>
    (h curr).bind fun n =>
    n.next.bind fun x =>
    if x = head then some [n.data] else (readRing h head fuel x).map fun l => n.data :: l

/-- The ring 10, 20, 30 with the nodes at the addresses 1, 2, 3. -/
def demoRing : Heap :=
  store (store (store (fun _ => none) 1 ⟨10, some 2⟩) 2 ⟨20, some 3⟩) 3 ⟨30, some 1⟩

end SinglyCircularLinkedList

/-!
# Doubly circular linked list of `src/Linked-List/doubly_circular_linked_list.c`

The same heap model; the global variable `head` is passed in and returned together with
the heap.
-/

namespace DoublyCircularLinkedList

/-- The node of the C source: `struct DCNode { int data; next; prev; }`. -/
structure DCNode where
  data : Int
  next : Option Nat
  prev : Option Nat
  deriving DecidableEq

/-- The allocated nodes, by address. -/
abbrev Heap := Nat → Option DCNode

/-- Write the node `n` at the address `a`. -/
def store (h : Heap) (a : Nat) (n : DCNode) : Heap :=
  fun x => if x = a then some n else h x

/-- The call `free(a)`. -/
def free (h : Heap) (a : Nat) : Heap :=
  fun x => if x = a then none else h x

/-- The assignment `p->next = q`, `none` when `p` is `NULL` or not allocated. -/
def setNext (h : Heap) (p : Option Nat) (q : Option Nat) : Option Heap :=
  p.bind fun a => (h a).map fun n => store h a { n with next := q }

/-- The assignment `p->prev = q`, `none` when `p` is `NULL` or not allocated. -/
def setPrev (h : Heap) (p : Option Nat) (q : Option Nat) : Option Heap :=
  p.bind fun a => (h a).map fun n => store h a { n with prev := q }

/-- Source `deleteFromBeginning` (lines 186-218): new heap, new `head`, returned value. -/
def deleteFromBeginning (h : Heap) (head : Option Nat) : Option (Heap × Option Nat × Int) :=
  match head with
  | none => some (h, none, -1)
  | some temp =>
    (h temp).bind fun n =>
    if n.next = some temp then some (free h temp, none, n.data)
    else
      -- tail = head->prev; head = head->next; head->prev = tail; tail->next = head;
      (setPrev h n.next n.prev).bind fun h1 =>
      (setNext h1 n.prev n.next).bind fun h2 =>
      (h2 temp).map fun n2 => (free h2 temp, n.next, n2.data)

/-- Source `deleteFromEnd` (lines 236-268): new heap, new `head`, returned value. -/
def deleteFromEnd (h : Heap) (head : Option Nat) : Option (Heap × Option Nat × Int) :=
  match head with
  | none => some (h, none, -1)
  | some hd =>
    (h hd).bind fun n =>
    if n.next = some hd then some (free h hd, none, n.data)
    else
      -- tail = head->prev; temp = tail; tail = tail->prev;
      n.prev.bind fun temp =>
      (h temp).bind fun t =>
      -- tail->next = head; head->prev = tail;
      (setNext h t.prev (some hd)).bind fun h1 =>
      (setPrev h1 (some hd) t.prev).bind fun h2 =>
      (h2 temp).map fun t2 => (free h2 temp, some hd, t2.data)

/-- The sequence that `printForward` prints: the data from `curr` along `next` until the
walk is back at `head`. -/
def readRing (h : Heap) (head : Nat) : Nat → Nat → Option (List Int)
  | 0, _ => none
  | fuel + 1, curr =>
    (h curr).bind fun n =>
    n.next.bind fun x =>
    if x = head then some [n.data] else (readRing h head fuel x).map fun l => n.data :: l

/-- The sequence that `printBackward` prints: the data from `curr` along `prev` until the
walk is back at the tail `head->prev`. -/
def readRingBack (h : Heap) (tail : Nat) : Nat → Nat → Option (List Int)
  | 0, _ => none
  | fuel + 1, curr =>
    (h curr).bind fun n =>
    n.prev.bind fun x =>
    if x = tail then some [n.data] else (readRingBack h tail fuel x).map fun l => n.data :: l

/-- The ring 10, 20, 30 with the nodes at the addresses 1, 2, 3. -/
def demoRing : Heap :=
  store (store (store (fun _ => none) 1 ⟨10, some 2, some 3⟩) 2 ⟨20, some 3, some 1⟩) 3
    ⟨30, some 1, some 2⟩

end DoublyCircularLinkedList

namespace AVL

open AVL_Tree

/-! ## Basic facts -/

theorem max_eq (a b : Int) : AVL.max a b = Max.max a b := by
  unfold AVL.max; omega

theorem getHeight_null : getHeight null = 0 := rfl

theorem getHeight_node (d h : Int) (l r : AVL_Tree) : getHeight (node d h l r) = h := rfl

theorem getHeight_eq_height : ∀ t : AVL_Tree, HeightsOK t → getHeight t = (height t : Int)
  | null, _ => rfl
  | node _ _ _ _, h => h.1

theorem avlh_of_inv : ∀ t : AVL_Tree, Balanced t → HeightsOK t → AVLh t
  | null, _, _ => trivial
  | node d h l r, hb, hh => by
    obtain ⟨hb1, hb2, hb3⟩ := hb
    obtain ⟨hh1, hh2, hh3⟩ := hh
    have e1 := getHeight_eq_height l hh2
    have e2 := getHeight_eq_height r hh3
    rw [abs_le] at hb1
    refine ⟨avlh_of_inv l hb2 hh2, avlh_of_inv r hb3 hh3, ?_, ?_, ?_⟩
    · rw [hh1, e1, e2]; simp only [height]; push_cast; omega
    · omega
    · omega

theorem inv_of_avlh : ∀ t : AVL_Tree, AVLh t → Balanced t ∧ HeightsOK t
  | null, _ => ⟨trivial, trivial⟩
  | node d h l r, ht => by
    obtain ⟨h1, h2, h3, h4, h5⟩ := ht
    obtain ⟨bl, ol⟩ := inv_of_avlh l h1
    obtain ⟨br, or⟩ := inv_of_avlh r h2
    have e1 := getHeight_eq_height l ol
    have e2 := getHeight_eq_height r or
    refine ⟨⟨?_, bl, br⟩, ⟨?_, ol, or⟩⟩
    · rw [abs_le]; omega
    · rw [h3, e1, e2]; simp only [height]; push_cast; omega

theorem getHeight_nonneg : ∀ t : AVL_Tree, AVLh t → 0 ≤ getHeight t
  | null, _ => le_refl _
  | node _ _ l r, ht => by
    have := getHeight_nonneg l ht.1
    have := ht.2.2.1
    simp only [getHeight_node]; omega

theorem node_of_pos {t : AVL_Tree} (hpos : 0 < getHeight t) :
    ∃ d h l r, t = node d h l r := by
  cases t with
  | null => simp [getHeight] at hpos
  | node d h l r => exact ⟨d, h, l, r, rfl⟩

theorem insertRebalance_node (v d h : Int) (l r : AVL_Tree) :
    insertRebalance v (node d h l r) =
      if getHeight l - getHeight r > 1 then
        match l with
        | null => none
        | node ld _ _ _ =>
          if v < ld then rightRotate (node d (Max.max (getHeight l) (getHeight r) + 1) l r)
          else if v > ld then LR_Rotate (node d (Max.max (getHeight l) (getHeight r) + 1) l r)
          else some (node d (Max.max (getHeight l) (getHeight r) + 1) l r)
      else if getHeight l - getHeight r < -1 then
        match r with
        | null => none
        | node rd _ _ _ =>
          if v > rd then leftRotate (node d (Max.max (getHeight l) (getHeight r) + 1) l r)
          else if v < rd then RL_Rotate (node d (Max.max (getHeight l) (getHeight r) + 1) l r)
          else some (node d (Max.max (getHeight l) (getHeight r) + 1) l r)
      else some (node d (Max.max (getHeight l) (getHeight r) + 1) l r) := by
  simp only [insertRebalance, updateHeight, getBalance, Option.some_bind, left, right, max_eq]
  by_cases h1 : getHeight l - getHeight r > 1
  · have h2 : ¬ getHeight l - getHeight r < -1 := by omega
    cases l with
    | null => simp [cAnd, h1, data]
    | node ld lh ll lr =>
      by_cases c1 : v < ld
      · simp [cAnd, h1, data, c1]
      · by_cases c2 : v > ld
        · simp [cAnd, h1, h2, data, c1, c2]
        · simp [cAnd, h1, h2, data, c1, c2]
  · by_cases h2 : getHeight l - getHeight r < -1
    · cases r with
      | null => simp [cAnd, h1, h2, data]
      | node rd rh rl rr =>
        by_cases c1 : v > rd
        · simp [cAnd, h1, h2, data, c1]
        · by_cases c2 : v < rd
          · simp [cAnd, h1, h2, data, c1, c2]
          · simp [cAnd, h1, h2, data, c1, c2]
    · simp [cAnd, h1, h2]

theorem deleteRebalance_node (d h : Int) (l r : AVL_Tree) :
    deleteRebalance (node d h l r) =
      if getHeight l - getHeight r > 1 then
        match l with
        | null => none
        | node _ _ ll lr =>
          if getHeight ll - getHeight lr ≥ 0 then
            rightRotate (node d (Max.max (getHeight l) (getHeight r) + 1) l r)
          else LR_Rotate (node d (Max.max (getHeight l) (getHeight r) + 1) l r)
      else if getHeight l - getHeight r < -1 then
        match r with
        | null => none
        | node _ _ rl rr =>
          if getHeight rl - getHeight rr ≤ 0 then
            leftRotate (node d (Max.max (getHeight l) (getHeight r) + 1) l r)
          else RL_Rotate (node d (Max.max (getHeight l) (getHeight r) + 1) l r)
      else some (node d (Max.max (getHeight l) (getHeight r) + 1) l r) := by
  simp only [deleteRebalance, updateHeight, getBalance, Option.some_bind, left, right, max_eq]
  by_cases h1 : getHeight l - getHeight r > 1
  · have h2 : ¬ getHeight l - getHeight r < -1 := by omega
    cases l with
    | null => simp [cAnd, h1, getBalance]
    | node ld lh ll lr =>
      by_cases c1 : getHeight ll - getHeight lr ≥ 0
      · simp [cAnd, h1, getBalance, c1]
      · have c2 : getHeight ll - getHeight lr < 0 := by omega
        simp [cAnd, h1, getBalance, c1, c2]
  · by_cases h2 : getHeight l - getHeight r < -1
    · cases r with
      | null => simp [cAnd, h1, h2, getBalance]
      | node rd rh rl rr =>
        by_cases c1 : getHeight rl - getHeight rr ≤ 0
        · simp [cAnd, h1, h2, getBalance, c1]
        · have c2 : getHeight rl - getHeight rr > 0 := by omega
          simp [cAnd, h1, h2, getBalance, c1, c2]
    · simp [cAnd, h1, h2]


theorem rightRotate_inorder {t t' : AVL_Tree} (e : rightRotate t = some t') :
    inorder t' = inorder t := by
  unfold rightRotate at e
  split at e
  · cases e; simp [inorder]
  · cases e

theorem leftRotate_inorder {t t' : AVL_Tree} (e : leftRotate t = some t') :
    inorder t' = inorder t := by
  unfold leftRotate at e
  split at e
  · cases e; simp [inorder]
  · cases e

theorem LR_Rotate_inorder {t t' : AVL_Tree} (e : LR_Rotate t = some t') :
    inorder t' = inorder t := by
  cases t with
  | null => cases e
  | node d h l r =>
    simp only [LR_Rotate, Option.bind_eq_some] at e
    obtain ⟨l', e1, e2⟩ := e
    rw [rightRotate_inorder e2]
    simp [inorder, leftRotate_inorder e1]

theorem RL_Rotate_inorder {t t' : AVL_Tree} (e : RL_Rotate t = some t') :
    inorder t' = inorder t := by
  cases t with
  | null => cases e
  | node d h l r =>
    simp only [RL_Rotate, Option.bind_eq_some] at e
    obtain ⟨r', e1, e2⟩ := e
    rw [leftRotate_inorder e2]
    simp [inorder, rightRotate_inorder e1]

theorem insertRebalance_inorder {v : Int} {t t' : AVL_Tree}
    (e : insertRebalance v t = some t') : inorder t' = inorder t := by
  cases t with
  | null => simp [insertRebalance, updateHeight] at e
  | node d h l r =>
    rw [insertRebalance_node] at e
    have base : inorder (node d (Max.max (getHeight l) (getHeight r) + 1) l r)
        = inorder (node d h l r) := rfl
    split_ifs at e
    · cases l with
      | null => cases e
      | node ld lh ll lr =>
        simp only at e
        split_ifs at e
        · rw [rightRotate_inorder e, base]
        · rw [LR_Rotate_inorder e, base]
        · cases e; rfl
    · cases r with
      | null => cases e
      | node rd rh rl rr =>
        simp only at e
        split_ifs at e
        · rw [leftRotate_inorder e, base]
        · rw [RL_Rotate_inorder e, base]
        · cases e; rfl
    · cases e; rfl

theorem deleteRebalance_inorder {t t' : AVL_Tree}
    (e : deleteRebalance t = some t') : inorder t' = inorder t := by
  cases t with
  | null => simp [deleteRebalance, updateHeight] at e
  | node d h l r =>
    rw [deleteRebalance_node] at e
    have base : inorder (node d (Max.max (getHeight l) (getHeight r) + 1) l r)
        = inorder (node d h l r) := rfl
    split_ifs at e
    · cases l with
      | null => cases e
      | node ld lh ll lr =>
        simp only at e
        split_ifs at e
        · rw [rightRotate_inorder e, base]
        · rw [LR_Rotate_inorder e, base]
    · cases r with
      | null => cases e
      | node rd rh rl rr =>
        simp only at e
        split_ifs at e
        · rw [leftRotate_inorder e, base]
        · rw [RL_Rotate_inorder e, base]
    · cases e; rfl

/-! ## Rotations and rebalancing preserve the height invariants -/

theorem node_bounds {d h : Int} {l r : AVL_Tree} (ht : AVLh (node d h l r)) :
    AVLh l ∧ AVLh r ∧ 0 ≤ getHeight l ∧ 0 ≤ getHeight r ∧
      ((h = getHeight l + 1 ∧ getHeight r ≤ getHeight l ∧ getHeight l ≤ getHeight r + 1) ∨
       (h = getHeight r + 1 ∧ getHeight l + 1 = getHeight r)) := by
  obtain ⟨a1, a2, a3, a4, a5⟩ := ht
  have nl := getHeight_nonneg l a1
  have nr := getHeight_nonneg r a2
  refine ⟨a1, a2, nl, nr, ?_⟩
  omega

theorem avlh_node {d : Int} {l r : AVL_Tree} (hl : AVLh l) (hr : AVLh r) {h : Int}
    (e : (h = getHeight l + 1 ∧ getHeight r ≤ getHeight l ∧ getHeight l ≤ getHeight r + 1) ∨
      (h = getHeight r + 1 ∧ getHeight l + 1 = getHeight r)) :
    AVLh (node d h l r) := by
  refine ⟨hl, hr, ?_, ?_, ?_⟩ <;> omega

theorem rightRotate_avlh (d h ld lh : Int) (ll lr r : AVL_Tree)
    (a1 : AVLh ll) (a2 : AVLh lr) (a3 : AVLh r)
    (e1 : getHeight ll = getHeight r + 1)
    (e2 : getHeight lr = getHeight r ∨ getHeight lr = getHeight r + 1) :
    ∃ t', rightRotate (node d h (node ld lh ll lr) r) = some t' ∧ AVLh t' ∧
      getHeight t' = getHeight lr + 2 := by
  refine ⟨_, rfl, avlh_node a1 (avlh_node a2 a3 ?_) ?_, ?_⟩
  · rw [max_eq]; omega
  · rw [max_eq]; simp only [getHeight_node, max_eq]; omega
  · simp only [getHeight_node, max_eq]; omega

theorem leftRotate_avlh (d h rd rh : Int) (l rl rr : AVL_Tree)
    (a1 : AVLh l) (a2 : AVLh rl) (a3 : AVLh rr)
    (e1 : getHeight rr = getHeight l + 1)
    (e2 : getHeight rl = getHeight l ∨ getHeight rl = getHeight l + 1) :
    ∃ t', leftRotate (node d h l (node rd rh rl rr)) = some t' ∧ AVLh t' ∧
      getHeight t' = getHeight rl + 2 := by
  refine ⟨_, rfl, avlh_node (avlh_node a1 a2 ?_) a3 ?_, ?_⟩
  · rw [max_eq]; omega
  · rw [max_eq]; simp only [getHeight_node, max_eq]; omega
  · simp only [getHeight_node, max_eq]; omega

theorem LR_Rotate_avlh (d h ld lh : Int) (ll lr r : AVL_Tree)
    (a1 : AVLh ll) (a2 : AVLh lr) (a3 : AVLh r)
    (e1 : getHeight lr = getHeight r + 1) (e2 : getHeight ll = getHeight r) :
    ∃ t', LR_Rotate (node d h (node ld lh ll lr) r) = some t' ∧ AVLh t' ∧
      getHeight t' = getHeight r + 2 := by
  have nr := getHeight_nonneg r a3
  obtain ⟨x, xh, xl, xr, rfl⟩ := node_of_pos (t := lr) (by omega)
  obtain ⟨x1, x2, -, -, x3⟩ := node_bounds a2
  rw [getHeight_node] at e1
  subst e1
  refine ⟨_, rfl, avlh_node (avlh_node a1 x1 ?_) (avlh_node x2 a3 ?_) ?_, ?_⟩
  · rw [max_eq]; omega
  · rw [max_eq]; omega
  · rw [max_eq]; simp only [getHeight_node, max_eq]; omega
  · simp only [getHeight_node, max_eq]; omega

theorem RL_Rotate_avlh (d h rd rh : Int) (l rl rr : AVL_Tree)
    (a1 : AVLh l) (a2 : AVLh rl) (a3 : AVLh rr)
    (e1 : getHeight rl = getHeight l + 1) (e2 : getHeight rr = getHeight l) :
    ∃ t', RL_Rotate (node d h l (node rd rh rl rr)) = some t' ∧ AVLh t' ∧
      getHeight t' = getHeight l + 2 := by
  have nl := getHeight_nonneg l a1
  obtain ⟨x, xh, xl, xr, rfl⟩ := node_of_pos (t := rl) (by omega)
  obtain ⟨x1, x2, -, -, x3⟩ := node_bounds a2
  rw [getHeight_node] at e1
  subst e1
  refine ⟨_, rfl, avlh_node (avlh_node a1 x1 ?_) (avlh_node x2 a3 ?_) ?_, ?_⟩
  · rw [max_eq]; omega
  · rw [max_eq]; omega
  · rw [max_eq]; simp only [getHeight_node, max_eq]; omega
  · simp only [getHeight_node, max_eq]; omega


theorem minValueNode_node : ∀ (d h : Int) (l r : AVL_Tree),
    ∃ m mh mr rest, minValueNode (node d h l r) = some (node m mh null mr) ∧
      inorder (node d h l r) = m :: rest
  | d, h, null, r => ⟨d, h, r, inorder r, rfl, rfl⟩
  | d, h, node ld lh ll lr, r => by
    obtain ⟨m, mh, mr, rest, e1, e2⟩ := minValueNode_node ld lh ll lr
    refine ⟨m, mh, mr, rest ++ d :: inorder r, ?_, ?_⟩
    · rw [minValueNode, e1]
    · rw [inorder, e2]; rfl

theorem insertRebalance_avlh (v d h : Int) (l r : AVL_Tree) (hl : AVLh l) (hr : AVLh r)
    (b1 : -2 ≤ getHeight l - getHeight r) (b2 : getHeight l - getHeight r ≤ 2)
    (gl : getHeight l - getHeight r = 2 → Leans v l)
    (gr : getHeight l - getHeight r = -2 → Leans v r) :
    ∃ t', insertRebalance v (node d h l r) = some t' ∧ AVLh t' ∧
      (-1 ≤ getHeight l - getHeight r → getHeight l - getHeight r ≤ 1 →
        t' = node d (Max.max (getHeight l) (getHeight r) + 1) l r) ∧
      (getHeight l - getHeight r = 2 → getHeight t' = getHeight l) ∧
      (getHeight l - getHeight r = -2 → getHeight t' = getHeight r) := by
  rw [insertRebalance_node]
  by_cases h1 : getHeight l - getHeight r > 1
  · have gl' := gl (by clear gl gr; omega)
    clear gl gr
    cases l with
    | null => exact gl'.elim
    | node ld lh ll lr =>
      obtain ⟨ne, g1, g2⟩ := gl'
      obtain ⟨a1, a2, n1, n2, a3⟩ := node_bounds hl
      rw [getHeight_node] at h1 b1 b2
      simp only [h1, if_true, getHeight_node]
      by_cases c1 : v < ld
      · have g := g1 c1
        clear g1 g2
        obtain ⟨t', e, ht', hh⟩ :=
          rightRotate_avlh d (Max.max lh (getHeight r) + 1) ld lh ll lr r a1 a2 hr
            (by omega) (by omega)
        simp only [c1, if_true]
        exact ⟨t', e, ht', fun _ _ => by omega, fun _ => by omega, fun _ => by omega⟩
      · have c2 : v > ld := by clear g1 g2; omega
        have g := g2 c2
        clear g1 g2
        obtain ⟨t', e, ht', hh⟩ :=
          LR_Rotate_avlh d (Max.max lh (getHeight r) + 1) ld lh ll lr r a1 a2 hr
            (by omega) (by omega)
        simp only [c1, c2, if_true, if_false]
        exact ⟨t', e, ht', fun _ _ => by omega, fun _ => by omega, fun _ => by omega⟩
  · by_cases h2 : getHeight l - getHeight r < -1
    · have gr' := gr (by clear gl gr; omega)
      clear gl gr
      cases r with
      | null => exact gr'.elim
      | node rd rh rl rr =>
        obtain ⟨ne, g1, g2⟩ := gr'
        obtain ⟨a1, a2, n1, n2, a3⟩ := node_bounds hr
        rw [getHeight_node] at h1 h2 b1 b2
        simp only [h1, h2, if_true, if_false, getHeight_node]
        by_cases c1 : v > rd
        · have g := g2 c1
          clear g1 g2
          obtain ⟨t', e, ht', hh⟩ :=
            leftRotate_avlh d (Max.max (getHeight l) rh + 1) rd rh l rl rr hl a1 a2
              (by omega) (by omega)
          simp only [c1, if_true]
          exact ⟨t', e, ht', fun _ _ => by omega, fun _ => by omega, fun _ => by omega⟩
        · have c2 : v < rd := by clear g1 g2; omega
          have g := g1 c2
          clear g1 g2
          obtain ⟨t', e, ht', hh⟩ :=
            RL_Rotate_avlh d (Max.max (getHeight l) rh + 1) rd rh l rl rr hl a1 a2
              (by omega) (by omega)
          simp only [c1, c2, if_true, if_false]
          exact ⟨t', e, ht', fun _ _ => by omega, fun _ => by omega, fun _ => by omega⟩
    · clear gl gr
      simp only [h1, h2, if_false]
      refine ⟨_, rfl, ?_, fun _ _ => rfl, fun _ => by omega, fun _ => by omega⟩
      exact ⟨hl, hr, rfl, by omega, by omega⟩

theorem deleteRebalance_avlh (d h : Int) (l r : AVL_Tree) (hl : AVLh l) (hr : AVLh r)
    (b1 : -2 ≤ getHeight l - getHeight r) (b2 : getHeight l - getHeight r ≤ 2) :
    ∃ t', deleteRebalance (node d h l r) = some t' ∧ AVLh t' ∧
      (-1 ≤ getHeight l - getHeight r → getHeight l - getHeight r ≤ 1 →
        t' = node d (Max.max (getHeight l) (getHeight r) + 1) l r) ∧
      (getHeight l - getHeight r = 2 →
        getHeight t' = getHeight l ∨ getHeight t' = getHeight l + 1) ∧
      (getHeight l - getHeight r = -2 →
        getHeight t' = getHeight r ∨ getHeight t' = getHeight r + 1) := by
  rw [deleteRebalance_node]
  have nl := getHeight_nonneg l hl
  have nr := getHeight_nonneg r hr
  by_cases h1 : getHeight l - getHeight r > 1
  · obtain ⟨ld, lh, ll, lr, rfl⟩ := node_of_pos (t := l) (by omega)
    obtain ⟨a1, a2, n1, n2, a3⟩ := node_bounds hl
    rw [getHeight_node] at h1 b1 b2 nl
    simp only [h1, if_true, getHeight_node]
    by_cases c1 : getHeight ll - getHeight lr ≥ 0
    · obtain ⟨t', e, ht', hh⟩ :=
        rightRotate_avlh d (Max.max lh (getHeight r) + 1) ld lh ll lr r a1 a2 hr
          (by omega) (by omega)
      simp only [c1, if_true]
      exact ⟨t', e, ht', fun _ _ => by omega, fun _ => by omega, fun _ => by omega⟩
    · obtain ⟨t', e, ht', hh⟩ :=
        LR_Rotate_avlh d (Max.max lh (getHeight r) + 1) ld lh ll lr r a1 a2 hr
          (by omega) (by omega)
      simp only [c1, if_false]
      exact ⟨t', e, ht', fun _ _ => by omega, fun _ => by omega, fun _ => by omega⟩
  · by_cases h2 : getHeight l - getHeight r < -1
    · obtain ⟨rd, rh, rl, rr, rfl⟩ := node_of_pos (t := r) (by omega)
      obtain ⟨a1, a2, n1, n2, a3⟩ := node_bounds hr
      rw [getHeight_node] at h1 h2 b1 b2 nr
      simp only [h1, h2, if_true, if_false, getHeight_node]
      by_cases c1 : getHeight rl - getHeight rr ≤ 0
      · obtain ⟨t', e, ht', hh⟩ :=
          leftRotate_avlh d (Max.max (getHeight l) rh + 1) rd rh l rl rr hl a1 a2
            (by omega) (by omega)
        simp only [c1, if_true]
        exact ⟨t', e, ht', fun _ _ => by omega, fun _ => by omega, fun _ => by omega⟩
      · obtain ⟨t', e, ht', hh⟩ :=
          RL_Rotate_avlh d (Max.max (getHeight l) rh + 1) rd rh l rl rr hl a1 a2
            (by omega) (by omega)
        simp only [c1, if_false]
        exact ⟨t', e, ht', fun _ _ => by omega, fun _ => by omega, fun _ => by omega⟩
    · simp only [h1, h2, if_false]
      refine ⟨_, rfl, ?_, fun _ _ => rfl, fun _ => by omega, fun _ => by omega⟩
      exact ⟨hl, hr, rfl, by omega, by omega⟩

theorem delete_avlh : ∀ (t : AVL_Tree) (v : Int), AVLh t →
    ∃ t', delete t v = some t' ∧ AVLh t' ∧
      (getHeight t' = getHeight t ∨ getHeight t' = getHeight t - 1)
  | null, _, _ => ⟨null, rfl, trivial, Or.inl rfl⟩
  | node d h l r, v, ht => by
    obtain ⟨a1, a2, nl, nr, a3⟩ := node_bounds ht
    clear ht
    by_cases c1 : v < d
    · obtain ⟨l', e, hl', hh⟩ := delete_avlh l v a1
      obtain ⟨t', et, ht', p1, -, p3⟩ :=
        deleteRebalance_avlh d h l' r hl' a2 (by omega) (by omega)
      have et' : delete (node d h l r) v = some t' := by
        simp only [delete, c1, if_true, e, Option.map_some', Option.some_bind, et]
      clear et e
      refine ⟨t', et', ht', ?_⟩
      rw [getHeight_node]
      by_cases hb : -1 ≤ getHeight l' - getHeight r
      · have q := p1 hb (by clear p1 p3; omega)
        clear p1 p3
        subst q
        rw [getHeight_node]; omega
      · have q := p3 (by clear p1 p3; omega)
        clear p1 p3
        omega
    · by_cases c2 : v > d
      · obtain ⟨r', e, hr', hh⟩ := delete_avlh r v a2
        obtain ⟨t', et, ht', p1, p2, -⟩ :=
          deleteRebalance_avlh d h l r' a1 hr' (by omega) (by omega)
        have et' : delete (node d h l r) v = some t' := by
          simp only [delete, c1, c2, if_true, if_false, e, Option.map_some', Option.some_bind, et]
        clear et e
        refine ⟨t', et', ht', ?_⟩
        rw [getHeight_node]
        by_cases hb : getHeight l - getHeight r' ≤ 1
        · have q := p1 (by clear p1 p2; omega) hb
          clear p1 p2
          subst q
          rw [getHeight_node]; omega
        · have q := p2 (by clear p1 p2; omega)
          clear p1 p2
          omega
      · cases l with
        | null =>
          refine ⟨r, ?_, a2, ?_⟩
          · simp only [delete, c1, c2, if_false]
          · simp only [getHeight_null, getHeight_node] at a3 ⊢; omega
        | node ld lh ll lr =>
          cases r with
          | null =>
            refine ⟨node ld lh ll lr, ?_, a1, ?_⟩
            · simp only [delete, c1, c2, if_false]
            · simp only [getHeight_null, getHeight_node] at a3 nl ⊢; omega
          | node rd rh rl rr =>
            obtain ⟨m, mh, mr, rest, e1, -⟩ := minValueNode_node rd rh rl rr
            obtain ⟨r', e, hr', hh⟩ := delete_avlh (node rd rh rl rr) m a2
            obtain ⟨t', et, ht', p1, p2, -⟩ :=
              deleteRebalance_avlh m h (node ld lh ll lr) r' a1 hr' (by omega) (by omega)
            have et' : delete (node d h (node ld lh ll lr) (node rd rh rl rr)) v = some t' := by
              rw [delete]
              simp only [c1, c2, if_false, e1, data, e, Option.map_some',
                Option.some_bind, et]
            clear et e e1
            refine ⟨t', et', ht', ?_⟩
            rw [getHeight_node]
            by_cases hb : getHeight (node ld lh ll lr) - getHeight r' ≤ 1
            · have q := p1 (by clear p1 p2; omega) hb
              clear p1 p2
              subst q
              rw [getHeight_node]; omega
            · have q := p2 (by clear p1 p2; omega)
              clear p1 p2
              omega

theorem insert_avlh (v : Int) : ∀ t : AVL_Tree, AVLh t →
    ∃ t', insert t v = some t' ∧ AVLh t' ∧
      (getHeight t' = getHeight t ∨ getHeight t' = getHeight t + 1) ∧
      (getHeight t' = getHeight t + 1 → t ≠ null → Leans v t')
  | null, _ => by
    refine ⟨createNode v, rfl, ?_, Or.inr rfl, fun _ hn => absurd rfl hn⟩
    simp [createNode, AVLh, getHeight_null]
  | node d h l r, ht => by
    obtain ⟨a1, a2, nl, nr, a3⟩ := node_bounds ht
    clear ht
    by_cases c1 : v < d
    · obtain ⟨l', e, hl', hh, lean⟩ := insert_avlh v l a1
      have one : l = null → getHeight l' = 1 := by
        rintro rfl
        simp only [insert, Option.some.injEq] at e
        subst e
        rfl
      have gl : getHeight l' - getHeight r = 2 → Leans v l' := by
        intro hb
        refine lean ?_ ?_
        · clear lean one; omega
        · intro hn
          have := one hn
          clear lean one; omega
      clear lean one
      obtain ⟨t', et, ht', p1, p2, -⟩ :=
        insertRebalance_avlh v d h l' r hl' a2 (by clear gl; omega) (by clear gl; omega) gl
          (by intro; clear gl; omega)
      clear gl
      have et' : insert (node d h l r) v = some t' := by
        simp only [insert, c1, if_true, e, Option.map_some', Option.some_bind, et]
      clear et e
      refine ⟨t', et', ht', ?_⟩
      simp only [getHeight_node]
      by_cases hb : getHeight l' - getHeight r ≤ 1
      · have q := p1 (by clear p1 p2; omega) hb
        clear p1 p2
        subst q
        simp only [getHeight_node]
        refine ⟨by omega, fun hg _ => ⟨by omega, fun _ => by omega, fun _ => by omega⟩⟩
      · have q := p2 (by clear p1 p2; omega)
        clear p1 p2
        exact ⟨by omega, fun hg _ => by omega⟩
    · by_cases c2 : v > d
      · obtain ⟨r', e, hr', hh, lean⟩ := insert_avlh v r a2
        have one : r = null → getHeight r' = 1 := by
          rintro rfl
          simp only [insert, Option.some.injEq] at e
          subst e
          rfl
        have gr : getHeight l - getHeight r' = -2 → Leans v r' := by
          intro hb
          refine lean ?_ ?_
          · clear lean one; omega
          · intro hn
            have := one hn
            clear lean one; omega
        clear lean one
        obtain ⟨t', et, ht', p1, -, p3⟩ :=
          insertRebalance_avlh v d h l r' a1 hr' (by clear gr; omega) (by clear gr; omega)
            (by intro; clear gr; omega) gr
        clear gr
        have et' : insert (node d h l r) v = some t' := by
          simp only [insert, c1, c2, if_true, if_false, e, Option.map_some', Option.some_bind, et]
        clear et e
        refine ⟨t', et', ht', ?_⟩
        simp only [getHeight_node]
        by_cases hb : -1 ≤ getHeight l - getHeight r'
        · have q := p1 hb (by clear p1 p3; omega)
          clear p1 p3
          subst q
          simp only [getHeight_node]
          refine ⟨by omega, fun hg _ => ⟨by omega, fun _ => by omega, fun _ => by omega⟩⟩
        · have q := p3 (by clear p1 p3; omega)
          clear p1 p3
          exact ⟨by omega, fun hg _ => by omega⟩
      · obtain ⟨t', et, ht', p1, -, -⟩ :=
          insertRebalance_avlh v d h l r a1 a2 (by omega) (by omega)
            (by intro; omega) (by intro; omega)
        have q := p1 (by clear p1; omega) (by clear p1; omega)
        clear p1
        subst q
        refine ⟨_, ?_, ht', ?_, ?_⟩
        · simp only [insert, c1, c2, if_false, Option.some_bind, et]
        · simp only [getHeight_node]; omega
        · intro hg _
          simp only [getHeight_node] at hg
          omega

theorem bst_node (d h : Int) (l r : AVL_Tree) :
    BST (node d h l r) ↔
      BST l ∧ BST r ∧ (∀ x ∈ inorder l, x < d) ∧ (∀ x ∈ inorder r, d < x) := by
  simp only [BST, inorder, List.Sorted, List.pairwise_append, List.pairwise_cons,
    List.mem_cons]
  constructor
  · rintro ⟨h1, ⟨h2, h3⟩, h4⟩
    exact ⟨h1, h3, fun x hx => h4 x hx d (Or.inl rfl), h2⟩
  · rintro ⟨h1, h2, h3, h4⟩
    refine ⟨h1, ⟨h4, h2⟩, ?_⟩
    rintro a ha b (rfl | hb)
    · exact h3 a ha
    · exact lt_trans (h3 a ha) (h4 b hb)

theorem filter_lt_nil {v : Int} {xs : List Int} (hx : ∀ x ∈ xs, v ≤ x) :
    xs.filter (fun x => decide (x < v)) = [] := by
  rw [List.filter_eq_nil_iff]
  intro a ha
  have := hx a ha
  simp only [decide_eq_true_eq]; omega

theorem filter_lt_self {v : Int} {xs : List Int} (hx : ∀ x ∈ xs, x < v) :
    xs.filter (fun x => decide (x < v)) = xs := by
  rw [List.filter_eq_self]
  intro a ha
  simpa using hx a ha

theorem filter_gt_nil {v : Int} {xs : List Int} (hx : ∀ x ∈ xs, x ≤ v) :
    xs.filter (fun x => decide (v < x)) = [] := by
  rw [List.filter_eq_nil_iff]
  intro a ha
  have := hx a ha
  simp only [decide_eq_true_eq]; omega

theorem filter_gt_self {v : Int} {xs : List Int} (hx : ∀ x ∈ xs, v < x) :
    xs.filter (fun x => decide (v < x)) = xs := by
  rw [List.filter_eq_self]
  intro a ha
  simpa using hx a ha

theorem filter_ne_self {v : Int} {xs : List Int} (hx : ∀ x ∈ xs, x ≠ v) :
    xs.filter (fun x => decide (x ≠ v)) = xs := by
  rw [List.filter_eq_self]
  intro a ha
  simpa using hx a ha

theorem insert_inorder (v : Int) : ∀ (t t' : AVL_Tree), insert t v = some t' → BST t →
    inorder t' = (inorder t).filter (fun x => decide (x < v)) ++
      v :: (inorder t).filter (fun x => decide (v < x))
  | null, t', e, _ => by
    simp only [insert, Option.some.injEq] at e
    subst e; rfl
  | node d h l r, t', e, hb => by
    obtain ⟨b1, b2, b3, b4⟩ := (bst_node d h l r).1 hb
    rw [insert] at e
    simp only [inorder, List.filter_append]
    by_cases c1 : v < d
    · simp only [c1, if_true, Option.bind_eq_some, Option.map_eq_some'] at e
      obtain ⟨_, ⟨l', el, rfl⟩, e2⟩ := e
      rw [insertRebalance_inorder e2, inorder, insert_inorder v l l' el b1]
      have f1 : (d :: inorder r).filter (fun x => decide (x < v)) = [] :=
        filter_lt_nil (by
          intro x hx
          rcases List.mem_cons.1 hx with rfl | hx
          · omega
          · have := b4 x hx; omega)
      have f2 : (d :: inorder r).filter (fun x => decide (v < x)) = d :: inorder r :=
        filter_gt_self (by
          intro x hx
          rcases List.mem_cons.1 hx with rfl | hx
          · omega
          · have := b4 x hx; omega)
      rw [f1, f2]; simp
    · by_cases c2 : v > d
      · simp only [c1, c2, if_true, if_false, Option.bind_eq_some, Option.map_eq_some'] at e
        obtain ⟨_, ⟨r', er, rfl⟩, e2⟩ := e
        rw [insertRebalance_inorder e2, inorder, insert_inorder v r r' er b2]
        have f1 : (inorder l).filter (fun x => decide (x < v)) = inorder l :=
          filter_lt_self (fun x hx => by have := b3 x hx; omega)
        have f2 : (inorder l).filter (fun x => decide (v < x)) = [] :=
          filter_gt_nil (fun x hx => by have := b3 x hx; omega)
        have f3 : (d :: inorder r).filter (fun x => decide (x < v))
            = d :: (inorder r).filter (fun x => decide (x < v)) := by
          simp [List.filter_cons, c2]
        have f4 : (d :: inorder r).filter (fun x => decide (v < x))
            = (inorder r).filter (fun x => decide (v < x)) := by
          simp [List.filter_cons, c1]
        rw [f1, f2, f3, f4]; simp
      · have hv : v = d := by omega
        subst hv
        simp only [c1, if_false, Option.some_bind] at e
        rw [insertRebalance_inorder e, inorder]
        have f1 : (inorder l).filter (fun x => decide (x < v)) = inorder l :=
          filter_lt_self b3
        have f2 : (inorder l).filter (fun x => decide (v < x)) = [] :=
          filter_gt_nil (fun x hx => le_of_lt (b3 x hx))
        have f3 : (v :: inorder r).filter (fun x => decide (x < v)) = [] :=
          filter_lt_nil (by
            intro x hx
            rcases List.mem_cons.1 hx with rfl | hx
            · omega
            · exact le_of_lt (b4 x hx))
        have f4 : (v :: inorder r).filter (fun x => decide (v < x)) = inorder r := by
          rw [List.filter_cons]
          simp only [lt_self_iff_false, decide_False, Bool.false_eq_true, if_false]
          exact filter_gt_self b4
        rw [f1, f2, f3, f4]; simp

theorem delete_inorder : ∀ (t : AVL_Tree) (v : Int) (t' : AVL_Tree),
    delete t v = some t' → BST t →
    inorder t' = (inorder t).filter (fun x => decide (x ≠ v))
  | null, v, t', e, _ => by
    simp only [delete, Option.some.injEq] at e
    subst e; rfl
  | node d h l r, v, t', e, hb => by
    obtain ⟨b1, b2, b3, b4⟩ := (bst_node d h l r).1 hb
    rw [delete.eq_def] at e
    simp only at e
    simp only [inorder, List.filter_append]
    by_cases c1 : v < d
    · simp only [c1, if_true, Option.bind_eq_some, Option.map_eq_some'] at e
      obtain ⟨_, ⟨l', el, rfl⟩, e2⟩ := e
      rw [deleteRebalance_inorder e2, inorder, delete_inorder l v l' el b1]
      have f1 : (d :: inorder r).filter (fun x => decide (x ≠ v)) = d :: inorder r :=
        filter_ne_self (by
          intro x hx
          rcases List.mem_cons.1 hx with rfl | hx
          · omega
          · have := b4 x hx; omega)
      rw [f1]
    · by_cases c2 : v > d
      · simp only [c1, c2, if_true, if_false, Option.bind_eq_some, Option.map_eq_some'] at e
        obtain ⟨_, ⟨r', er, rfl⟩, e2⟩ := e
        rw [deleteRebalance_inorder e2, inorder, delete_inorder r v r' er b2]
        have f1 : (inorder l).filter (fun x => decide (x ≠ v)) = inorder l :=
          filter_ne_self (fun x hx => by have := b3 x hx; omega)
        have f3 : (d :: inorder r).filter (fun x => decide (x ≠ v))
            = d :: (inorder r).filter (fun x => decide (x ≠ v)) := by
          have : d ≠ v := by omega
          simp [List.filter_cons, this]
        rw [f1, f3]
      · have hv : v = d := by omega
        subst hv
        have f1 : (inorder l).filter (fun x => decide (x ≠ v)) = inorder l :=
          filter_ne_self (fun x hx => by have := b3 x hx; omega)
        have f2 : (v :: inorder r).filter (fun x => decide (x ≠ v)) = inorder r := by
          rw [List.filter_cons]
          simp only [ne_eq, not_true_eq_false, decide_False, Bool.false_eq_true, if_false]
          exact filter_ne_self (fun x hx => by have := b4 x hx; omega)
        rw [f1, f2]
        simp only [c1, if_false] at e
        cases l with
        | null =>
          simp only [Option.some.injEq] at e
          subst e; rfl
        | node ld lh ll lr =>
          cases r with
          | null =>
            simp only [Option.some.injEq] at e
            subst e; simp [inorder]
          | node rd rh rl rr =>
            obtain ⟨m, mh, mr, rest, e1, e2⟩ := minValueNode_node rd rh rl rr
            simp only [e1, data, Option.some_bind, Option.bind_eq_some,
              Option.map_eq_some'] at e
            obtain ⟨_, ⟨r', er, rfl⟩, e3⟩ := e
            rw [deleteRebalance_inorder e3, inorder,
              delete_inorder (node rd rh rl rr) m r' er b2, e2]
            have srt : (m :: rest).Sorted (· < ·) := by
              have := b2; unfold BST at this; rwa [e2] at this
            have f3 : (m :: rest).filter (fun x => decide (x ≠ m)) = rest := by
              rw [List.filter_cons]
              simp only [ne_eq, not_true_eq_false, decide_False, Bool.false_eq_true, if_false]
              exact filter_ne_self (fun x hx => by
                have := List.rel_of_sorted_cons srt x hx; omega)
            rw [f3]

/-! ## Preservation of the invariants -/

theorem inv_iff (t : AVL_Tree) : Inv t ↔ BST t ∧ AVLh t :=
  ⟨fun h => ⟨h.1, avlh_of_inv t h.2.1 h.2.2⟩, fun h => ⟨h.1, inv_of_avlh t h.2⟩⟩

theorem inv_null : Inv null := by decide

theorem size_eq_length : ∀ t : AVL_Tree, size t = (inorder t).length
  | null => rfl
  | node _ _ l r => by
    simp only [size, inorder, List.length_append, List.length_cons, size_eq_length l,
      size_eq_length r]
    omega

theorem bstOrdered_of_bst : ∀ t : AVL_Tree, BST t → BSTOrdered t
  | null, _ => trivial
  | node d h l r, hb => by
    obtain ⟨b1, b2, b3, b4⟩ := (bst_node d h l r).1 hb
    exact ⟨b3, b4, bstOrdered_of_bst l b1, bstOrdered_of_bst r b2⟩

theorem bst_of_bstOrdered : ∀ t : AVL_Tree, BSTOrdered t → BST t
  | null, _ => List.sorted_nil
  | node d h l r, hb => by
    obtain ⟨b3, b4, b1, b2⟩ := hb
    exact (bst_node d h l r).2 ⟨bst_of_bstOrdered l b1, bst_of_bstOrdered r b2, b3, b4⟩

theorem sorted_split_insert (v : Int) (xs : List Int) (hs : xs.Sorted (· < ·)) :
    (xs.filter (fun x => decide (x < v)) ++
      v :: xs.filter (fun x => decide (v < x))).Sorted (· < ·) := by
  simp only [List.Sorted, List.pairwise_append, List.pairwise_cons, List.mem_cons,
    List.mem_filter, decide_eq_true_eq]
  refine ⟨List.Pairwise.filter _ hs, ⟨fun a ha => ha.2, List.Pairwise.filter _ hs⟩, ?_⟩
  rintro a ⟨-, ha⟩ b (rfl | ⟨-, hb⟩)
  · exact ha
  · exact lt_trans ha hb

theorem insert_inv (t : AVL_Tree) (v : Int) (h : Inv t) :
    ∃ t', insert t v = some t' ∧ Inv t' := by
  obtain ⟨hb, ha⟩ := (inv_iff t).1 h
  obtain ⟨t', e, ha', -, -⟩ := insert_avlh v t ha
  refine ⟨t', e, (inv_iff t').2 ⟨?_, ha'⟩⟩
  unfold BST
  rw [insert_inorder v t t' e hb]
  exact sorted_split_insert v _ hb

theorem delete_inv (t : AVL_Tree) (v : Int) (h : Inv t) :
    ∃ t', delete t v = some t' ∧ Inv t' := by
  obtain ⟨hb, ha⟩ := (inv_iff t).1 h
  obtain ⟨t', e, ha', -⟩ := delete_avlh t v ha
  refine ⟨t', e, (inv_iff t').2 ⟨?_, ha'⟩⟩
  unfold BST
  rw [delete_inorder t v t' e hb]
  exact List.Pairwise.filter _ hb

theorem runOps_inv : ∀ (ops : List Op) (t : AVL_Tree), Inv t →
    ∃ t', runOps t ops = some t' ∧ Inv t'
  | [], t, h => ⟨t, rfl, h⟩
  | Op.ins k :: ops, t, h => by
    obtain ⟨t1, e1, h1⟩ := insert_inv t k h
    obtain ⟨t2, e2, h2⟩ := runOps_inv ops t1 h1
    exact ⟨t2, by simp only [runOps, Op.apply, e1, Option.some_bind, e2], h2⟩
  | Op.del k :: ops, t, h => by
    obtain ⟨t1, e1, h1⟩ := delete_inv t k h
    obtain ⟨t2, e2, h2⟩ := runOps_inv ops t1 h1
    exact ⟨t2, by simp only [runOps, Op.apply, e1, Option.some_bind, e2], h2⟩

theorem getHeight_subtrees : ∀ t : AVL_Tree, HeightsOK t →
    ∀ s ∈ subtrees t, getHeight s = (height s : Int)
  | null, _, s, hs => by
    simp only [subtrees, List.mem_singleton] at hs
    subst hs; rfl
  | node d h l r, ho, s, hs => by
    simp only [subtrees, List.mem_cons, List.mem_append] at hs
    rcases hs with rfl | hs | hs
    · exact ho.1
    · exact getHeight_subtrees l ho.2.1 s hs
    · exact getHeight_subtrees r ho.2.2 s hs

theorem insert_of_mem (k : Int) : ∀ t : AVL_Tree, BST t → AVLh t → k ∈ inorder t →
    insert t k = some t
  | null, _, _, hk => by simp [inorder] at hk
  | node d h l r, hb, ha, hk => by
    obtain ⟨b1, b2, b3, b4⟩ := (bst_node d h l r).1 hb
    obtain ⟨a1, a2, a3, a4, a5⟩ := ha
    have fix : insertRebalance k (node d h l r) = some (node d h l r) := by
      obtain ⟨t', et, -, p1, -, -⟩ :=
        insertRebalance_avlh k d h l r a1 a2 (by omega) (by omega)
          (by intro; omega) (by intro; omega)
      rw [et, p1 a4 a5, a3]
    simp only [inorder, List.mem_append, List.mem_cons] at hk
    rw [insert]
    by_cases c1 : k < d
    · have hl : k ∈ inorder l := by
        rcases hk with hk | rfl | hk
        · exact hk
        · omega
        · have := b4 k hk; omega
      simp only [c1, if_true, insert_of_mem k l b1 a1 hl, Option.map_some', Option.some_bind, fix]
    · by_cases c2 : k > d
      · have hr : k ∈ inorder r := by
          rcases hk with hk | rfl | hk
          · have := b3 k hk; omega
          · omega
          · exact hk
        simp only [c1, c2, if_true, if_false, insert_of_mem k r b2 a2 hr, Option.map_some',
          Option.some_bind, fix]
      · simp only [c1, c2, if_false, Option.some_bind, fix]

theorem delete_of_not_mem (k : Int) : ∀ t : AVL_Tree, AVLh t → k ∉ inorder t →
    delete t k = some t
  | null, _, _ => rfl
  | node d h l r, ha, hk => by
    obtain ⟨a1, a2, a3, a4, a5⟩ := ha
    have fix : deleteRebalance (node d h l r) = some (node d h l r) := by
      obtain ⟨t', et, -, p1, -, -⟩ :=
        deleteRebalance_avlh d h l r a1 a2 (by omega) (by omega)
      rw [et, p1 a4 a5, a3]
    simp only [inorder, List.mem_append, List.mem_cons, not_or] at hk
    obtain ⟨k1, k2, k3⟩ := hk
    rw [delete.eq_def]
    simp only
    by_cases c1 : k < d
    · simp only [c1, if_true, delete_of_not_mem k l a1 k1, Option.map_some', Option.some_bind, fix]
    · have c2 : k > d := by omega
      simp only [c1, c2, if_true, if_false, delete_of_not_mem k r a2 k3, Option.map_some',
        Option.some_bind, fix]

theorem split_insert_of_not_mem (k : Int) : ∀ xs : List Int, xs.Sorted (· < ·) → k ∉ xs →
    xs.filter (fun x => decide (x < k)) ++ k :: xs.filter (fun x => decide (k < x)) =
      xs.orderedInsert (· ≤ ·) k
  | [], _, _ => rfl
  | a :: as, hs, hk => by
    simp only [List.mem_cons, not_or] at hk
    obtain ⟨k1, k2⟩ := hk
    have hs' : as.Sorted (· < ·) := hs.of_cons
    have hlt : ∀ x ∈ as, a < x := fun x hx => List.rel_of_sorted_cons hs x hx
    by_cases c : k ≤ a
    · have c' : k < a := by omega
      rw [List.orderedInsert_of_le _ _ c]
      have f1 : (a :: as).filter (fun x => decide (x < k)) = [] :=
        filter_lt_nil (by
          intro x hx
          rcases List.mem_cons.1 hx with rfl | hx
          · omega
          · have := hlt x hx; omega)
      have f2 : (a :: as).filter (fun x => decide (k < x)) = a :: as :=
        filter_gt_self (by
          intro x hx
          rcases List.mem_cons.1 hx with rfl | hx
          · omega
          · have := hlt x hx; omega)
      rw [f1, f2]; rfl
    · have c' : a < k := by omega
      have c3 : ¬ k < a := by omega
      simp only [List.orderedInsert, c, if_false, List.filter_cons, c', c3, decide_True,
        decide_False, if_true, Bool.false_eq_true, List.cons_append]
      rw [split_insert_of_not_mem k as hs' k2]

theorem split_insert_of_mem (k : Int) : ∀ xs : List Int, xs.Sorted (· < ·) → k ∈ xs →
    xs.filter (fun x => decide (x < k)) ++ k :: xs.filter (fun x => decide (k < x)) = xs
  | [], _, hk => by simp at hk
  | a :: as, hs, hk => by
    have hs' : as.Sorted (· < ·) := hs.of_cons
    have hlt : ∀ x ∈ as, a < x := fun x hx => List.rel_of_sorted_cons hs x hx
    by_cases c : k = a
    · subst c
      have f1 : (k :: as).filter (fun x => decide (x < k)) = [] :=
        filter_lt_nil (by
          intro x hx
          rcases List.mem_cons.1 hx with rfl | hx
          · omega
          · have := hlt x hx; omega)
      have f2 : (k :: as).filter (fun x => decide (k < x)) = as := by
        rw [List.filter_cons]
        simp only [lt_self_iff_false, decide_False, Bool.false_eq_true, if_false]
        exact filter_gt_self hlt
      rw [f1, f2]; rfl
    · have hk' : k ∈ as := by
        rcases List.mem_cons.1 hk with rfl | hk
        · exact absurd rfl c
        · exact hk
      have c' : a < k := hlt k hk'
      have c3 : ¬ k < a := by omega
      simp only [List.filter_cons, c', c3, decide_True, decide_False, if_true,
        Bool.false_eq_true, if_false, List.cons_append]
      rw [split_insert_of_mem k as hs' hk']

theorem filter_ne_eq_erase (k : Int) (xs : List Int) (hs : xs.Sorted (· < ·)) :
    xs.filter (fun x => decide (x ≠ k)) = xs.erase k := by
  rw [List.Nodup.erase_eq_filter hs.nodup]
  congr 1
  funext x
  by_cases hx : x = k <;> simp [hx]

/-! ## The invariants on every reachable tree -/

/-- C1 (BST-order invariant): every finite sequence of `insert` and `delete` calls, run from
the empty tree with arbitrary integer keys, succeeds and yields a tree whose in-order key
sequence is strictly ascending; equivalently, at every node all keys of the left subtree are
smaller and all keys of the right subtree are larger than the key of the node. -/
theorem bst_order_invariant (ops : List Op) :
    ∃ t, runOps null ops = some t ∧ (inorder t).Sorted (· < ·) ∧ BSTOrdered t := by
  obtain ⟨t, e, h⟩ := runOps_inv ops null inv_null
  exact ⟨t, e, h.1, bstOrdered_of_bst t h.1⟩

/-- C2 (balance invariant): every finite sequence of `insert` and `delete` calls, run from
the empty tree, succeeds and yields a tree in which every node satisfies
`|height left - height right| ≤ 1`, the heights being computed recursively from scratch. -/
theorem balance_invariant (ops : List Op) :
    ∃ t, runOps null ops = some t ∧ Balanced t := by
  obtain ⟨t, e, h⟩ := runOps_inv ops null inv_null
  exact ⟨t, e, h.2.1⟩

/-- C3 (height correctness): every finite sequence of `insert` and `delete` calls, run from
the empty tree, succeeds and yields a tree in which the stored height of every node equals
the recursively computed height, so that `getHeight` returns the true height of every
subtree (0 for the empty one). -/
theorem height_correctness (ops : List Op) :
    ∃ t, runOps null ops = some t ∧ HeightsOK t ∧
      ∀ s ∈ subtrees t, getHeight s = (height s : Int) := by
  obtain ⟨t, e, h⟩ := runOps_inv ops null inv_null
  exact ⟨t, e, h.2.2, getHeight_subtrees t h.2.2⟩

/-! ## Functional behaviour of `insert` and `delete` -/

/-- C4 (insert adds exactly the key): on a tree satisfying the three invariants `insert`
succeeds, the keys of the result are the keys of the tree together with `k`, and when `k`
is not in the tree the in-order sequence of the result is that of the tree with `k`
inserted at its sorted position, the node count growing by exactly one. -/
theorem insert_adds_key (t : AVL_Tree) (k : Int) (h : Inv t) :
    ∃ t', insert t k = some t' ∧
      (∀ x, x ∈ inorder t' ↔ x ∈ inorder t ∨ x = k) ∧
      (k ∉ inorder t →
        inorder t' = (inorder t).orderedInsert (· ≤ ·) k ∧ size t' = size t + 1) := by
  obtain ⟨t', e, -⟩ := insert_inv t k h
  have hi := insert_inorder k t t' e h.1
  refine ⟨t', e, ?_, ?_⟩
  · intro x
    by_cases hk : k ∈ inorder t
    · rw [hi, split_insert_of_mem k _ h.1 hk]
      constructor
      · exact Or.inl
      · rintro (hx | rfl)
        · exact hx
        · exact hk
    · rw [hi, split_insert_of_not_mem k _ h.1 hk, List.mem_orderedInsert]
      exact or_comm
  · intro hk
    have hi' := hi.trans (split_insert_of_not_mem k _ h.1 hk)
    refine ⟨hi', ?_⟩
    rw [size_eq_length, size_eq_length, hi', List.orderedInsert_length]

/-- Witness of C4: inserting 15 into the six-node demo tree. -/
theorem insert_adds_key_witness :
    Inv demoTree ∧ ∃ t', insert demoTree 15 = some t' ∧
      (∀ x, x ∈ inorder t' ↔ x ∈ inorder demoTree ∨ x = 15) ∧
      (15 ∉ inorder demoTree →
        inorder t' = (inorder demoTree).orderedInsert (· ≤ ·) 15 ∧
          size t' = size demoTree + 1) :=
  ⟨by decide, insert_adds_key demoTree 15 (by decide)⟩

/-- C5 (delete removes exactly the key): on a tree satisfying the three invariants `delete`
succeeds and the in-order sequence of the result is that of the tree with `k` removed, all
other keys being kept in the same order; the node count drops by exactly one when `k` is
present. -/
theorem delete_removes_key (t : AVL_Tree) (k : Int) (h : Inv t) :
    ∃ t', delete t k = some t' ∧
      inorder t' = (inorder t).erase k ∧
      inorder t' = (inorder t).filter (fun x => decide (x ≠ k)) ∧
      (k ∈ inorder t → size t' + 1 = size t) := by
  obtain ⟨t', e, -⟩ := delete_inv t k h
  have hi := delete_inorder t k t' e h.1
  have he := hi.trans (filter_ne_eq_erase k _ h.1)
  refine ⟨t', e, he, hi, ?_⟩
  intro hk
  rw [size_eq_length, size_eq_length, he, List.length_erase_of_mem hk]
  have := List.length_pos_of_mem hk
  omega

/-- Witness of C5: deleting 30, a node with two children, from the demo tree. -/
theorem delete_removes_key_witness :
    Inv demoTree ∧ ∃ t', delete demoTree 30 = some t' ∧
      inorder t' = (inorder demoTree).erase 30 ∧
      inorder t' = (inorder demoTree).filter (fun x => decide (x ≠ 30)) ∧
      (30 ∈ inorder demoTree → size t' + 1 = size demoTree) :=
  ⟨by decide, delete_removes_key demoTree 30 (by decide)⟩

/-- C6 (duplicate insert is a no-op): on a tree satisfying the three invariants, inserting
a key that is already stored returns the very same tree: same shape, same keys, same stored
heights, no rotation. -/
theorem insert_duplicate_noop (t : AVL_Tree) (k : Int) (h : Inv t) (hk : k ∈ inorder t) :
    insert t k = some t :=
  insert_of_mem k t h.1 ((inv_iff t).1 h).2 hk

/-- Witness of C6: inserting 25 again into the demo tree. -/
theorem insert_duplicate_noop_witness :
    Inv demoTree ∧ (25 : Int) ∈ inorder demoTree ∧ insert demoTree 25 = some demoTree :=
  ⟨by decide, by decide, insert_duplicate_noop demoTree 25 (by decide) (by decide)⟩

/-- C7 (delete of an absent key is a no-op): on a tree satisfying the three invariants,
deleting a key that is not stored returns the very same tree (hence the same in-order
sequence and the same height); `delete` on the empty tree returns the empty tree. -/
theorem delete_absent_noop (t : AVL_Tree) (k : Int) (h : Inv t) (hk : k ∉ inorder t) :
    delete t k = some t ∧ delete null k = some null :=
  ⟨delete_of_not_mem k t ((inv_iff t).1 h).2 hk, rfl⟩

/-- Witness of C7: deleting 999 from the demo tree. -/
theorem delete_absent_noop_witness :
    Inv demoTree ∧ (999 : Int) ∉ inorder demoTree ∧
      delete demoTree 999 = some demoTree ∧ delete null 999 = some null :=
  ⟨by decide, by decide, delete_absent_noop demoTree 999 (by decide) (by decide)⟩

/-- C8, counterexample: on the one-node tree holding 5, which satisfies the three
invariants, inserting 5 returns the tree unchanged and deleting 5 then returns the empty
tree, whose in-order sequence differs from the one before the insert. -/
theorem insert_delete_roundtrip_counterexample :
    Inv (node 5 1 null null) ∧
      insert (node 5 1 null null) 5 = some (node 5 1 null null) ∧
      delete (node 5 1 null null) 5 = some null ∧
      inorder null ≠ inorder (node 5 1 null null) := by
  decide

/-- C8 as amended (insert/delete round trip): on a tree satisfying the three invariants and
for a key `k` that is not stored in it, `insert` followed by `delete` of `k` succeeds and
yields a tree whose in-order sequence is identical to the one before the insert. -/
theorem insert_delete_roundtrip (t : AVL_Tree) (k : Int) (h : Inv t) (hk : k ∉ inorder t) :
    ∃ t1 t2, insert t k = some t1 ∧ delete t1 k = some t2 ∧ inorder t2 = inorder t := by
  obtain ⟨t1, e1, h1⟩ := insert_inv t k h
  obtain ⟨t2, e2, -⟩ := delete_inv t1 k h1
  have i1 := insert_inorder k t t1 e1 h.1
  have i2 := (delete_inorder t1 k t2 e2 h1.1).trans (filter_ne_eq_erase k _ h1.1)
  refine ⟨t1, t2, e1, e2, ?_⟩
  rw [i2, i1, split_insert_of_not_mem k _ h.1 hk, List.erase_orderedInsert]

/-- Witness of C8: inserting and deleting 15, which is not in the demo tree. -/
theorem insert_delete_roundtrip_witness :
    Inv demoTree ∧ (15 : Int) ∉ inorder demoTree ∧
      ∃ t1 t2, insert demoTree 15 = some t1 ∧ delete t1 15 = some t2 ∧
        inorder t2 = inorder demoTree :=
  ⟨by decide, by decide, insert_delete_roundtrip demoTree 15 (by decide) (by decide)⟩

/-- C9 (insert is idempotent): on a tree satisfying the three invariants, a second `insert`
of the same key returns the result of the first one unchanged, hence with the same in-order
sequence, the same node count and the same height. -/
theorem insert_idempotent (t : AVL_Tree) (k : Int) (h : Inv t) :
    ∃ t1 t2, insert t k = some t1 ∧ insert t1 k = some t2 ∧
      inorder t2 = inorder t1 ∧ size t2 = size t1 ∧
      getHeight t2 = getHeight t1 ∧ height t2 = height t1 := by
  obtain ⟨t1, e1, h1⟩ := insert_inv t k h
  have hk : k ∈ inorder t1 := by
    rw [insert_inorder k t t1 e1 h.1]
    simp
  exact ⟨t1, t1, e1, insert_of_mem k t1 h1.1 ((inv_iff t1).1 h1).2 hk, rfl, rfl, rfl, rfl⟩

/-- Witness of C9: inserting 15 twice into the demo tree. -/
theorem insert_idempotent_witness :
    Inv demoTree ∧ ∃ t1 t2, insert demoTree 15 = some t1 ∧ insert t1 15 = some t2 ∧
      inorder t2 = inorder t1 ∧ size t2 = size t1 ∧
      getHeight t2 = getHeight t1 ∧ height t2 = height t1 :=
  ⟨by decide, insert_idempotent demoTree 15 (by decide)⟩

/-! ## The height bound -/

theorem fib_le_size : ∀ t : AVL_Tree, Balanced t → Nat.fib (height t + 2) ≤ size t + 1
  | null, _ => by simp [height, size]
  | node _ _ l r, hb => by
    obtain ⟨h1, h2, h3⟩ := hb
    have il := fib_le_size l h2
    have ir := fib_le_size r h3
    rw [abs_le] at h1
    simp only [height, size]
    rcases le_total (height l) (height r) with c | c
    · rw [max_eq_right c, show 1 + height r + 2 = (height r + 1) + 2 by omega, Nat.fib_add_two]
      have : Nat.fib (height r + 1) ≤ Nat.fib (height l + 2) := Nat.fib_mono (by omega)
      rw [show height r + 1 + 1 = height r + 2 by omega]
      omega
    · rw [max_eq_left c, show 1 + height l + 2 = (height l + 1) + 2 by omega, Nat.fib_add_two]
      have : Nat.fib (height l + 1) ≤ Nat.fib (height r + 2) := Nat.fib_mono (by omega)
      rw [show height l + 1 + 1 = height l + 2 by omega]
      omega

theorem fib_lower : ∀ k : ℕ, (1.17097 : ℝ) * 1.618 ^ (k + 10) ≤ (Nat.fib (k + 12) : ℝ)
  | 0 => by norm_num
  | 1 => by norm_num
  | k + 2 => by
    have h0 := fib_lower k
    have h1 := fib_lower (k + 1)
    have e : Nat.fib (k + 2 + 12) = Nat.fib (k + 12) + Nat.fib (k + 1 + 12) := by
      rw [show k + 2 + 12 = (k + 12) + 2 by omega, Nat.fib_add_two,
        show k + 1 + 12 = k + 12 + 1 by omega]
    have p : (0 : ℝ) ≤ 1.618 ^ (k + 10) := by positivity
    have e1 : (1.618 : ℝ) ^ (k + 1 + 10) = 1.618 ^ (k + 10) * 1.618 := by
      rw [show k + 1 + 10 = (k + 10) + 1 by omega, pow_succ]
    have e2 : (1.618 : ℝ) ^ (k + 2 + 10) = 1.618 ^ (k + 10) * 2.617924 := by
      rw [show k + 2 + 10 = (k + 10) + 2 by omega, pow_add]; norm_num
    rw [e, e2]
    rw [e1] at h1
    push_cast
    nlinarith

theorem two_pow_le (h n : ℕ) (hf : Nat.fib (h + 2) ≤ n + 1) :
    (2 : ℝ) ^ (10000 * h + 3280) ≤ ((n : ℝ) + 2) ^ 14405 := by
  have hf' : (Nat.fib (h + 2) : ℝ) ≤ (n : ℝ) + 1 := by exact_mod_cast hf
  by_cases hs : h < 10
  · have small : ∀ c : ℝ, 0 ≤ c → c ≤ (n : ℝ) + 2 →
        (2 : ℝ) ^ (10000 * h + 3280) ≤ c ^ 14405 →
        (2 : ℝ) ^ (10000 * h + 3280) ≤ ((n : ℝ) + 2) ^ 14405 :=
      fun c c0 cn hc => hc.trans (pow_le_pow_left₀ c0 cn _)
    interval_cases h
    · exact small 2 (by norm_num) (by norm_num at hf'; linarith) (by norm_num)
    · exact small 3 (by norm_num) (by norm_num at hf'; linarith) (by norm_num)
    · exact small 4 (by norm_num) (by norm_num at hf'; linarith) (by norm_num)
    · exact small 6 (by norm_num) (by norm_num at hf'; linarith) (by norm_num)
    · exact small 9 (by norm_num) (by norm_num at hf'; linarith) (by norm_num)
    · exact small 14 (by norm_num) (by norm_num at hf'; linarith) (by norm_num)
    · exact small 22 (by norm_num) (by norm_num at hf'; linarith) (by norm_num)
    · exact small 35 (by norm_num) (by norm_num at hf'; linarith) (by norm_num)
    · exact small 56 (by norm_num) (by norm_num at hf'; linarith) (by norm_num)
    · exact small 90 (by norm_num) (by norm_num at hf'; linarith) (by norm_num)
  · obtain ⟨k, rfl⟩ : ∃ k, h = k + 10 := ⟨h - 10, by omega⟩
    have c1 : (2 : ℝ) ^ 10000 ≤ 1.618 ^ 14405 := by norm_num
    have c2 : (2 : ℝ) ^ 3280 ≤ 1.17097 ^ 14405 := by norm_num
    have low := fib_lower k
    calc (2 : ℝ) ^ (10000 * (k + 10) + 3280)
        = ((2 : ℝ) ^ 10000) ^ (k + 10) * 2 ^ 3280 := by rw [pow_add, pow_mul]
      _ ≤ ((1.618 : ℝ) ^ 14405) ^ (k + 10) * 1.17097 ^ 14405 :=
          mul_le_mul (pow_le_pow_left₀ (by positivity) c1 _) c2 (by positivity) (by positivity)
      _ = (1.17097 * 1.618 ^ (k + 10)) ^ 14405 := by
          rw [mul_pow, ← pow_mul, ← pow_mul, mul_comm 14405 (k + 10), mul_comm]
      _ ≤ ((n : ℝ) + 2) ^ 14405 :=
          pow_le_pow_left₀ (by positivity) (by linarith) _

theorem le_log_of_pow_le (m : ℕ) (x : ℝ)
    (hp : (2 : ℝ) ^ m ≤ x ^ 14405) : (m : ℝ) ≤ 14405 * Real.logb 2 x := by
  have h2 : (1 : ℝ) < 2 := by norm_num
  have := Real.logb_le_logb_of_le h2 (by positivity) hp
  rw [Real.logb_pow, Real.logb_pow, Real.logb_self_eq_one h2] at this
  simpa using this


/-- C10, counterexample: the sparsest AVL tree of height 13 is built from the empty tree by
609 `insert` calls (its keys in breadth-first order); it is balanced, its stored heights
are correct, it has 609 nodes and `getHeight` returns 13, which exceeds
`1.44 * log2 (609 + 2) - 0.328`. -/
theorem height_bound_counterexample :
    insertAll null (levelOrder 14 [fibTree 13 0]) = some (fibTree 13 0) ∧
      Balanced (fibTree 13 0) ∧ HeightsOK (fibTree 13 0) ∧
      size (fibTree 13 0) = 609 ∧ getHeight (fibTree 13 0) = 13 ∧
      ¬ ((getHeight (fibTree 13 0) : ℝ) ≤
          1.44 * Real.logb 2 ((size (fibTree 13 0) : ℝ) + 2) - 0.328) := by
  have hs : size (fibTree 13 0) = 609 := by decide!
  have hg : getHeight (fibTree 13 0) = 13 := by decide!
  refine ⟨by decide!, by decide!, by decide!, hs, hg, ?_⟩
  rw [hs, hg]
  intro hle
  have h2 : (1 : ℝ) < 2 := by norm_num
  have hlog : (13328 : ℝ) ≤ 1440 * Real.logb 2 611 := by
    norm_num at hle ⊢
    linarith
  have hpow : (2 : ℝ) ^ 13328 ≤ 611 ^ 1440 := by
    rw [← Real.logb_le_logb h2 (by positivity) (by positivity), Real.logb_pow, Real.logb_pow,
      Real.logb_self_eq_one h2]
    simpa using hlog
  norm_num at hpow

/-- C10 as amended (height bound, with the slope 1.4405 in place of 1.44): a tree with `n`
nodes that satisfies the balance invariant and has correct stored heights has
`getHeight tree ≤ 1.4405 * log2 (n + 2) - 0.328`, with `log2` the real logarithm. -/
theorem height_bound (t : AVL_Tree) (hb : Balanced t) (hh : HeightsOK t) :
    (getHeight t : ℝ) ≤ 1.4405 * Real.logb 2 ((size t : ℝ) + 2) - 0.328 := by
  have hl := le_log_of_pow_le _ ((size t : ℝ) + 2)
    (two_pow_le (height t) (size t) (fib_le_size t hb))
  rw [getHeight_eq_height t hh]
  push_cast at hl ⊢
  linarith only [hl]

/-- Witness of C10: the bound on the six-node demo tree. -/
theorem height_bound_witness :
    Balanced demoTree ∧ HeightsOK demoTree ∧
      (getHeight demoTree : ℝ) ≤ 1.4405 * Real.logb 2 ((size demoTree : ℝ) + 2) - 0.328 :=
  ⟨by decide, by decide, height_bound demoTree (by decide) (by decide)⟩

/-! ## Rotations, safety and the scripted scenarios -/

theorem map_fst_bind {α β γ : Type} (o : Option α) (f : α → Option (β × γ))
    (g : α → Option β) (hfg : ∀ a, (f a).map Prod.fst = g a) :
    (o.bind f).map Prod.fst = o.bind g := by
  cases o with
  | none => rfl
  | some a => exact hfg a

theorem insertRebalanceLog_fst (v : Int) (t : AVL_Tree) :
    (insertRebalanceLog v t).map Prod.fst = insertRebalance v t := by
  cases t with
  | null => rfl
  | node d h l r =>
    simp only [insertRebalanceLog, insertRebalance, updateHeight, data, getBalance,
      Option.some_bind]
    refine map_fst_bind _ _ _ fun ll => ?_
    cases ll
    · simp only [Bool.false_eq_true, if_false]
      refine map_fst_bind _ _ _ fun lr => ?_
      cases lr
      · simp only [Bool.false_eq_true, if_false]
        refine map_fst_bind _ _ _ fun rr => ?_
        cases rr
        · simp only [Bool.false_eq_true, if_false]
          refine map_fst_bind _ _ _ fun rl => ?_
          cases rl
          · rfl
          · simp [Option.map_map, Function.comp_def]
        · simp [Option.map_map, Function.comp_def]
      · simp [Option.map_map, Function.comp_def]
    · simp [Option.map_map, Function.comp_def]

theorem insertLog_fst (v : Int) : ∀ t : AVL_Tree,
    (insertLog t v).map Prod.fst = insert t v
  | null => rfl
  | node d h l r => by
    have hl := insertLog_fst v l
    have hr := insertLog_fst v r
    simp only [insertLog, insert]
    by_cases c1 : v < d
    · simp only [c1, if_true]
      cases el : insertLog l v with
      | none =>
        rw [el] at hl
        simp only [Option.map_none'] at hl
        simp [← hl]
      | some p =>
        rw [el] at hl
        simp only [Option.map_some'] at hl
        simp only [← hl, Option.map_some', Option.some_bind, Option.map_map]
        rw [← insertRebalanceLog_fst]
        rfl
    · by_cases c2 : v > d
      · simp only [c1, c2, if_true, if_false]
        cases er : insertLog r v with
        | none =>
          rw [er] at hr
          simp only [Option.map_none'] at hr
          simp [← hr]
        | some p =>
          rw [er] at hr
          simp only [Option.map_some'] at hr
          simp only [← hr, Option.map_some', Option.some_bind, Option.map_map]
          rw [← insertRebalanceLog_fst]
          rfl
      · simp only [c1, c2, if_false, Option.some_bind, Option.map_map]
        rw [← insertRebalanceLog_fst]
        rfl

theorem insertAllLog_fst : ∀ (ks : List Int) (t : AVL_Tree),
    (insertAllLog t ks).map Prod.fst = insertAll t ks
  | [], _ => rfl
  | k :: ks, t => by
    have h1 := insertLog_fst k t
    simp only [insertAllLog, insertAll, List.map_cons, runOps, Op.apply]
    cases e : insertLog t k with
    | none =>
      rw [e] at h1
      simp only [Option.map_none'] at h1
      simp [← h1]
    | some p =>
      rw [e] at h1
      simp only [Option.map_some'] at h1
      simp only [← h1, Option.some_bind, Option.map_map]
      rw [← insertAll, ← insertAllLog_fst ks p.1]
      rfl

/-- Without the invariants the model does report a `NULL` dereference: with a wrong stored
height the balance factor of the root is 5 and `node->left->data` is read on `NULL`. -/
theorem insert_null_deref_without_invariants :
    insert (node 5 1 null (node 7 (-5) null null)) 5 = none := by
  decide

/-- C11 (rotations preserve the in-order sequence): each rotation is defined on every node
that has the child (for the double rotations also the grandchild) it promotes, and the
in-order key sequence of the subtree it returns equals that of the subtree at `z` before. -/
theorem rotations_preserve_inorder :
    (∀ (d h ld lh : Int) (ll lr r : AVL_Tree),
      ∃ t', rightRotate (node d h (node ld lh ll lr) r) = some t' ∧
        inorder t' = inorder (node d h (node ld lh ll lr) r)) ∧
    (∀ (d h rd rh : Int) (l rl rr : AVL_Tree),
      ∃ t', leftRotate (node d h l (node rd rh rl rr)) = some t' ∧
        inorder t' = inorder (node d h l (node rd rh rl rr))) ∧
    (∀ (d h ld lh x xh : Int) (ll xl xr r : AVL_Tree),
      ∃ t', LR_Rotate (node d h (node ld lh ll (node x xh xl xr)) r) = some t' ∧
        inorder t' = inorder (node d h (node ld lh ll (node x xh xl xr)) r)) ∧
    (∀ (d h rd rh x xh : Int) (l xl xr rr : AVL_Tree),
      ∃ t', RL_Rotate (node d h l (node rd rh (node x xh xl xr) rr)) = some t' ∧
        inorder t' = inorder (node d h l (node rd rh (node x xh xl xr) rr))) := by
  refine ⟨?_, ?_, ?_, ?_⟩
  · intro d h ld lh ll lr r
    exact ⟨_, rfl, rightRotate_inorder rfl⟩
  · intro d h rd rh l rl rr
    exact ⟨_, rfl, leftRotate_inorder rfl⟩
  · intro d h ld lh x xh ll xl xr r
    exact ⟨_, rfl, LR_Rotate_inorder rfl⟩
  · intro d h rd rh x xh l xl xr rr
    exact ⟨_, rfl, RL_Rotate_inorder rfl⟩

/-- C12 (precondition safety): on a tree satisfying the three invariants neither `insert`
nor `delete` dereferences `NULL`: `getBalance` is evaluated on non-empty nodes only, the
key of a child is read only when the child exists, and every rotation finds the child and
grandchild it promotes.  In the model each such dereference yields `none`, which reaches
the result. -/
theorem precondition_safety (t : AVL_Tree) (k : Int) (h : Inv t) :
    (insert t k).isSome = true ∧ (delete t k).isSome = true := by
  obtain ⟨t1, e1, -⟩ := insert_inv t k h
  obtain ⟨t2, e2, -⟩ := delete_inv t k h
  rw [e1, e2]
  exact ⟨rfl, rfl⟩

/-- Witness of C12: key 30 on the six-node demo tree. -/
theorem precondition_safety_witness :
    Inv demoTree ∧ (insert demoTree 30).isSome = true ∧ (delete demoTree 30).isSome = true :=
  ⟨by decide, precondition_safety demoTree 30 (by decide)⟩

/-- C13 (end-to-end scenario): inserting 20, 10, 30, 5, 25, 35 into the empty tree yields
the tree with in-order sequence 5, 10, 20, 25, 30, 35, root key 20, height 3 and 6
nodes. -/
theorem end_to_end_scenario :
    insertAll null [20, 10, 30, 5, 25, 35] = some demoTree ∧
      inorder demoTree = [5, 10, 20, 25, 30, 35] ∧ data demoTree = some 20 ∧
      getHeight demoTree = 3 ∧ height demoTree = 3 ∧ size demoTree = 6 := by
  decide

/-- C14 (rotation scenario): inserting 10, 20, 30 into the empty tree performs exactly one
rotation, a `leftRotate` on the node holding 10, and yields the tree with root key 20,
the leaves 10 and 30 as its children, and height 2. -/
theorem rotation_scenario :
    insertAllLog null [10, 20, 30] =
        some (node 20 2 (node 10 1 null null) (node 30 1 null null),
          [Rotation.leftRotate 10]) ∧
      insertAll null [10, 20, 30] =
        some (node 20 2 (node 10 1 null null) (node 30 1 null null)) ∧
      leftRotate (node 10 3 null (node 20 2 null (node 30 1 null null))) =
        some (node 20 2 (node 10 1 null null) (node 30 1 null null)) ∧
      getHeight (node 20 2 (node 10 1 null null) (node 30 1 null null)) = 2 ∧
      height (node 20 2 (node 10 1 null null) (node 30 1 null null)) = 2 := by
  decide

/-- C15 (two-children delete scenario): deleting 30 from the tree built from 20, 10, 30, 5,
25, 35 puts the key of the in-order successor, 35, into the node that held 30 and removes
the successor; the result has in-order sequence 5, 10, 20, 25, 35 and 5 nodes. -/
theorem two_children_delete_scenario :
    insertAll null [20, 10, 30, 5, 25, 35] = some demoTree ∧
      right demoTree = some (node 30 2 (node 25 1 null null) (node 35 1 null null)) ∧
      (minValueNode (node 35 1 null null)).bind data = some 35 ∧
      delete demoTree 30 =
        some (node 20 3 (node 10 2 (node 5 1 null null) null)
          (node 35 2 (node 25 1 null null) null)) ∧
      inorder (node 20 3 (node 10 2 (node 5 1 null null) null)
          (node 35 2 (node 25 1 null null) null)) = [5, 10, 20, 25, 35] ∧
      size (node 20 3 (node 10 2 (node 5 1 null null) null)
          (node 35 2 (node 25 1 null null) null)) = 5 := by
  decide

/-! ## The key-comparison test of `insert` and the decision table -/

theorem rebalanceTable_eq_deleteRebalance (n : AVL_Tree) :
    (updateHeight n).bind rebalanceTable = deleteRebalance n := by
  cases n with
  | null => rfl
  | node d h l r =>
    rw [deleteRebalance_node]
    simp only [updateHeight, Option.some_bind, rebalanceTable, getBalance, left, right, max_eq]
    by_cases h1 : getHeight l - getHeight r > 1
    · cases l with
      | null => simp [h1, getBalance]
      | node ld lh ll lr => simp [h1, getBalance]
    · by_cases h2 : getHeight l - getHeight r < -1
      · cases r with
        | null => simp [h1, h2, getBalance]
        | node rd rh rl rr => simp [h1, h2, getBalance]
      · simp [h1, h2]

theorem insertRebalance_eq_deleteRebalance (v d h : Int) (l r : AVL_Tree)
    (gl : getHeight l - getHeight r > 1 → Leans v l)
    (gr : getHeight l - getHeight r < -1 → Leans v r) :
    insertRebalance v (node d h l r) = deleteRebalance (node d h l r) := by
  rw [insertRebalance_node, deleteRebalance_node]
  by_cases h1 : getHeight l - getHeight r > 1
  · have g := gl h1
    clear gl gr
    cases l with
    | null => exact g.elim
    | node ld lh ll lr =>
      obtain ⟨ne, g1, g2⟩ := g
      simp only [h1, if_true]
      by_cases c1 : v < ld
      · have := g1 c1
        have c3 : getHeight ll - getHeight lr ≥ 0 := by clear g1 g2; omega
        simp only [c1, c3, if_true]
      · have c2 : v > ld := by clear g1 g2; omega
        have := g2 c2
        have c3 : ¬ getHeight ll - getHeight lr ≥ 0 := by clear g1 g2; omega
        simp only [c1, c2, c3, if_true, if_false]
  · by_cases h2 : getHeight l - getHeight r < -1
    · have g := gr h2
      clear gl gr
      cases r with
      | null => exact g.elim
      | node rd rh rl rr =>
        obtain ⟨ne, g1, g2⟩ := g
        simp only [h1, h2, if_true, if_false]
        by_cases c1 : v > rd
        · have := g2 c1
          have c3 : getHeight rl - getHeight rr ≤ 0 := by clear g1 g2; omega
          simp only [c1, c3, if_true]
        · have c2 : v < rd := by clear g1 g2; omega
          have := g1 c2
          have c3 : ¬ getHeight rl - getHeight rr ≤ 0 := by clear g1 g2; omega
          simp only [c1, c2, c3, if_true, if_false]
    · simp only [h1, h2, if_false]

theorem insertByTable_eq_insert (v : Int) : ∀ t : AVL_Tree, AVLh t →
    insertByTable t v = insert t v
  | null, _ => rfl
  | node d h l r, ht => by
    obtain ⟨a1, a2, nl, nr, a3⟩ := node_bounds ht
    clear ht
    rw [insertByTable, insert]
    by_cases c1 : v < d
    · obtain ⟨l', e, hl', hh, lean⟩ := insert_avlh v l a1
      have one : l = null → getHeight l' = 1 := by
        rintro rfl
        simp only [insert, Option.some.injEq] at e
        subst e
        rfl
      have gl : getHeight l' - getHeight r > 1 → Leans v l' := by
        intro hb
        refine lean ?_ ?_
        · clear lean one; omega
        · intro hn
          have := one hn
          clear lean one; omega
      have gr : getHeight l' - getHeight r < -1 → Leans v r := by
        intro hb; clear lean one gl; omega
      simp only [c1, if_true, insertByTable_eq_insert v l a1, e, Option.map_some',
        Option.some_bind, rebalanceTable_eq_deleteRebalance]
      exact (insertRebalance_eq_deleteRebalance v d h l' r gl gr).symm
    · by_cases c2 : v > d
      · obtain ⟨r', e, hr', hh, lean⟩ := insert_avlh v r a2
        have one : r = null → getHeight r' = 1 := by
          rintro rfl
          simp only [insert, Option.some.injEq] at e
          subst e
          rfl
        have gr : getHeight l - getHeight r' < -1 → Leans v r' := by
          intro hb
          refine lean ?_ ?_
          · clear lean one; omega
          · intro hn
            have := one hn
            clear lean one; omega
        have gl : getHeight l - getHeight r' > 1 → Leans v l := by
          intro hb; clear lean one gr; omega
        simp only [c1, c2, if_true, if_false, insertByTable_eq_insert v r a2, e,
          Option.map_some', Option.some_bind, rebalanceTable_eq_deleteRebalance]
        exact (insertRebalance_eq_deleteRebalance v d h l r' gl gr).symm
      · simp only [c1, c2, if_false, Option.some_bind, rebalanceTable_eq_deleteRebalance]
        exact (insertRebalance_eq_deleteRebalance v d h l r (by intro; omega)
          (by intro; omega)).symm

/-- C30 (the rotation test of `insert` agrees with the decision table): on a tree
satisfying the three invariants, `insert` as coded, which chooses among the four rotations
by comparing the inserted value with the key of the left or right child, returns exactly
the same tree as the variant that chooses the rotation by the balance factor of the
child. -/
theorem insert_agrees_with_table (t : AVL_Tree) (k : Int) (h : Inv t) :
    insert t k = insertByTable t k ∧ (insert t k).isSome = true := by
  obtain ⟨t', e, -⟩ := insert_inv t k h
  refine ⟨(insertByTable_eq_insert k t ((inv_iff t).1 h).2).symm, ?_⟩
  rw [e]; rfl

/-- Witness of C30: inserting 1 into the demo tree, which triggers a rotation. -/
theorem insert_agrees_with_table_witness :
    Inv demoTree ∧ insert demoTree 1 = insertByTable demoTree 1 ∧
      (insert demoTree 1).isSome = true :=
  ⟨by decide, insert_agrees_with_table demoTree 1 (by decide)⟩

/-- Outside the invariants the two tests differ: on this tree (stored heights correct,
root out of balance) inserting 4 makes the key comparison choose `LR_Rotate` where the
table chooses `rightRotate`. -/
theorem insert_differs_from_table_without_invariants :
    insert (node 5 3 (node 3 2 (node 1 1 null null) null) null) 4 ≠
      insertByTable (node 5 3 (node 3 2 (node 1 1 null null) null) null) 4 := by
  decide


/-! ## The rotations against their reference definitions -/

theorem getHeight_mirror (t : AVL_Tree) : getHeight (mirror t) = getHeight t := by
  cases t <;> rfl

theorem mirror_mirror : ∀ t : AVL_Tree, mirror (mirror t) = t
  | null => rfl
  | node d h l r => by rw [mirror, mirror, mirror_mirror l, mirror_mirror r]

theorem leftRotate_eq_mirror (z : AVL_Tree) :
    leftRotate z = (rightRotate (mirror z)).map mirror := by
  cases z with
  | null => rfl
  | node zd zh zl zr =>
    cases zr with
    | null => rfl
    | node yd yh T2 yr =>
      simp only [leftRotate, rightRotate, mirror, Option.map_some', getHeight_mirror,
        getHeight_node, mirror_mirror, max_eq, max_comm]

theorem rightRotate_eq_mirror (z : AVL_Tree) :
    rightRotate z = (leftRotate (mirror z)).map mirror := by
  rw [leftRotate_eq_mirror, mirror_mirror, Option.map_map]
  cases rightRotate z with
  | none => rfl
  | some t => simp only [Option.map_some', Function.comp_apply, mirror_mirror]

theorem RL_Rotate_eq_mirror (z : AVL_Tree) :
    RL_Rotate z = (LR_Rotate (mirror z)).map mirror := by
  cases z with
  | null => rfl
  | node d h l r =>
    simp only [RL_Rotate, LR_Rotate, mirror]
    rw [rightRotate_eq_mirror r]
    cases leftRotate (mirror r) with
    | none => rfl
    | some t =>
      simp only [Option.map_some', Option.some_bind]
      rw [leftRotate_eq_mirror]
      simp only [mirror, mirror_mirror]

/-- C31: `rightRotate` equals its reference definition.  For every node `z` with key `kz`,
right subtree `c` and a left child `y` with key `ky` and subtrees `a` and `b`, whatever
heights the two nodes store, `rightRotate z` returns the tree of `rightRotateRef`: root
`ky`, left subtree `a`, right child `kz` with subtrees `b` and `c`, the height of `z`
recomputed first and the height of `y` from it.  Consequently both nodes store their true
height, and the whole result has correct stored heights, whenever `a`, `b` and `c` have.
Without a left child the code dereferences `NULL`. -/
theorem rightRotate_eq_reference (kz hz ky hy : Int) (a b c : AVL_Tree) :
    rightRotate (node kz hz (node ky hy a b) c) = some (rightRotateRef kz c ky a b) ∧
    rightRotateRef kz c ky a b =
      node ky (1 + Max.max (getHeight a) (1 + Max.max (getHeight b) (getHeight c))) a
        (node kz (1 + Max.max (getHeight b) (getHeight c)) b c) ∧
    (HeightsOK a → HeightsOK b → HeightsOK c →
      getHeight (node kz (1 + Max.max (getHeight b) (getHeight c)) b c) =
          (height (node kz hz b c) : Int) ∧
        getHeight (rightRotateRef kz c ky a b) =
          (height (rightRotateRef kz c ky a b) : Int) ∧
        HeightsOK (rightRotateRef kz c ky a b)) ∧
    rightRotate (node kz hz null c) = none ∧ rightRotate null = none := by
  refine ⟨?_, rfl, fun ha hb hc => ?_, rfl, rfl⟩
  · simp only [rightRotate, rightRotateRef, max_eq, getHeight_node, add_comm]
  · have ea := getHeight_eq_height a ha
    have eb := getHeight_eq_height b hb
    have ec := getHeight_eq_height c hc
    have hz' : (1 + Max.max (getHeight b) (getHeight c) : Int) =
        (height (node kz hz b c) : Int) := by
      rw [eb, ec, height]; push_cast; rfl
    have hy' : (1 + Max.max (getHeight a) (1 + Max.max (getHeight b) (getHeight c)) : Int) =
        (height (rightRotateRef kz c ky a b) : Int) := by
      rw [ea, eb, ec, rightRotateRef, height, height]; push_cast; rfl
    refine ⟨hz', hy', ?_⟩
    refine ⟨hy', ha, ?_, hb, hc⟩
    rw [eb, ec, height]; push_cast; rfl

/-- C32: `leftRotate` is the mirror image of `rightRotate`, and `RL_Rotate` of `LR_Rotate`:
with `mirror` swapping the two subtrees of every node, `leftRotate z` is the mirror of
`rightRotate (mirror z)` and `RL_Rotate z` the mirror of `LR_Rotate (mirror z)`, keys, shape
and stored heights included, for every `z`; both sides are a tree when `z` has a right
child (for the double rotation: a right child with a left child), and both dereference
`NULL` otherwise. -/
theorem leftRotate_mirrors_rightRotate :
    (∀ z, leftRotate z = (rightRotate (mirror z)).map mirror) ∧
    (∀ z, RL_Rotate z = (LR_Rotate (mirror z)).map mirror) ∧
    (∀ zd zh zl yd yh T2 yr, ∃ t,
      leftRotate (node zd zh zl (node yd yh T2 yr)) = some t ∧
        rightRotate (mirror (node zd zh zl (node yd yh T2 yr))) = some (mirror t)) ∧
    (∀ zd zh zl yd yh xd xh xl xr yr, ∃ t,
      RL_Rotate (node zd zh zl (node yd yh (node xd xh xl xr) yr)) = some t ∧
        LR_Rotate (mirror (node zd zh zl (node yd yh (node xd xh xl xr) yr))) =
          some (mirror t)) ∧
    (∀ t, mirror (mirror t) = t) ∧
    (∀ t, inorder (mirror t) = (inorder t).reverse) := by
  refine ⟨leftRotate_eq_mirror, RL_Rotate_eq_mirror, ?_, ?_, mirror_mirror, ?_⟩
  · intro zd zh zl yd yh T2 yr
    refine ⟨_, rfl, ?_⟩
    have e := rightRotate_eq_mirror (mirror (node zd zh zl (node yd yh T2 yr)))
    rw [mirror_mirror] at e
    rw [e]
    rfl
  · intro zd zh zl yd yh xd xh xl xr yr
    refine ⟨_, rfl, ?_⟩
    have e := RL_Rotate_eq_mirror (node zd zh zl (node yd yh (node xd xh xl xr) yr))
    have e' : RL_Rotate (node zd zh zl (node yd yh (node xd xh xl xr) yr)) = some _ := rfl
    rw [e'] at e
    cases hL : LR_Rotate (mirror (node zd zh zl (node yd yh (node xd xh xl xr) yr))) with
    | none => rw [hL] at e; cases e
    | some u =>
      rw [hL] at e
      simp only [Option.map_some', Option.some.injEq] at e
      rw [e, mirror_mirror]
  · intro t
    induction t with
    | null => rfl
    | node d h l r ihl ihr =>
      simp only [mirror, inorder, ihl, ihr, List.reverse_append, List.reverse_cons,
        List.append_assoc, List.singleton_append]


/-! ## The nested call of the two-children branch of `delete` -/

theorem deleteLog_snd : ∀ (t : AVL_Tree) (v : Int), (deleteLog t v).2 = delete t v
  | null, _ => rfl
  | node d h l r, v => by
    rw [deleteLog.eq_def, delete.eq_def]
    simp only
    by_cases h1 : v < d
    · simp only [h1, if_true, deleteLog_snd l v]
    · by_cases h2 : v > d
      · simp only [h1, h2, if_true, if_false, deleteLog_snd r v]
      · simp only [h1, h2, if_false]
        cases l with
        | null => rfl
        | node ld lh ll lr =>
          cases r with
          | null => rfl
          | node rd rh rl rr =>
            simp only
            cases (minValueNode (node rd rh rl rr)).bind data with
            | none => rfl
            | some m => simp only [Option.some_bind, deleteLog_snd (node rd rh rl rr) m]

theorem deleteLog_findNode : ∀ (t : AVL_Tree) (v : Int),
    (deleteLog t v).1 = (deleteLog (findNode t v) v).1
  | null, _ => rfl
  | node d h l r, v => by
    rw [findNode]
    by_cases h1 : v < d
    · rw [if_pos h1, ← deleteLog_findNode l v, deleteLog.eq_def]
      simp only [h1, if_true]
    · by_cases h2 : v > d
      · rw [if_neg h1, if_pos h2, ← deleteLog_findNode r v, deleteLog.eq_def]
        simp only [h1, h2, if_true, if_false]
      · rw [if_neg h1, if_neg h2]

theorem findNode_bst : ∀ (t : AVL_Tree) (v : Int), BST t → BST (findNode t v)
  | null, _, hb => hb
  | node d h l r, v, hb => by
    rw [findNode]
    obtain ⟨bl, br, -, -⟩ := (bst_node d h l r).1 hb
    by_cases h1 : v < d
    · rw [if_pos h1]; exact findNode_bst l v bl
    · by_cases h2 : v > d
      · rw [if_neg h1, if_pos h2]; exact findNode_bst r v br
      · rw [if_neg h1, if_neg h2]; exact hb

theorem findNode_data : ∀ (t : AVL_Tree) (v d h : Int) (l r : AVL_Tree),
    findNode t v = node d h l r → d = v
  | null, _, _, _, _, _, e => by cases e
  | node d0 h0 l0 r0, v, d, h, l, r, e => by
    rw [findNode] at e
    by_cases h1 : v < d0
    · rw [if_pos h1] at e; exact findNode_data l0 v d h l r e
    · by_cases h2 : v > d0
      · rw [if_neg h1, if_pos h2] at e; exact findNode_data r0 v d h l r e
      · rw [if_neg h1, if_neg h2] at e
        cases e
        omega

/-- In a tree in strict BST order, `delete` called with the key of the leftmost node finds
that node, which has no left child, and enters the branch `node->left == NULL` only. -/
theorem deleteLog_minValueNode : ∀ (d h : Int) (l r : AVL_Tree), BST (node d h l r) →
    ∃ m mh mr rest, minValueNode (node d h l r) = some (node m mh null mr) ∧
      inorder (node d h l r) = m :: rest ∧
      findNode (node d h l r) m = node m mh null mr ∧
      (deleteLog (node d h l r) m).1 = [DeleteCase.leftNull]
  | d, h, null, r, _ => by
    refine ⟨d, h, r, inorder r, rfl, rfl, ?_, ?_⟩
    · simp only [findNode, lt_irrefl, gt_iff_lt, if_false]
    · rw [deleteLog.eq_def]
      simp only [lt_irrefl, gt_iff_lt, if_false]
  | d, h, node ld lh ll lr, r, hb => by
    obtain ⟨bl, -, hlt, -⟩ := (bst_node d h (node ld lh ll lr) r).1 hb
    obtain ⟨m, mh, mr, rest, e1, e2, e3, e4⟩ := deleteLog_minValueNode ld lh ll lr bl
    have hm : m < d := hlt m (by rw [e2]; exact List.mem_cons_self _ _)
    refine ⟨m, mh, mr, rest ++ d :: inorder r, ?_, ?_, ?_, ?_⟩
    · rw [minValueNode, e1]
    · rw [inorder, e2]; rfl
    · rw [findNode, if_pos hm, e3]
    · rw [deleteLog.eq_def]
      simp only [hm, if_true, e4]

/-- C33: the two-children branch of `delete` recurses into a simple case.  For every tree
in strict BST order and every key whose node (the one that step 1 of `delete` reaches) has
two children: the successor key that the branch copies is the key `m` of the leftmost node
of the right subtree, that node has no left child and is the node that the nested call
`delete(node->right, m)` reaches, the nested call enters the branch `node->left == NULL`
and no other, and the whole call enters the two-children branch once, followed by that
branch only.  The second component of `deleteLog` is `delete`. -/
theorem two_children_delete_recurses_once (t : AVL_Tree) (k d h ld lh rd rh : Int)
    (ll lr rl rr : AVL_Tree) (hb : BST t)
    (hf : findNode t k = node d h (node ld lh ll lr) (node rd rh rl rr)) :
    ∃ m mh mr,
      minValueNode (node rd rh rl rr) = some (node m mh null mr) ∧
      (minValueNode (node rd rh rl rr)).bind data = some m ∧
      (inorder (node rd rh rl rr)).head? = some m ∧
      findNode (node rd rh rl rr) m = node m mh null mr ∧
      (deleteLog (node rd rh rl rr) m).1 = [DeleteCase.leftNull] ∧
      (deleteLog t k).1 = [DeleteCase.twoChildren, DeleteCase.leftNull] ∧
      (deleteLog t k).2 = delete t k := by
  have hd : d = k := findNode_data t k _ _ _ _ hf
  subst hd
  have hbn := findNode_bst t d hb
  rw [hf] at hbn
  obtain ⟨-, br, -, -⟩ := (bst_node _ _ _ _).1 hbn
  obtain ⟨m, mh, mr, rest, e1, e2, e3, e4⟩ := deleteLog_minValueNode rd rh rl rr br
  refine ⟨m, mh, mr, e1, by rw [e1]; rfl, by rw [e2]; rfl, e3, e4, ?_, deleteLog_snd t d⟩
  rw [deleteLog_findNode, hf, deleteLog.eq_def]
  simp only [lt_irrefl, gt_iff_lt, if_false, e1, Option.some_bind, data, e4]

theorem two_children_delete_recurses_once_witness :
    BST demoTree ∧
      findNode demoTree 20 = node 20 3 (node 10 2 (node 5 1 null null) null)
        (node 30 2 (node 25 1 null null) (node 35 1 null null)) ∧
      ∃ m mh mr,
        minValueNode (node 30 2 (node 25 1 null null) (node 35 1 null null)) =
          some (node m mh null mr) ∧
        (minValueNode (node 30 2 (node 25 1 null null) (node 35 1 null null))).bind data =
          some m ∧
        (inorder (node 30 2 (node 25 1 null null) (node 35 1 null null))).head? = some m ∧
        findNode (node 30 2 (node 25 1 null null) (node 35 1 null null)) m =
          node m mh null mr ∧
        (deleteLog (node 30 2 (node 25 1 null null) (node 35 1 null null)) m).1 =
          [DeleteCase.leftNull] ∧
        (deleteLog demoTree 20).1 = [DeleteCase.twoChildren, DeleteCase.leftNull] ∧
        (deleteLog demoTree 20).2 = delete demoTree 20 :=
  ⟨by decide, by decide,
    two_children_delete_recurses_once demoTree 20 20 3 10 2 30 2 (node 5 1 null null) null
      (node 25 1 null null) (node 35 1 null null) (by decide) (by decide)⟩

/-- Without strict BST order the nested call can enter the two-children branch again: in
the tree with root 5 and right child 7 whose left child also holds 7, the successor key 7
is found at the right child, which has two children. -/
theorem two_children_delete_needs_bst :
    ¬ BST (node 5 3 (node 1 1 null null)
        (node 7 2 (node 7 1 null null) (node 9 1 null null))) ∧
      (deleteLog (node 5 3 (node 1 1 null null)
        (node 7 2 (node 7 1 null null) (node 9 1 null null))) 5).1 =
        [DeleteCase.twoChildren, DeleteCase.twoChildren, DeleteCase.leftNull] := by
  decide

/-! ## The rebalancing step of `delete` at a node out of balance by two -/

/-- C34: the rebalancing step restores balance.  For every node whose two subtrees are
balanced with correct stored heights and whose balance factor, once its height is
recomputed, is exactly 2 or -2, the four-way test of `delete` selects a rotation
(`rightRotate` when the factor is 2 and the balance factor of the left child is `≥ 0`,
`LR_Rotate` when it is `< 0`; `leftRotate` when the factor is -2 and the balance factor of
the right child is `≤ 0`, `RL_Rotate` when it is `> 0`), the rotation returns a tree, and in
that tree every node is balanced and stores its true height. -/
theorem rebalance_restores_balance (d h : Int) (l r : AVL_Tree)
    (hl : Balanced l ∧ HeightsOK l) (hr : Balanced r ∧ HeightsOK r)
    (hbf : getBalance (node d (max (getHeight l) (getHeight r) + 1) l r) = some 2 ∨
      getBalance (node d (max (getHeight l) (getHeight r) + 1) l r) = some (-2)) :
    ∃ t', deleteRebalance (node d h l r) = some t' ∧ Balanced t' ∧ HeightsOK t' ∧
      (getHeight l - getHeight r = 2 → ∃ bl, getBalance l = some bl ∧
        (bl ≥ 0 → rightRotate (node d (max (getHeight l) (getHeight r) + 1) l r) = some t') ∧
        (bl < 0 → LR_Rotate (node d (max (getHeight l) (getHeight r) + 1) l r) = some t')) ∧
      (getHeight l - getHeight r = -2 → ∃ br, getBalance r = some br ∧
        (br ≤ 0 → leftRotate (node d (max (getHeight l) (getHeight r) + 1) l r) = some t') ∧
        (br > 0 → RL_Rotate (node d (max (getHeight l) (getHeight r) + 1) l r) = some t')) := by
  have al := avlh_of_inv l hl.1 hl.2
  have ar := avlh_of_inv r hr.1 hr.2
  have hb : getHeight l - getHeight r = 2 ∨ getHeight l - getHeight r = -2 := by
    simp only [getBalance, Option.some.injEq] at hbf
    exact hbf
  clear hbf
  obtain ⟨t', e, at', -, -, -⟩ := deleteRebalance_avlh d h l r al ar (by omega) (by omega)
  obtain ⟨bt, ht⟩ := inv_of_avlh t' at'
  refine ⟨t', e, bt, ht, fun h2 => ?_, fun h2 => ?_⟩
  · have nr := getHeight_nonneg r ar
    obtain ⟨ld, lh, ll, lr, rfl⟩ := node_of_pos (t := l) (by omega)
    refine ⟨getHeight ll - getHeight lr, rfl, fun c => ?_, fun c => ?_⟩
    · rw [← e, deleteRebalance_node, max_eq]
      have h1 : getHeight (node ld lh ll lr) - getHeight r > 1 := by omega
      simp only [h1, if_true, c]
    · rw [← e, deleteRebalance_node, max_eq]
      have h1 : getHeight (node ld lh ll lr) - getHeight r > 1 := by omega
      have c' : ¬ getHeight ll - getHeight lr ≥ 0 := by omega
      simp only [h1, if_true, c', if_false]
  · have nl := getHeight_nonneg l al
    obtain ⟨rd, rh, rl, rr, rfl⟩ := node_of_pos (t := r) (by omega)
    refine ⟨getHeight rl - getHeight rr, rfl, fun c => ?_, fun c => ?_⟩
    · rw [← e, deleteRebalance_node, max_eq]
      have h1 : ¬ getHeight l - getHeight (node rd rh rl rr) > 1 := by omega
      have h3 : getHeight l - getHeight (node rd rh rl rr) < -1 := by omega
      simp only [h1, h3, if_true, if_false, c]
    · rw [← e, deleteRebalance_node, max_eq]
      have h1 : ¬ getHeight l - getHeight (node rd rh rl rr) > 1 := by omega
      have h3 : getHeight l - getHeight (node rd rh rl rr) < -1 := by omega
      have c' : ¬ getHeight rl - getHeight rr ≤ 0 := by omega
      simp only [h1, h3, if_true, if_false, c']

theorem rebalance_restores_balance_witness :
    (Balanced (node 10 2 (node 5 1 null null) (node 15 1 null null)) ∧
        HeightsOK (node 10 2 (node 5 1 null null) (node 15 1 null null))) ∧
      (Balanced null ∧ HeightsOK null) ∧
      ∃ t', deleteRebalance
          (node 20 3 (node 10 2 (node 5 1 null null) (node 15 1 null null)) null) = some t' ∧
        Balanced t' ∧ HeightsOK t' :=
  ⟨by decide, by decide,
    (rebalance_restores_balance 20 3 (node 10 2 (node 5 1 null null) (node 15 1 null null))
      null (by decide) (by decide) (Or.inl (by decide))).imp
      fun _ hx => ⟨hx.1, hx.2.1, hx.2.2.1⟩⟩

end AVL

namespace BinarySearchTree

open Node

/-! ## Plain binary search tree: order and counting -/

theorem plain_sorted_node (d : Int) (l r : Node) :
    (inorder (node d l r)).Sorted (· ≤ ·) ↔
      (inorder l).Sorted (· ≤ ·) ∧ (inorder r).Sorted (· ≤ ·) ∧
        (∀ x ∈ inorder l, x ≤ d) ∧ (∀ x ∈ inorder r, d ≤ x) := by
  simp only [inorder, List.Sorted, List.pairwise_append, List.pairwise_cons, List.mem_cons]
  constructor
  · rintro ⟨h1, ⟨h2, h3⟩, h4⟩
    exact ⟨h1, h3, fun x hx => h4 x hx d (Or.inl rfl), h2⟩
  · rintro ⟨h1, h2, h3, h4⟩
    refine ⟨h1, ⟨h4, h2⟩, ?_⟩
    rintro a ha b (rfl | hb)
    · exact h3 a ha
    · exact le_trans (h3 a ha) (h4 b hb)

theorem orderedInsert_append_of_lt (v : Int) : ∀ (xs ys : List Int), (∀ x ∈ xs, x < v) →
    (xs ++ ys).orderedInsert (· ≤ ·) v = xs ++ ys.orderedInsert (· ≤ ·) v
  | [], _, _ => rfl
  | x :: xs, ys, hx => by
    have h1 : ¬ v ≤ x := not_le.mpr (hx x (List.mem_cons_self _ _))
    have ih := orderedInsert_append_of_lt v xs ys fun a ha => hx a (List.mem_cons_of_mem _ ha)
    rw [List.cons_append, List.cons_append]
    simp only [List.orderedInsert, h1, if_false, ih]

theorem orderedInsert_append_of_le (v d : Int) (hvd : v ≤ d) : ∀ (xs ys : List Int),
    (xs ++ d :: ys).orderedInsert (· ≤ ·) v = xs.orderedInsert (· ≤ ·) v ++ d :: ys
  | [], ys => by simp only [List.nil_append, List.orderedInsert, hvd, if_true, List.cons_append]
  | x :: xs, ys => by
    have ih := orderedInsert_append_of_le v d hvd xs ys
    by_cases h1 : v ≤ x
    · rw [List.cons_append]
      simp only [List.orderedInsert, h1, if_true, List.cons_append]
    · rw [List.cons_append]
      simp only [List.orderedInsert, h1, if_false, ih, List.cons_append]

theorem plain_insert_inorder (v : Int) : ∀ t : Node, (inorder t).Sorted (· ≤ ·) →
    inorder (insert t v) = (inorder t).orderedInsert (· ≤ ·) v
  | null, _ => rfl
  | node d l r, hs => by
    obtain ⟨s1, s2, s3, s4⟩ := (plain_sorted_node d l r).1 hs
    by_cases c1 : v > d
    · have hlt : ∀ x ∈ inorder l ++ [d], x < v := by
        intro x hx
        rcases List.mem_append.1 hx with hx | hx
        · have := s3 x hx; omega
        · rw [List.mem_singleton] at hx; omega
      have e := orderedInsert_append_of_lt v (inorder l ++ [d]) (inorder r) hlt
      simp only [List.append_assoc, List.singleton_append] at e
      simp only [insert, c1, if_true, inorder, plain_insert_inorder v r s2, e]
    · have c2 : v ≤ d := by omega
      simp only [insert, c1, c2, if_true, if_false, inorder, plain_insert_inorder v l s1,
        orderedInsert_append_of_le v d c2]

theorem plain_countNodes_insert (v : Int) : ∀ t : Node,
    countNodes (insert t v) = countNodes t + 1
  | null => rfl
  | node d l r => by
    have hl := plain_countNodes_insert v l
    have hr := plain_countNodes_insert v r
    by_cases c1 : v > d
    · simp only [insert, c1, if_true, countNodes, hr]; omega
    · have c2 : v ≤ d := by omega
      simp only [insert, c1, c2, if_true, if_false, countNodes, hl]; omega

theorem plain_countNodes_foldl : ∀ (vs : List Int) (t : Node),
    countNodes (vs.foldl insert t) = countNodes t + vs.length
  | [], t => by simp
  | v :: vs, t => by
    rw [List.foldl_cons, plain_countNodes_foldl vs (insert t v), plain_countNodes_insert]
    simp only [List.length_cons]; push_cast; omega

theorem plain_sorted_foldl : ∀ (vs : List Int) (t : Node), (inorder t).Sorted (· ≤ ·) →
    (inorder (vs.foldl insert t)).Sorted (· ≤ ·)
  | [], _, h => h
  | v :: vs, t, h => by
    rw [List.foldl_cons]
    apply plain_sorted_foldl vs
    rw [plain_insert_inorder v t h]
    exact h.orderedInsert v _

/-- C16 (plain BST insert keeps duplicates): on a tree whose in-order sequence is
non-decreasing, as every tree built by `insert` is, the in-order sequence of
`insert t v` is non-decreasing and is that of `t` with one more occurrence of `v`; a
value equal to the key of a node goes into the left subtree of that node; `countNodes`
grows by exactly one, is `n` after `n` inserts into the empty tree and 0 on the empty
tree. -/
theorem plain_insert_keeps_duplicates (t : Node) (v : Int)
    (h : (inorder t).Sorted (· ≤ ·)) :
    (inorder (insert t v)).Sorted (· ≤ ·) ∧
      inorder (insert t v) = (inorder t).orderedInsert (· ≤ ·) v ∧
      (inorder (insert t v)).Perm (v :: inorder t) ∧
      (∀ (d : Int) (l r : Node), insert (node d l r) d = node d (insert l d) r) ∧
      countNodes (insert t v) = countNodes t + 1 ∧
      (∀ vs : List Int, (inorder (vs.foldl insert null)).Sorted (· ≤ ·) ∧
        countNodes (vs.foldl insert null) = vs.length) ∧
      countNodes null = 0 ∧ countNodes demoTree = 6 := by
  have e := plain_insert_inorder v t h
  refine ⟨?_, e, ?_, ?_, plain_countNodes_insert v t, ?_, rfl, by decide⟩
  · rw [e]; exact h.orderedInsert v _
  · rw [e]; exact List.perm_orderedInsert _ _ _
  · intro d l r
    simp only [insert, gt_iff_lt, lt_self_iff_false, if_false, le_refl, if_true]
  · intro vs
    refine ⟨plain_sorted_foldl vs null List.sorted_nil, ?_⟩
    rw [plain_countNodes_foldl]
    simp [countNodes]

/-- Witness of C16: inserting a second 10 into the tree of the demo. -/
theorem plain_insert_keeps_duplicates_witness :
    (inorder demoTree).Sorted (· ≤ ·) ∧
      inorder (insert demoTree 10) = [5, 10, 10, 20, 25, 30, 35] ∧
      countNodes (insert demoTree 10) = countNodes demoTree + 1 :=
  ⟨by decide, by decide, (plain_insert_keeps_duplicates demoTree 10 (by decide)).2.2.2.2.1⟩

/-! ## Plain binary search tree: `deleteNode` and `search` -/

theorem plain_findMin_node : ∀ (d : Int) (l r : Node),
    ∃ m mr rest, findMin (node d l r) = node m null mr ∧ inorder (node d l r) = m :: rest
  | d, null, r => ⟨d, r, inorder r, rfl, rfl⟩
  | d, node ld ll lr, r => by
    obtain ⟨m, mr, rest, e1, e2⟩ := plain_findMin_node ld ll lr
    refine ⟨m, mr, rest ++ d :: inorder r, ?_, ?_⟩
    · rw [findMin, e1]
    · rw [inorder, e2]; rfl

theorem plain_deleteNode_spec : ∀ (t : Node) (v : Int), (inorder t).Sorted (· ≤ ·) →
    ∃ t', deleteNode t v = some t' ∧ (inorder t').Perm ((inorder t).erase v) ∧
      (inorder t').Sorted (· ≤ ·)
  | null, _, _ => ⟨null, rfl, List.Perm.refl _, List.sorted_nil⟩
  | node d l r, v, hs => by
    obtain ⟨s1, s2, s3, s4⟩ := (plain_sorted_node d l r).1 hs
    rw [deleteNode.eq_def]
    simp only
    by_cases c1 : v < d
    · obtain ⟨l', e, p, s⟩ := plain_deleteNode_spec l v s1
      have sub : ∀ x ∈ inorder l', x ∈ inorder l := fun x hx =>
        List.mem_of_mem_erase (p.subset hx)
      refine ⟨node d l' r, by simp only [c1, if_true, e, Option.map_some'], ?_, ?_⟩
      · have e2 : (inorder l ++ d :: inorder r).erase v
            = (inorder l).erase v ++ d :: inorder r := by
          by_cases hm : v ∈ inorder l
          · rw [List.erase_append_left _ hm]
          · have hn : v ∉ d :: inorder r := by
              intro hv
              rcases List.mem_cons.1 hv with rfl | hv
              · omega
              · have := s4 v hv; omega
            rw [List.erase_append_right _ hm, List.erase_of_not_mem hn,
              List.erase_of_not_mem hm]
        simp only [inorder, e2]
        exact p.append_right _
      · exact (plain_sorted_node d l' r).2 ⟨s, s2, fun x hx => s3 x (sub x hx), s4⟩
    · by_cases c2 : v > d
      · obtain ⟨r', e, p, s⟩ := plain_deleteNode_spec r v s2
        have sub : ∀ x ∈ inorder r', x ∈ inorder r := fun x hx =>
          List.mem_of_mem_erase (p.subset hx)
        refine ⟨node d l r', by simp only [c1, c2, if_true, if_false, e, Option.map_some'],
          ?_, ?_⟩
        · have hm : v ∉ inorder l := fun hv => by have := s3 v hv; omega
          have hd : d ≠ v := by omega
          have e2 : (inorder l ++ d :: inorder r).erase v
              = inorder l ++ d :: (inorder r).erase v := by
            rw [List.erase_append_right _ hm, List.erase_cons_tail (by simpa using hd)]
          simp only [inorder, e2]
          exact (p.cons d).append_left _
        · exact (plain_sorted_node d l r').2 ⟨s1, s, s3, fun x hx => s4 x (sub x hx)⟩
      · have hv : v = d := by omega
        subst hv
        have pm : ((inorder l ++ v :: inorder r).erase v).Perm (inorder l ++ inorder r) := by
          have pmid : (inorder l ++ v :: inorder r).Perm (v :: (inorder l ++ inorder r)) :=
            List.perm_middle
          have := pmid.erase v
          rwa [List.erase_cons_head] at this
        simp only [c1, if_false, inorder]
        cases l with
        | null =>
          cases r with
          | null => exact ⟨null, rfl, by simp [inorder], List.sorted_nil⟩
          | node rd rl rr =>
            exact ⟨node rd rl rr, rfl, by simp [inorder], s2⟩
        | node ld ll lr =>
          cases r with
          | null =>
            refine ⟨node ld ll lr, rfl, ?_, s1⟩
            have := pm.symm
            simpa [inorder] using this
          | node rd rl rr =>
            obtain ⟨m, mr, rest, e1, e2⟩ := plain_findMin_node rd rl rr
            obtain ⟨r', e, p, s⟩ := plain_deleteNode_spec (node rd rl rr) m s2
            rw [e2, List.erase_cons_head] at p
            have srt : (m :: rest).Sorted (· ≤ ·) := by rwa [e2] at s2
            refine ⟨node m (node ld ll lr) r',
              by simp only [e1, data, Option.some_bind, e, Option.map_some'], ?_, ?_⟩
            · refine List.Perm.trans ?_ pm.symm
              rw [e2, inorder]
              exact (p.cons m).append_left _
            · refine (plain_sorted_node m (node ld ll lr) r').2 ⟨s1, s, ?_, ?_⟩
              · intro x hx
                have h1 := s3 x hx
                have h2 := s4 m (by rw [e2]; exact List.mem_cons_self _ _)
                omega
              · intro x hx
                exact List.rel_of_sorted_cons srt x (p.subset hx)

theorem plain_deleteNode_inorder (t : Node) (v : Int) (h : (inorder t).Sorted (· ≤ ·)) :
    ∃ t', deleteNode t v = some t' ∧ inorder t' = (inorder t).erase v ∧
      (inorder t').Sorted (· ≤ ·) := by
  obtain ⟨t', e, p, s⟩ := plain_deleteNode_spec t v h
  exact ⟨t', e, List.eq_of_perm_of_sorted p s (h.sublist (List.erase_sublist _ _)), s⟩

theorem plain_runOps_sorted : ∀ (ops : List Op) (t : Node), (inorder t).Sorted (· ≤ ·) →
    ∃ t', runOps t ops = some t' ∧ (inorder t').Sorted (· ≤ ·)
  | [], t, h => ⟨t, rfl, h⟩
  | Op.ins v :: ops, t, h => by
    have h1 : (inorder (insert t v)).Sorted (· ≤ ·) := by
      rw [plain_insert_inorder v t h]; exact h.orderedInsert v _
    obtain ⟨t2, e2, h2⟩ := plain_runOps_sorted ops (insert t v) h1
    exact ⟨t2, by simp only [runOps, Op.apply, Option.some_bind, e2], h2⟩
  | Op.del v :: ops, t, h => by
    obtain ⟨t1, e1, -, h1⟩ := plain_deleteNode_inorder t v h
    obtain ⟨t2, e2, h2⟩ := plain_runOps_sorted ops t1 h1
    exact ⟨t2, by simp only [runOps, Op.apply, e1, Option.some_bind, e2], h2⟩

theorem plain_search_result (v : Int) : ∀ t : Node,
    search t v = null ∨ ∃ l r, search t v = node v l r ∧ v ∈ inorder t
  | null => Or.inl rfl
  | node d l r => by
    rw [search]
    by_cases c0 : v = d
    · subst c0
      exact Or.inr ⟨l, r, by simp only [if_true], by simp [inorder]⟩
    · by_cases c1 : v > d
      · simp only [c0, c1, if_true, if_false]
        rcases plain_search_result v r with h | ⟨a, b, h, hm⟩
        · exact Or.inl h
        · exact Or.inr ⟨a, b, h, by simp [inorder, hm]⟩
      · have c2 : v ≤ d := by omega
        simp only [c0, c1, c2, if_true, if_false]
        rcases plain_search_result v l with h | ⟨a, b, h, hm⟩
        · exact Or.inl h
        · exact Or.inr ⟨a, b, h, by simp [inorder, hm]⟩

theorem plain_search_complete (v : Int) : ∀ t : Node, (inorder t).Sorted (· ≤ ·) →
    v ∈ inorder t → ∃ l r, search t v = node v l r
  | null, _, hv => by simp [inorder] at hv
  | node d l r, hs, hv => by
    obtain ⟨s1, s2, s3, s4⟩ := (plain_sorted_node d l r).1 hs
    simp only [inorder, List.mem_append, List.mem_cons] at hv
    rw [search]
    by_cases c0 : v = d
    · subst c0
      exact ⟨l, r, by simp only [if_true]⟩
    · by_cases c1 : v > d
      · simp only [c0, c1, if_true, if_false]
        refine plain_search_complete v r s2 ?_
        rcases hv with hv | hv | hv
        · have := s3 v hv; omega
        · exact absurd hv c0
        · exact hv
      · have c2 : v ≤ d := by omega
        simp only [c0, c1, c2, if_true, if_false]
        refine plain_search_complete v l s1 ?_
        rcases hv with hv | hv | hv
        · exact hv
        · exact absurd hv c0
        · have := s4 v hv; omega

/-- C17 (plain BST `deleteNode` removes one occurrence): on a tree whose in-order sequence
is non-decreasing `deleteNode` returns a tree whose in-order sequence is that of `t` with
one occurrence of `v` removed when `v` occurs and unchanged when it does not;
`deleteNode` on the empty tree returns the empty tree; deleting 5, 10 and 30 from the tree
built from 20, 10, 30, 5, 25, 35 leaves the in-order sequence 20, 25, 35 and 3 nodes. -/
theorem plain_deleteNode_removes_one (t : Node) (v : Int)
    (h : (inorder t).Sorted (· ≤ ·)) :
    ∃ t', deleteNode t v = some t' ∧
      inorder t' = (inorder t).erase v ∧
      (v ∈ inorder t → (v :: inorder t').Perm (inorder t)) ∧
      (v ∉ inorder t → inorder t' = inorder t) ∧
      deleteNode null v = some null ∧
      (runOps demoTree [Op.del 5, Op.del 10, Op.del 30]).map inorder = some [20, 25, 35] ∧
      (runOps demoTree [Op.del 5, Op.del 10, Op.del 30]).map countNodes = some 3 := by
  obtain ⟨t', e, hi, -⟩ := plain_deleteNode_inorder t v h
  refine ⟨t', e, hi, ?_, ?_, rfl, by decide, by decide⟩
  · intro hv
    rw [hi]
    exact (List.perm_cons_erase hv).symm
  · intro hv
    rw [hi, List.erase_of_not_mem hv]

/-- Witness of C17: deleting 30, a node with two children, from the tree of the demo. -/
theorem plain_deleteNode_removes_one_witness :
    (inorder demoTree).Sorted (· ≤ ·) ∧
      ∃ t', deleteNode demoTree 30 = some t' ∧
        inorder t' = (inorder demoTree).erase 30 ∧
        ((30 : Int) ∈ inorder demoTree → ((30 : Int) :: inorder t').Perm (inorder demoTree)) ∧
        ((30 : Int) ∉ inorder demoTree → inorder t' = inorder demoTree) ∧
        deleteNode null 30 = some null ∧
        (runOps demoTree [Op.del 5, Op.del 10, Op.del 30]).map inorder
          = some [20, 25, 35] ∧
        (runOps demoTree [Op.del 5, Op.del 10, Op.del 30]).map countNodes = some 3 :=
  ⟨by decide, plain_deleteNode_removes_one demoTree 30 (by decide)⟩

/-- C18 (plain BST `search` is sound and complete): on every tree obtained from the empty
tree by `insert` and `deleteNode` calls, `search t v` returns a node whose key is `v` when
`v` occurs in the tree, and returns `NULL` if and only if `v` does not occur; in the tree
of the demo 25 is found and 100 is not. -/
theorem plain_search_sound_complete (ops : List Op) (v : Int) :
    ∃ t, runOps null ops = some t ∧
      (v ∈ inorder t → ∃ l r, search t v = node v l r) ∧
      (search t v = null ↔ v ∉ inorder t) ∧
      (∃ l r, search demoTree 25 = node 25 l r) ∧ search demoTree 100 = null := by
  obtain ⟨t, e, hs⟩ := plain_runOps_sorted ops null List.sorted_nil
  refine ⟨t, e, plain_search_complete v t hs, ⟨?_, ?_⟩, ⟨null, null, by decide⟩, by decide⟩
  · intro hn hv
    obtain ⟨l, r, hf⟩ := plain_search_complete v t hs hv
    rw [hn] at hf
    cases hf
  · intro hv
    rcases plain_search_result v t with hn | ⟨l, r, -, hm⟩
    · exact hn
    · exact absurd hm hv

end BinarySearchTree

namespace SinglyLinkedList

/-! ## Singly linked list: `reverseList` and `insertSorted` -/

theorem sll_reverseLoop_eq : ∀ (curr prev : List Int),
    reverseLoop prev curr = curr.reverse ++ prev
  | [], prev => rfl
  | x :: next, prev => by
    rw [reverseLoop, sll_reverseLoop_eq next (x :: prev), List.reverse_cons,
      List.append_assoc, List.singleton_append]

theorem sll_insertSortedLoop_eq (value : Int) : ∀ (next : List Int) (c : Int),
    insertSortedLoop value c next = c :: next.orderedInsert (· ≤ ·) value
  | [], _ => rfl
  | n :: rest, c => by
    by_cases h : n < value
    · have h' : ¬ value ≤ n := by omega
      simp only [insertSortedLoop, h, if_true, sll_insertSortedLoop_eq value rest n,
        List.orderedInsert, h', if_false]
    · have h' : value ≤ n := by omega
      simp only [insertSortedLoop, h, if_false, List.orderedInsert, h', if_true]

theorem sll_insertSorted_eq (value : Int) : ∀ l : List Int,
    insertSorted l value = l.orderedInsert (· ≤ ·) value
  | [] => rfl
  | x :: rest => by
    by_cases h : x ≥ value
    · have h' : value ≤ x := h
      simp only [insertSorted, h, if_true, List.orderedInsert, h']
    · have h' : ¬ value ≤ x := h
      simp only [insertSorted, h, if_false, sll_insertSortedLoop_eq, List.orderedInsert, h']

/-- C19 (`reverseList`): the element sequence read from `head` after `reverseList` is the
reverse of the sequence before the call; the empty list stays empty; the list 10, 20, 30,
40, 50 that `main` builds with `insertAtEnd` becomes 50, 40, 30, 20, 10. -/
theorem sll_reverseList_reverses (l : List Int) :
    reverseList l = l.reverse ∧ reverseList [] = [] ∧
      [10, 20, 30, 40, 50].foldl insertAtEnd [] = [10, 20, 30, 40, 50] ∧
      reverseList [10, 20, 30, 40, 50] = [50, 40, 30, 20, 10] := by
  refine ⟨?_, rfl, by decide, by decide⟩
  rw [reverseList, sll_reverseLoop_eq, List.append_nil]

/-- C20 (`insertSorted` maintains order): on a list sorted in ascending (non-decreasing)
order the list after `insertSorted` is still sorted in ascending order and holds exactly
the previous elements and one more occurrence of `v`, so its length grows by one. -/
theorem sll_insertSorted_maintains_order (l : List Int) (v : Int)
    (h : l.Sorted (· ≤ ·)) :
    (insertSorted l v).Sorted (· ≤ ·) ∧ (insertSorted l v).Perm (v :: l) ∧
      (insertSorted l v).length = l.length + 1 := by
  rw [sll_insertSorted_eq]
  exact ⟨h.orderedInsert v l, List.perm_orderedInsert _ _ _, List.orderedInsert_length _ _ _⟩

/-- Witness of C20: the example of the source, 25 into 10, 20, 30, 40. -/
theorem sll_insertSorted_maintains_order_witness :
    ([10, 20, 30, 40] : List Int).Sorted (· ≤ ·) ∧
      insertSorted [10, 20, 30, 40] 25 = [10, 20, 25, 30, 40] ∧
      (insertSorted [10, 20, 30, 40] 25).Sorted (· ≤ ·) ∧
      (insertSorted [10, 20, 30, 40] 25).Perm (25 :: [10, 20, 30, 40]) ∧
      (insertSorted [10, 20, 30, 40] 25).length = ([10, 20, 30, 40] : List Int).length + 1 :=
  ⟨by decide, by decide, sll_insertSorted_maintains_order [10, 20, 30, 40] 25 (by decide)⟩

/-! ## Singly linked list: positions, search and deletion -/

theorem sll_getMiddleLoop_eq : ∀ (fast slow : List Int), fast.length ≤ slow.length →
    getMiddleLoop slow fast = some (slow.drop (fast.length / 2))
  | [], slow, _ => by simp [getMiddleLoop]
  | [_], slow, _ => by simp [getMiddleLoop]
  | _ :: _ :: fast, [], h => by simp at h
  | _ :: _ :: fast, _ :: slow, h => by
    have hl : fast.length ≤ slow.length := by
      simp only [List.length_cons] at h; omega
    rw [getMiddleLoop, sll_getMiddleLoop_eq fast slow hl]
    have e : (fast.length + 1 + 1) / 2 = fast.length / 2 + 1 := by omega
    simp only [List.length_cons, e, List.drop_succ_cons]

theorem sll_searchLoop_eq (v : Int) : ∀ (l : List Int) (c : Int),
    searchLoop v l c = if v ∈ l then c + 1 + (l.indexOf v : Int) else -1
  | [], c => by simp [searchLoop]
  | x :: rest, c => by
    by_cases h : x = v
    · subst h
      simp [searchLoop, List.indexOf_cons_self]
    · have h' : ¬ v = x := fun e => h e.symm
      rw [searchLoop, if_neg h, sll_searchLoop_eq v rest (c + 1)]
      by_cases hm : v ∈ rest
      · simp only [hm, if_true, List.mem_cons, or_true, List.indexOf_cons_ne _ h]
        push_cast; omega
      · simp only [hm, if_false, List.mem_cons, h', or_self]

theorem sll_getElementAtLoop_eq : ∀ (k : Nat) (l : List Int),
    getElementAtLoop k l = l.getD k (-1)
  | 0, [] => rfl
  | 0, _ :: _ => rfl
  | _ + 1, [] => rfl
  | k + 1, _ :: rest => by
    rw [getElementAtLoop, sll_getElementAtLoop_eq k rest, List.getD_cons_succ]

theorem sll_deleteAtPositionLoop_eq : ∀ (k : Nat) (c : Int) (rest : List Int),
    deleteAtPositionLoop k c rest =
      if k < rest.length then (c :: rest.eraseIdx k, rest.getD k (-1)) else (c :: rest, -1)
  | 0, c, [] => rfl
  | 0, c, _ :: _ => by simp [deleteAtPositionLoop]
  | _ + 1, c, [] => rfl
  | k + 1, c, n :: rest => by
    rw [deleteAtPositionLoop, sll_deleteAtPositionLoop_eq k n rest]
    by_cases h : k < rest.length
    · simp [h]
    · simp [h]

theorem sll_deleteByValueLoop_eq (v : Int) : ∀ (rest : List Int) (c : Int),
    deleteByValueLoop v c rest =
      if v ∈ rest then (c :: rest.erase v, some v) else (c :: rest, none)
  | [], c => by simp [deleteByValueLoop]
  | n :: rest, c => by
    by_cases h : n = v
    · subst h
      simp [deleteByValueLoop]
    · have h' : ¬ v = n := fun e => h e.symm
      have hb : ¬ (n == v) = true := by simpa using h
      rw [deleteByValueLoop, if_neg h, sll_deleteByValueLoop_eq v rest n]
      by_cases hm : v ∈ rest
      · simp only [hm, if_true, List.mem_cons, or_true, List.erase_cons_tail hb]
      · simp only [hm, if_false, List.mem_cons, h', or_self]

theorem sll_insertAtPositionLoop_eq (v : Int) : ∀ (k : Nat) (l : List Int), k < l.length →
    insertAtPositionLoop v k l = some (l.take (k + 1) ++ v :: l.drop (k + 1))
  | _, [], h => by simp at h
  | 0, c :: next, _ => by simp [insertAtPositionLoop]
  | k + 1, c :: next, h => by
    have hk : k < next.length := by simp only [List.length_cons] at h; omega
    rw [insertAtPositionLoop, sll_insertAtPositionLoop_eq v k next hk]
    simp

/-- C21 (`getMiddle`): on a non-empty list of length `n`, `getMiddle` returns the element
at 0-based index `n / 2` (the second of the two middle elements when `n` is even); on the
empty list it returns -1. -/
theorem sll_getMiddle_index (l : List Int) (h : l ≠ []) :
    getMiddle l = l[l.length / 2]? ∧ (getMiddle l).isSome = true ∧
      getMiddle [] = some (-1) ∧
      getMiddle [1, 2, 3, 4] = some 3 ∧ getMiddle [1, 2, 3, 4, 5] = some 3 := by
  refine ⟨?_, ?_, rfl, by decide, by decide⟩
  · cases l with
    | nil => exact absurd rfl h
    | cons x rest =>
      have hlt : (x :: rest).length / 2 < (x :: rest).length := by
        simp only [List.length_cons]; omega
      rw [getMiddle, sll_getMiddleLoop_eq _ _ (le_refl _), List.drop_eq_getElem_cons hlt,
        List.getElem?_eq_getElem hlt]
      rfl
  · cases l with
    | nil => exact absurd rfl h
    | cons x rest =>
      rw [getMiddle, sll_getMiddleLoop_eq _ _ (le_refl _)]
      rfl

/-- Witness of C21: the five-element list of `main`. -/
theorem sll_getMiddle_index_witness :
    ([10, 20, 30, 40, 50] : List Int) ≠ [] ∧
      getMiddle [10, 20, 30, 40, 50] = ([10, 20, 30, 40, 50] : List Int)[5 / 2]? ∧
      getMiddle [10, 20, 30, 40, 50] = some 30 :=
  ⟨by decide, (sll_getMiddle_index [10, 20, 30, 40, 50] (by decide)).1, by decide⟩

/-- C22 (`deleteByValue`), behaviour of the code: when the value occurs its first node is
removed and the value is returned, and on the empty list -1 is returned; but on a
non-empty list that does not hold the value, e.g. 99 in 10, 20, 30, the list is unchanged
and the function ends without a `return` statement, so no value -1 is returned. -/
theorem sll_deleteByValue_missing_return :
    deleteByValue [10, 20, 30] 99 = ([10, 20, 30], none) ∧
      ∀ (l : List Int) (v : Int), deleteByValue l v =
        if v ∈ l then (l.erase v, some v)
        else if l = [] then ([], some (-1)) else (l, none) := by
  refine ⟨by decide, ?_⟩
  intro l v
  cases l with
  | nil => simp [deleteByValue]
  | cons x rest =>
    by_cases h : x = v
    · subst h
      simp [deleteByValue, deleteFromBeginning]
    · have h' : ¬ v = x := fun e => h e.symm
      have hb : ¬ (x == v) = true := by simpa using h
      rw [deleteByValue, if_neg h, sll_deleteByValueLoop_eq]
      by_cases hm : v ∈ rest
      · simp only [hm, if_true, List.mem_cons, or_true, List.erase_cons_tail hb]
      · simp only [hm, if_false, List.mem_cons, h', or_self, reduceCtorEq]

theorem wrapInt32_of_range {x : Int} (h1 : -2 ^ 31 ≤ x) (h2 : x < 2 ^ 31) :
    wrapInt32 x = x := by
  unfold wrapInt32
  omega

/-- C23 (`deleteAtPosition`), behaviour of the code on every `int` position.  For a
position `i ≥ 0` the node at index `i` is removed and its value returned when `i` is below
the length, and otherwise the list is unchanged and -1 is returned.  But every negative
position above `INT_MIN` behaves like position 1, e.g. position -1 on 10, 20, 30 removes 20
and returns 20.  At `INT_MIN` the expression `position - 1` overflows; with the two's
complement result `INT_MAX` as loop bound a list of fewer than `2 ^ 31` nodes is left
unchanged and -1 is returned. -/
theorem sll_deleteAtPosition_negative_position :
    deleteAtPosition [10, 20, 30] (-1) = ([10, 30], 20) ∧
      (∀ (l : List Int) (p : Int), -2 ^ 31 < p → p < 0 →
        deleteAtPosition l p = deleteAtPosition l 1) ∧
      (∀ (l : List Int) (i : Nat), (i : Int) < 2 ^ 31 → deleteAtPosition l (i : Int) =
        if i < l.length then (l.eraseIdx i, l.getD i (-1)) else (l, -1)) ∧
      (∀ l : List Int, l.length < 2 ^ 31 → deleteAtPosition l (-2 ^ 31) = (l, -1)) := by
  refine ⟨by decide, ?_, ?_, ?_⟩
  · intro l p h1 h2
    cases l with
    | nil => rfl
    | cons x rest =>
      have e : (wrapInt32 (p - 1)).toNat = 0 := by
        rw [wrapInt32_of_range (by omega) (by omega)]; omega
      have e1 : (wrapInt32 ((1 : Int) - 1)).toNat = 0 := by decide
      have n0 : ¬ p = 0 := by omega
      simp only [deleteAtPosition, n0, if_false, e, e1, one_ne_zero]
  · intro l i hi
    cases l with
    | nil => simp [deleteAtPosition]
    | cons x rest =>
      cases i with
      | zero => simp [deleteAtPosition]
      | succ j =>
        have e : (wrapInt32 (((j + 1 : Nat) : Int) - 1)).toNat = j := by
          rw [wrapInt32_of_range (by omega) (by omega)]; omega
        have n0 : ¬ ((j + 1 : Nat) : Int) = 0 := by omega
        simp only [deleteAtPosition, n0, if_false, e, sll_deleteAtPositionLoop_eq,
          List.length_cons, List.eraseIdx_cons_succ, List.getD_cons_succ,
          Nat.add_lt_add_iff_right]
  · intro l hl
    cases l with
    | nil => rfl
    | cons x rest =>
      have e : (wrapInt32 (-2 ^ 31 - 1)).toNat = 2 ^ 31 - 1 := by decide
      have n0 : ¬ (-2 ^ 31 : Int) = 0 := by decide
      have hk : ¬ 2 ^ 31 - 1 < rest.length := by
        simp only [List.length_cons] at hl
        omega
      simp only [deleteAtPosition, n0, if_false, e, sll_deleteAtPositionLoop_eq, hk]

/-- C24 (`getElementAt`), behaviour of the code: for a position `i ≥ 0` it returns the
element at index `i` when `i` is below the length and -1 otherwise; but for a negative
position on a non-empty list it returns the first element, e.g. 10 for position -1 on
10, 20, 30. -/
theorem sll_getElementAt_negative_position :
    getElementAt [10, 20, 30] (-1) = 10 ∧
      (∀ (l : List Int) (i : Nat), getElementAt l (-((i : Int) + 1)) = l.headD (-1)) ∧
      (∀ (l : List Int) (i : Nat), getElementAt l (i : Int) = l.getD i (-1)) := by
  refine ⟨by decide, ?_, ?_⟩
  · intro l i
    cases l with
    | nil => rfl
    | cons x rest =>
      have e : (-((i : Int) + 1)).toNat = 0 := by omega
      simp only [getElementAt, e]
      rfl
  · intro l i
    cases l with
    | nil => simp [getElementAt]
    | cons x rest =>
      simp only [getElementAt, Int.toNat_ofNat, sll_getElementAtLoop_eq]

/-- C25 (`insertAtPosition` on valid positions): for a position `i` with `0 ≤ i ≤ n` on a
list of length `n` the call succeeds, the new list is the first `i` elements, then the
value, then the remaining elements; it has length `n + 1` and holds the value at index
`i`. -/
theorem sll_insertAtPosition_valid (l : List Int) (v : Int) (i : Nat) (h : i ≤ l.length) :
    ∃ l', insertAtPosition l v (i : Int) = some l' ∧
      l' = l.take i ++ v :: l.drop i ∧ l'.length = l.length + 1 ∧ l'[i]? = some v ∧
      insertAtPosition [1, 2, 3, 4] 9 2 = some [1, 2, 9, 3, 4] := by
  have key : insertAtPosition l v (i : Int) = some (l.take i ++ v :: l.drop i) := by
    cases i with
    | zero => simp [insertAtPosition, insertAtBeginning]
    | succ j =>
      have e : (((j + 1 : Nat) : Int) - 1).toNat = j := by omega
      have n0 : ¬ ((j + 1 : Nat) : Int) = 0 := by omega
      simp only [insertAtPosition, n0, if_false, e]
      exact sll_insertAtPositionLoop_eq v j l h
  refine ⟨_, key, rfl, ?_, ?_, by decide⟩
  · simp only [List.length_append, List.length_cons, List.length_take, List.length_drop]
    omega
  · have hl : (l.take i).length = i := by
      rw [List.length_take]; omega
    rw [List.getElem?_append_right (by omega), hl, Nat.sub_self]
    simp

/-- Witness of C25: inserting at the end of a four-element list. -/
theorem sll_insertAtPosition_valid_witness :
    (4 : Nat) ≤ ([1, 2, 3, 4] : List Int).length ∧
      insertAtPosition [1, 2, 3, 4] 9 4 = some [1, 2, 3, 4, 9] ∧
      ∃ l', insertAtPosition [1, 2, 3, 4] 9 ((4 : Nat) : Int) = some l' ∧
        l' = ([1, 2, 3, 4] : List Int).take 4 ++ 9 :: ([1, 2, 3, 4] : List Int).drop 4 ∧
        l'.length = ([1, 2, 3, 4] : List Int).length + 1 ∧ l'[4]? = some 9 ∧
        insertAtPosition [1, 2, 3, 4] 9 2 = some [1, 2, 9, 3, 4] :=
  ⟨by decide, by decide, sll_insertAtPosition_valid [1, 2, 3, 4] 9 4 (by decide)⟩

/-- C26 (`search`): `search` returns the 0-based index of the first node holding the
value, and returns -1 if and only if the value does not occur; 30 is at index 2 and 99 is
not found in 10, 20, 30, 40, 50. -/
theorem sll_search_index (l : List Int) (v : Int) :
    search l v = (if v ∈ l then (l.indexOf v : Int) else -1) ∧
      (search l v = -1 ↔ v ∉ l) ∧
      search [10, 20, 30, 40, 50] 30 = 2 ∧ search [10, 20, 30, 40, 50] 99 = -1 := by
  have e : search l v = if v ∈ l then (l.indexOf v : Int) else -1 := by
    rw [search, sll_searchLoop_eq]
    by_cases hm : v ∈ l
    · simp only [hm, if_true]; omega
    · simp only [hm, if_false]
  refine ⟨e, ?_, by decide, by decide⟩
  rw [e]
  by_cases hm : v ∈ l
  · simp only [hm, if_true, not_true_eq_false, iff_false]
    omega
  · simp only [hm, if_false, not_false_eq_true]

end SinglyLinkedList

namespace DoublyLinkedList


/-! ## Doubly linked list: heap and linked segments -/

theorem store_same (h : Heap) (a : Nat) (n : DNode) : store h a n a = some n := by
  simp [store]

theorem store_ne (h : Heap) (a : Nat) (n : DNode) {x : Nat} (hx : x ≠ a) :
    store h a n x = h x := by
  simp [store, hx]

theorem free_same (h : Heap) (a : Nat) : free h a a = none := by
  simp [free]

theorem free_ne (h : Heap) (a : Nat) {x : Nat} (hx : x ≠ a) : free h a x = h x := by
  simp [free, hx]

theorem free_store_fresh (h : Heap) (a : Nat) (n : DNode) (ha : h a = none) :
    free (store h a n) a = h := by
  funext x
  by_cases hx : x = a
  · subst hx; rw [free_same, ha]
  · rw [free_ne _ _ hx, store_ne _ _ _ hx]

theorem headAddr_append (xs ys : List (Nat × Int)) (q : Option Nat) :
    headAddr (xs ++ ys) q = headAddr xs (headAddr ys q) := by
  cases xs <;> rfl

theorem lastAddr_append (xs ys : List (Nat × Int)) (p : Option Nat) :
    lastAddr (xs ++ ys) p = lastAddr ys (lastAddr xs p) := by
  induction xs generalizing p with
  | nil => rfl
  | cons c rest ih => exact ih (some c.1)

theorem linked_cons (h : Heap) (prev : Option Nat) (c : Nat × Int)
    (rest : List (Nat × Int)) (q : Option Nat) :
    Linked h prev (c :: rest) q ↔
      h c.1 = some { data := c.2, prev := prev, next := headAddr rest q } ∧
        Linked h (some c.1) rest q :=
  Iff.rfl

theorem linked_congr {h h' : Heap} : ∀ (cells : List (Nat × Int)) (prev q : Option Nat),
    (∀ x ∈ cells.map Prod.fst, h' x = h x) → Linked h prev cells q → Linked h' prev cells q
  | [], _, _, _, _ => trivial
  | c :: rest, prev, q, hx, hl => by
    refine ⟨?_, linked_congr rest (some c.1) q (fun x hm => hx x ?_) hl.2⟩
    · rw [hx c.1 (by simp)]; exact hl.1
    · simp only [List.map_cons, List.mem_cons]; exact Or.inr hm

theorem linked_append {h : Heap} (xs ys : List (Nat × Int)) (prev q : Option Nat) :
    Linked h prev (xs ++ ys) q ↔
      Linked h prev xs (headAddr ys q) ∧ Linked h (lastAddr xs prev) ys q := by
  induction xs generalizing prev with
  | nil => simp [Linked, lastAddr]
  | cons c rest ih =>
    rw [List.cons_append, linked_cons, linked_cons, ih (some c.1), headAddr_append,
      and_assoc]
    rfl

/-- Redirecting the `next` pointer of the last cell of a segment. -/
theorem linked_set_end {h : Heap} (xs : List (Nat × Int)) (c : Nat × Int)
    (prev q q' : Option Nat) (hl : Linked h prev (xs ++ [c]) q)
    (hn : c.1 ∉ xs.map Prod.fst) :
    ∃ h1, setNext h c.1 q' = some h1 ∧ Linked h1 prev (xs ++ [c]) q' ∧
      ∀ x, x ≠ c.1 → h1 x = h x := by
  obtain ⟨l1, l2⟩ := (linked_append xs [c] prev q).1 hl
  obtain ⟨hc, -⟩ := l2
  refine ⟨store h c.1 { data := c.2, prev := lastAddr xs prev, next := q' }, ?_, ?_,
    fun x hx => store_ne _ _ _ hx⟩
  · simp only [setNext, hc, Option.map_some']
  · refine (linked_append xs [c] prev q').2 ⟨?_, ?_, trivial⟩
    · refine linked_congr xs prev _ (fun x hm => store_ne _ _ _ ?_) l1
      rintro rfl; exact hn hm
    · rw [store_same]; rfl

/-- Redirecting the `prev` pointer of the first cell of a segment. -/
theorem linked_set_prev {h : Heap} (c : Nat × Int) (ys : List (Nat × Int))
    (prev prev' q : Option Nat) (hl : Linked h prev (c :: ys) q)
    (hn : c.1 ∉ ys.map Prod.fst) :
    ∃ h1, setPrev h c.1 prev' = some h1 ∧ Linked h1 prev' (c :: ys) q ∧
      ∀ x, x ≠ c.1 → h1 x = h x := by
  obtain ⟨hc, l2⟩ := hl
  refine ⟨store h c.1 { data := c.2, prev := prev', next := headAddr ys q }, ?_, ?_,
    fun x hx => store_ne _ _ _ hx⟩
  · simp only [setPrev, hc, Option.map_some']
  · refine ⟨store_same _ _ _, linked_congr ys _ _ (fun x hm => store_ne _ _ _ ?_) l2⟩
    rintro rfl; exact hn hm

/-- The step `if (p->next != NULL) p->next->prev = prev'` on the segment after `p`. -/
theorem relink_next {h : Heap} (ys : List (Nat × Int)) (prev prev' : Option Nat)
    (hl : Linked h prev ys none) (hn : (ys.map Prod.fst).Nodup) :
    ∃ h1, setPrevOf h (headAddr ys none) prev' = some h1 ∧
      Linked h1 prev' ys none ∧ ∀ x, x ∉ ys.map Prod.fst → h1 x = h x := by
  cases ys with
  | nil => exact ⟨h, rfl, trivial, fun _ _ => rfl⟩
  | cons c rest =>
    have hc : c.1 ∉ rest.map Prod.fst := by
      simp only [List.map_cons, List.nodup_cons] at hn; exact hn.1
    obtain ⟨h1, e, l, f⟩ := linked_set_prev c rest prev prev' none hl hc
    refine ⟨h1, e, l, fun x hx => f x ?_⟩
    rintro rfl
    exact hx (by simp)

theorem linked_readForward {h : Heap} : ∀ (cells : List (Nat × Int)) (prev : Option Nat)
    (fuel : Nat), Linked h prev cells none → cells.length ≤ fuel →
    readForward h fuel (headAddr cells none) = some (cells.map Prod.snd)
  | [], _, fuel, _, _ => by cases fuel <;> rfl
  | c :: rest, prev, 0, _, hf => by simp at hf
  | c :: rest, prev, fuel + 1, hl, hf => by
    have ih := linked_readForward rest (some c.1) fuel hl.2
      (by simp only [List.length_cons] at hf; omega)
    show readForward h (fuel + 1) (some c.1) = _
    simp only [readForward, hl.1, Option.some_bind, ih, Option.map_some', List.map_cons]

theorem linked_readBackward {h : Heap} : ∀ (cells : List (Nat × Int)) (c : Nat × Int)
    (q : Option Nat) (fuel : Nat), Linked h none (cells ++ [c]) q → cells.length < fuel →
    readBackward h fuel (some c.1) = some ((cells ++ [c]).map Prod.snd).reverse := by
  intro cells
  induction cells using List.reverseRecOn with
  | nil =>
    intro c q fuel hl hf
    cases fuel with
    | zero => simp at hf
    | succ fuel =>
      have hc : h c.1 = some { data := c.2, prev := none, next := q } := hl.1
      simp only [readBackward, hc, Option.some_bind]
      cases fuel <;> simp [readBackward]
  | append_singleton xs x ih =>
    intro c q fuel hl hf
    cases fuel with
    | zero => simp at hf
    | succ fuel =>
      obtain ⟨l1, l2⟩ := (linked_append (xs ++ [x]) [c] none q).1 hl
      have hc : h c.1 = some { data := c.2, prev := some x.1, next := q } := by
        have := l2.1
        rwa [lastAddr_append] at this
      have hf' : xs.length < fuel := by
        simp only [List.length_append, List.length_singleton] at hf; omega
      simp only [readBackward, hc, Option.some_bind, ih x _ fuel l1 hf', Option.map_some']
      simp


theorem linked_allocated {h : Heap} : ∀ (cells : List (Nat × Int)) (prev q : Option Nat),
    Linked h prev cells q → ∀ x ∈ cells.map Prod.fst, h x ≠ none
  | [], _, _, _, x, hx => by simp at hx
  | c :: rest, prev, q, hl, x, hx => by
    simp only [List.map_cons, List.mem_cons] at hx
    rcases hx with rfl | hx
    · rw [hl.1]; simp
    · exact linked_allocated rest (some c.1) q hl.2 x hx

/-- The search loop of `deleteByValueD` on a segment that does not hold the value. -/
theorem findValue_absent {h : Heap} (value : Int) : ∀ (cells : List (Nat × Int))
    (prev : Option Nat) (fuel : Nat), Linked h prev cells none →
    value ∉ cells.map Prod.snd → cells.length < fuel →
    findValue h value fuel (headAddr cells none) = some none
  | [], _, fuel, _, _, hf => by
    cases fuel with
    | zero => simp at hf
    | succ fuel => rfl
  | c :: rest, prev, 0, _, _, hf => by simp at hf
  | c :: rest, prev, fuel + 1, hl, hv, hf => by
    simp only [List.map_cons, List.mem_cons, not_or] at hv
    have ih := findValue_absent value rest (some c.1) fuel hl.2 hv.2
      (by simp only [List.length_cons] at hf; omega)
    show findValue h value (fuel + 1) (some c.1) = _
    have hne : c.2 ≠ value := fun e => hv.1 e.symm
    simp only [findValue, hl.1, Option.some_bind, ne_eq, hne, not_false_eq_true, if_true, ih]

/-- The search loop of `deleteByValueD` stops at the first cell that holds the value. -/
theorem findValue_present {h : Heap} (value : Int) (a : Nat) (post : List (Nat × Int)) :
    ∀ (pre : List (Nat × Int)) (prev : Option Nat) (fuel : Nat),
    Linked h prev (pre ++ (a, value) :: post) none →
    value ∉ pre.map Prod.snd → pre.length < fuel →
    findValue h value fuel (headAddr (pre ++ (a, value) :: post) none) = some (some a)
  | [], prev, 0, _, _, hf => by simp at hf
  | [], prev, fuel + 1, hl, _, _ => by
    show findValue h value (fuel + 1) (some a) = _
    have hc := hl.1
    simp only [findValue, hc, Option.some_bind, ne_eq, not_true_eq_false, if_false]
  | c :: rest, prev, 0, _, _, hf => by simp at hf
  | c :: rest, prev, fuel + 1, hl, hv, hf => by
    simp only [List.map_cons, List.mem_cons, not_or] at hv
    rw [List.cons_append, linked_cons] at hl
    have ih := findValue_present value a post rest (some c.1) fuel hl.2 hv.2
      (by simp only [List.length_cons] at hf; omega)
    rw [List.cons_append]
    show findValue h value (fuel + 1) (some c.1) = _
    have hne : c.2 ≠ value := fun e => hv.1 e.symm
    simp only [findValue, hl.1, Option.some_bind, ne_eq, hne, not_false_eq_true, if_true, ih]

/-- The first occurrence of a value among the cells. -/
theorem first_occurrence (value : Int) : ∀ (cells : List (Nat × Int)),
    value ∈ cells.map Prod.snd →
    ∃ pre a post, cells = pre ++ (a, value) :: post ∧ value ∉ pre.map Prod.snd
  | [], hm => by simp at hm
  | c :: rest, hm => by
    by_cases hc : c.2 = value
    · exact ⟨[], c.1, rest, by rw [← hc]; rfl, by simp⟩
    · have hm' : value ∈ rest.map Prod.snd := by
        simp only [List.map_cons, List.mem_cons] at hm
        rcases hm with e | hm
        · exact absurd e.symm hc
        · exact hm
      obtain ⟨pre, a, post, e, hn⟩ := first_occurrence value rest hm'
      refine ⟨c :: pre, a, post, by rw [e]; rfl, ?_⟩
      simp only [List.map_cons, List.mem_cons, not_or]
      exact ⟨fun e => hc e.symm, hn⟩

/-- The step `if (curr->prev != NULL) curr->prev->next = q; else *head = q` of
`deleteByValueD`, `curr` being the node after the cells `pre`. -/
theorem relink_prev {h : Heap} (pre : List (Nat × Int)) (q q' head : Option Nat)
    (hl : Linked h none pre q) (hn : (pre.map Prod.fst).Nodup) (hh : head = headAddr pre q) :
    ∃ s : Heap × Option Nat, setNextOrHead h head (lastAddr pre none) q' = some s ∧
      Linked s.1 none pre q' ∧ (∀ x, x ∉ pre.map Prod.fst → s.1 x = h x) ∧
      s.2 = headAddr pre q' := by
  rcases List.eq_nil_or_concat pre with rfl | ⟨xs, c, rfl⟩
  · exact ⟨(h, q'), rfl, trivial, fun _ _ => rfl, rfl⟩
  · rw [List.concat_eq_append] at hl hn hh ⊢
    have hc : c.1 ∉ xs.map Prod.fst := by
      rw [List.map_append, List.nodup_append] at hn
      intro hm
      exact hn.2.2 hm (by simp)
    obtain ⟨h1, e, l, f⟩ := linked_set_end xs c none q q' hl hc
    refine ⟨(h1, head), ?_, l, fun x hx => f x ?_, ?_⟩
    · rw [lastAddr_append]
      show (setNext h c.1 q').map _ = _
      rw [e]; rfl
    · rintro rfl
      exact hx (by simp)
    · show head = _
      rw [hh, headAddr_append, headAddr_append]
      cases xs <;> rfl


/-- What `WellLinked` says about a list with the cell `(a, v)` between `pre` and `post`. -/
theorem wellLinked_split {h : Heap} {head : Option Nat} {pre post : List (Nat × Int)}
    {a : Nat} {v : Int} (hw : WellLinked h head (pre ++ (a, v) :: post)) :
    head = headAddr pre (some a) ∧ Linked h none pre (some a) ∧
      h a = some { data := v, prev := lastAddr pre none, next := headAddr post none } ∧
      Linked h (some a) post none ∧
      (pre.map Prod.fst).Nodup ∧ (post.map Prod.fst).Nodup ∧
      a ∉ pre.map Prod.fst ∧ a ∉ post.map Prod.fst ∧
      (∀ x, x ∈ pre.map Prod.fst → x ∉ post.map Prod.fst) ∧
      ((pre ++ post).map Prod.fst).Nodup := by
  obtain ⟨hh, hl, hnd⟩ := hw
  obtain ⟨l1, l2, l3⟩ := (linked_append pre ((a, v) :: post) none none).1 hl
  have hnd' := hnd
  rw [List.map_append, List.map_cons, List.nodup_append, List.nodup_cons] at hnd
  obtain ⟨n1, ⟨n2, n3⟩, n4⟩ := hnd
  refine ⟨by rw [hh, headAddr_append]; rfl, l1, l2, l3, n1, n3, ?_, n2, ?_, ?_⟩
  · exact fun hm => n4 hm (List.mem_cons_self _ _)
  · exact fun x hx hx' => n4 hx (List.mem_cons_of_mem _ hx')
  · rw [List.map_append, List.map_cons] at hnd'
    rw [List.map_append]
    exact hnd'.sublist (List.Sublist.append (List.Sublist.refl _) (List.sublist_cons_self _ _))

theorem headAddr_cons_isSome (pre : List (Nat × Int)) (a : Nat) :
    ∃ z, headAddr pre (some a) = some z := by
  cases pre with
  | nil => exact ⟨a, rfl⟩
  | cons c rest => exact ⟨c.1, rfl⟩

/-- Deleting the first cell that holds `v`. -/
theorem deleteByValueD_present {h : Heap} {head : Option Nat} {pre post : List (Nat × Int)}
    {a : Nat} {v : Int} {fuel : Nat} (hw : WellLinked h head (pre ++ (a, v) :: post))
    (hv : v ∉ pre.map Prod.snd) (hf : (pre ++ (a, v) :: post).length < fuel) :
    ∃ h' head', deleteByValueD h head v fuel = some (h', head', v) ∧
      WellLinked h' head' (pre ++ post) ∧ h' a = none ∧
      ∀ x, x ≠ a → x ∉ (pre ++ post).map Prod.fst → h' x = h x := by
  obtain ⟨hh, l1, ha, l3, n1, n3, na1, na3, ndis, nd⟩ := wellLinked_split hw
  obtain ⟨z, hz⟩ := headAddr_cons_isSome pre a
  have hfind : findValue h v fuel (some z) = some (some a) := by
    rw [← hz, ← hh, hw.1]
    refine findValue_present v a post pre none fuel hw.2.1 hv ?_
    rw [List.length_append] at hf; omega
  obtain ⟨s, e1, ls, fs, hs2⟩ :=
    relink_prev pre (some a) (headAddr post none) (some z) l1 n1 hz.symm
  have hsa : s.1 a = h a := fs a na1
  have l3s : Linked s.1 (some a) post none :=
    linked_congr post _ _ (fun x hx => fs x (fun hx' => ndis x hx' hx)) l3
  obtain ⟨h2, e2, l2, f2⟩ := relink_next post (some a) (lastAddr pre none) l3s n3
  refine ⟨free h2 a, s.2, ?_, ⟨?_, ?_, nd⟩, free_same _ _, ?_⟩
  · rw [hh, hz]
    simp only [deleteByValueD, hfind, Option.some_bind, ha, e1, hsa, e2, Option.map_some']
  · rw [hs2, headAddr_append]
  · refine (linked_append pre post none none).2 ⟨?_, ?_⟩
    · refine linked_congr pre _ _ (fun x hx => ?_) ls
      have hxa : x ≠ a := by rintro rfl; exact na1 hx
      rw [free_ne _ _ hxa, f2 x (ndis x hx)]
    · refine linked_congr post _ _ (fun x hx => ?_) l2
      have hxa : x ≠ a := by rintro rfl; exact na3 hx
      rw [free_ne _ _ hxa]
  · intro x hxa hx
    rw [List.map_append, List.mem_append, not_or] at hx
    rw [free_ne _ _ hxa, f2 x hx.2, fs x hx.1]

/-- Deleting a value that the list does not hold. -/
theorem deleteByValueD_absent {h : Heap} {head : Option Nat} {cells : List (Nat × Int)}
    {v : Int} {fuel : Nat} (hw : WellLinked h head cells)
    (hv : v ∉ cells.map Prod.snd) (hf : cells.length < fuel) :
    deleteByValueD h head v fuel = some (h, head, -1) := by
  cases cells with
  | nil =>
    rw [hw.1]; rfl
  | cons c rest =>
    have hfind := findValue_absent v (c :: rest) none fuel hw.2.1 hv hf
    rw [hw.1] at *
    show deleteByValueD h (some c.1) v fuel = _
    change findValue h v fuel (some c.1) = some none at hfind
    simp only [deleteByValueD, hfind, Option.some_bind]
    rfl

/-- The sequences read forward from the head and backward from the tail of a well-linked
list. -/
theorem wellLinked_reads {h : Heap} {head : Option Nat} {cells : List (Nat × Int)}
    (hw : WellLinked h head cells) :
    readForward h cells.length head = some (cells.map Prod.snd) ∧
      readBackward h cells.length (lastAddr cells none) = some (cells.map Prod.snd).reverse := by
  refine ⟨by rw [hw.1]; exact linked_readForward cells none _ hw.2.1 le_rfl, ?_⟩
  rcases List.eq_nil_or_concat cells with rfl | ⟨xs, c, rfl⟩
  · rfl
  · rw [List.concat_eq_append, lastAddr_append]
    refine linked_readBackward xs c none _ ?_ (by simp)
    have := hw.2.1
    rwa [List.concat_eq_append] at this


/-- The loop of `insertAtPositionD` on a well-linked chain: `k` steps forward. -/
theorem walk_linked {h : Heap} : ∀ (cells : List (Nat × Int)) (prev : Option Nat) (k : Nat),
    Linked h prev cells none → k ≤ cells.length →
    walk h k (headAddr cells none) = some (Walk.done (headAddr (cells.drop k) none))
  | cells, _, 0, _, _ => rfl
  | [], _, k + 1, _, hk => by simp at hk
  | c :: rest, prev, k + 1, hl, hk => by
    have ih := walk_linked rest (some c.1) k hl.2
      (by simp only [List.length_cons] at hk; omega)
    show walk h (k + 1) (some c.1) = _
    simp only [walk, hl.1, Option.some_bind, ih, List.drop_succ_cons]

/-- The loop of `insertAtPositionD` asked for more steps than the chain has nodes. -/
theorem walk_outOfRange {h : Heap} : ∀ (cells : List (Nat × Int)) (prev : Option Nat)
    (k : Nat), Linked h prev cells none → cells.length < k →
    walk h k (headAddr cells none) = some Walk.outOfRange
  | _, _, 0, _, hk => by simp at hk
  | [], _, k + 1, _, _ => rfl
  | c :: rest, prev, k + 1, hl, hk => by
    have ih := walk_outOfRange rest (some c.1) k hl.2
      (by simp only [List.length_cons] at hk; omega)
    show walk h (k + 1) (some c.1) = _
    simp only [walk, hl.1, Option.some_bind, ih]

theorem loopBound_of_pos {p : Int} (h1 : 1 ≤ p) (h2 : p < 2 ^ 31) :
    loopBound p = (p - 1).toNat := by
  unfold loopBound
  omega

theorem loopBound_of_neg {p : Int} (h1 : -2 ^ 31 < p) (h2 : p < 0) :
    2 ^ 63 ≤ loopBound p := by
  unfold loopBound
  omega

/-- A node that is not allocated is none of the cells of a linked segment. -/
theorem fresh_not_mem {h : Heap} {cells : List (Nat × Int)} {prev q : Option Nat} {a : Nat}
    (hl : Linked h prev cells q) (ha : h a = none) : a ∉ cells.map Prod.fst :=
  fun hm => linked_allocated cells prev q hl a hm ha

/-- The node that `CreateNode` allocates leaves a well-linked list well linked. -/
theorem wellLinked_CreateNode {h : Heap} {head : Option Nat} {cells : List (Nat × Int)}
    {a : Nat} (v : Int) (hw : WellLinked h head cells) (ha : h a = none) :
    WellLinked (CreateNode h a v) head cells := by
  refine ⟨hw.1, linked_congr cells _ _ (fun x hx => store_ne _ _ _ ?_) hw.2.1, hw.2.2⟩
  rintro rfl
  exact fresh_not_mem hw.2.1 ha hx

/-- The call `insertAtBeginningD` on a well-linked list. -/
theorem insertAtBeginningD_spec {h : Heap} {head : Option Nat} {cells : List (Nat × Int)}
    {a : Nat} (v : Int) (hw : WellLinked h head cells) (ha : h a = none) :
    ∃ h', insertAtBeginningD h head v a = some (h', some a) ∧
      WellLinked h' (some a) ((a, v) :: cells) := by
  have hh := hw.1
  subst hh
  have hac : a ∉ cells.map Prod.fst := fresh_not_mem hw.2.1 ha
  have e1 : setNext (CreateNode h a v) a (headAddr cells none) =
      some (store (CreateNode h a v) a { data := v, prev := none, next := headAddr cells none }) := by
    simp only [setNext, CreateNode, store_same, Option.map_some']
  have l1 : Linked (store (CreateNode h a v) a { data := v, prev := none, next := headAddr cells none })
      none cells none := by
    refine linked_congr cells _ _ (fun x hx => ?_) hw.2.1
    have hxa : x ≠ a := by rintro rfl; exact hac hx
    rw [store_ne _ _ _ hxa, CreateNode, store_ne _ _ _ hxa]
  obtain ⟨h2, e2, l2, f2⟩ := relink_next cells none (some a) l1 hw.2.2
  refine ⟨h2, ?_, rfl, ⟨?_, l2⟩, ?_⟩
  · simp only [insertAtBeginningD, e1, Option.some_bind, e2, Option.map_some']
  · show h2 a = _
    rw [f2 a hac, store_same]
  · rw [List.map_cons, List.nodup_cons]
    exact ⟨hac, hw.2.2⟩

/-- The insertion of `insertAtPositionD` after the cell `(b, w)` that the loop reaches. -/
theorem insertAtPositionD_inside {h : Heap} {head : Option Nat} {pre post : List (Nat × Int)}
    {b : Nat} {w : Int} {a : Nat} (v : Int) (p : Int) (hp : p ≠ 0)
    (hk : loopBound p = pre.length) (hw : WellLinked h head (pre ++ (b, w) :: post))
    (ha : h a = none) :
    ∃ h', insertAtPositionD h head v p a = some (h', head) ∧
      WellLinked h' head (pre ++ (b, w) :: (a, v) :: post) := by
  have hw0 := wellLinked_CreateNode v hw ha
  have hac : a ∉ (pre ++ (b, w) :: post).map Prod.fst := fresh_not_mem hw.2.1 ha
  generalize hH : CreateNode h a v = H0 at hw0
  have hHa : H0 a = some { data := v, prev := none, next := none } := by
    rw [← hH]; exact store_same _ _ _
  obtain ⟨hh, l1, hb, l3, n1, n3, nb1, nb3, ndis, nd⟩ := wellLinked_split hw0
  rw [List.map_append, List.map_cons, List.mem_append, List.mem_cons, not_or, not_or] at hac
  obtain ⟨ha1, hab, ha3⟩ := hac
  have hab' : b ≠ a := fun e => hab e.symm
  -- the loop
  have hwalk : walk H0 (loopBound p) head = some (Walk.done (some b)) := by
    rw [hk, hw0.1]
    have := walk_linked (pre ++ (b, w) :: post) none pre.length hw0.2.1 (by simp)
    rwa [List.drop_left] at this
  -- newNode->next = curr->next; newNode->prev = curr;
  have e1 : setNext H0 a (headAddr post none) =
      some (store H0 a { data := v, prev := none, next := headAddr post none }) := by
    simp only [setNext, hHa, Option.map_some']
  generalize hh1 : store H0 a { data := v, prev := none, next := headAddr post none } = h1
    at e1
  have e2 : setPrev h1 a (some b) =
      some (store h1 a { data := v, prev := some b, next := headAddr post none }) := by
    simp only [setPrev, ← hh1, store_same, Option.map_some']
  generalize hh2 : store h1 a { data := v, prev := some b, next := headAddr post none } = h2
    at e2
  have f2 : ∀ x, x ≠ a → h2 x = H0 x := by
    intro x hx
    rw [← hh2, store_ne _ _ _ hx, ← hh1, store_ne _ _ _ hx]
  have h2a : h2 a = some { data := v, prev := some b, next := headAddr post none } := by
    rw [← hh2]; exact store_same _ _ _
  have h2b : h2 b = some { data := w, prev := lastAddr pre none, next := headAddr post none } :=
    by rw [f2 b hab', hb]
  -- if (curr->next != NULL) curr->next->prev = newNode;
  have l3' : Linked h2 (some b) post none := by
    refine linked_congr post _ _ (fun x hx => f2 x ?_) l3
    rintro rfl; exact ha3 hx
  obtain ⟨h3, e3, l3'', f3⟩ := relink_next post (some b) (some a) l3' n3
  -- curr->next = newNode;
  have lpre : Linked h3 none (pre ++ [(b, w)]) (headAddr post none) := by
    have l0 : Linked H0 none ((pre ++ [(b, w)]) ++ post) none := by
      rw [List.append_assoc]; exact hw0.2.1
    refine linked_congr _ _ _ (fun x hx => ?_) ((linked_append _ post none none).1 l0).1
    rw [List.map_append, List.mem_append] at hx
    have hx3 : x ∉ post.map Prod.fst := by
      rcases hx with hx | hx
      · exact ndis x hx
      · simp only [List.map_cons, List.map_nil, List.mem_singleton] at hx
        rw [hx]; exact nb3
    have hxa : x ≠ a := by
      rcases hx with hx | hx
      · rintro rfl; exact ha1 hx
      · simp only [List.map_cons, List.map_nil, List.mem_singleton] at hx
        rw [hx]; exact hab'
    rw [f3 x hx3, f2 x hxa]
  obtain ⟨h4, e4, l4, f4⟩ := linked_set_end pre (b, w) none (headAddr post none) (some a)
    lpre nb1
  refine ⟨h4, ?_, hw0.1.trans ?_, ?_, ?_⟩
  · have h3b : h3 b = h2 b := f3 b nb3
    simp only [insertAtPositionD, hp, if_false, hH, hwalk, Option.some_bind, hb, e1, e2, h2b,
      e3, e4, Option.map_some']
  · rw [headAddr_append, headAddr_append]; rfl
  · have : pre ++ (b, w) :: (a, v) :: post = (pre ++ [(b, w)]) ++ (a, v) :: post := by
      rw [List.append_assoc]; rfl
    rw [this]
    refine (linked_append _ _ none none).2 ⟨l4, ?_, ?_⟩
    · show h4 a = _
      rw [f4 a (fun e => hab e), f3 a ha3, h2a, lastAddr_append]; rfl
    · refine linked_congr post _ _ (fun x hx => f4 x ?_) l3''
      rintro rfl; exact nb3 hx
  · have hnd := hw.2.2
    rw [List.map_append, List.map_cons] at hnd ⊢
    rw [List.map_cons]
    have e : pre.map Prod.fst ++ b :: a :: post.map Prod.fst =
        (pre.map Prod.fst ++ [b]) ++ a :: post.map Prod.fst := by
      rw [List.append_assoc]; rfl
    rw [e, List.nodup_middle, List.nodup_cons, List.append_assoc]
    refine ⟨fun hm => ?_, hnd⟩
    simp only [List.mem_append, List.mem_cons, List.mem_singleton, List.not_mem_nil,
      or_false] at hm
    tauto

/-- The call `insertAtPositionD` with a loop bound that the list does not reach. -/
theorem insertAtPositionD_outside {h : Heap} {head : Option Nat} {cells : List (Nat × Int)}
    {a : Nat} (v : Int) (p : Int) (hp : p ≠ 0) (hk : cells.length ≤ loopBound p)
    (hw : WellLinked h head cells) (ha : h a = none) :
    insertAtPositionD h head v p a = some (h, head) := by
  have hw0 := wellLinked_CreateNode v hw ha
  have hfree : free (CreateNode h a v) a = h := free_store_fresh h a _ ha
  rcases Nat.eq_or_lt_of_le hk with e | hlt
  · have hwalk : walk (CreateNode h a v) (loopBound p) head = some (Walk.done none) := by
      rw [hw0.1]
      have := walk_linked cells none (loopBound p) hw0.2.1 (le_of_eq e.symm)
      rwa [List.drop_eq_nil_of_le (le_of_eq e)] at this
    simp only [insertAtPositionD, hp, if_false, hwalk, Option.some_bind, hfree]
  · have hwalk := walk_outOfRange cells none (loopBound p) hw0.2.1 hlt
    rw [← hw0.1] at hwalk
    simp only [insertAtPositionD, hp, if_false, hwalk, Option.some_bind, hfree]


theorem erase_first_occurrence (pre post : List (Nat × Int)) (a : Nat) (v : Int)
    (hv : v ∉ pre.map Prod.snd) :
    ((pre ++ (a, v) :: post).map Prod.snd).erase v = (pre ++ post).map Prod.snd := by
  rw [List.map_append, List.map_cons, List.erase_append_right _ hv, List.erase_cons_head,
    List.map_append]

/-- C28: `deleteByValueD` on a well-linked list `cells` (addresses and data, head first).
If `v` occurs, the first node that holds `v` is unlinked and freed, whether it is the
head (`pre` empty), a middle node or the tail (`post` empty); the other nodes keep their
order and are again well linked, so that reading forward from the new head gives the old
data without the first `v` and reading backward from the tail gives its reverse; and `v`
is returned.  If `v` does not occur, heap and head are unchanged and -1 is returned.  In
the demonstration of `main`, after 25 is inserted at position 2 of 10, 20, 30, 40, 50,
deleting 30, then 10, then 50 leaves 20, 25, 40. -/
theorem dll_deleteByValueD_spec (h : Heap) (head : Option Nat) (cells : List (Nat × Int))
    (v : Int) (fuel : Nat) (hw : WellLinked h head cells) (hf : cells.length < fuel) :
    (v ∈ cells.map Prod.snd →
      ∃ pre a post h' head', cells = pre ++ (a, v) :: post ∧ v ∉ pre.map Prod.snd ∧
        deleteByValueD h head v fuel = some (h', head', v) ∧
        WellLinked h' head' (pre ++ post) ∧ h' a = none ∧
        (pre ++ post).map Prod.snd = (cells.map Prod.snd).erase v ∧
        readForward h' (pre ++ post).length head' = some ((cells.map Prod.snd).erase v) ∧
        readBackward h' (pre ++ post).length (lastAddr (pre ++ post) none) =
          some ((cells.map Prod.snd).erase v).reverse) ∧
    (v ∉ cells.map Prod.snd → deleteByValueD h head v fuel = some (h, head, -1)) ∧
    (demoSteps.map fun l => l.map fun s => readForward s.1 9 s.2) =
      some [some [10, 20, 25, 30, 40, 50], some [10, 20, 25, 40, 50], some [20, 25, 40, 50],
        some [20, 25, 40]] := by
  refine ⟨fun hv => ?_, fun hv => deleteByValueD_absent hw hv hf, by decide⟩
  obtain ⟨pre, a, post, e, hn⟩ := first_occurrence v cells hv
  subst e
  obtain ⟨h', head', e1, hw', ha', -⟩ := deleteByValueD_present hw hn hf
  have he := erase_first_occurrence pre post a v hn
  obtain ⟨r1, r2⟩ := wellLinked_reads hw'
  exact ⟨pre, a, post, h', head', rfl, hn, e1, hw', ha', he.symm, he ▸ r1, he ▸ r2⟩

theorem dll_deleteByValueD_spec_witness :
    WellLinked demoHeap demoHead demoCells ∧ demoCells.length < 9 ∧
      ∃ pre a post h' head', demoCells = pre ++ (a, 30) :: post ∧
        (30 : Int) ∉ pre.map Prod.snd ∧
        deleteByValueD demoHeap demoHead 30 9 = some (h', head', 30) ∧
        WellLinked h' head' (pre ++ post) ∧ h' a = none ∧
        (pre ++ post).map Prod.snd = (demoCells.map Prod.snd).erase 30 ∧
        readForward h' (pre ++ post).length head' = some ((demoCells.map Prod.snd).erase 30) ∧
        readBackward h' (pre ++ post).length (lastAddr (pre ++ post) none) =
          some ((demoCells.map Prod.snd).erase 30).reverse :=
  ⟨by decide, by decide,
    (dll_deleteByValueD_spec demoHeap demoHead demoCells 30 9 (by decide) (by decide)).1
      (by decide)⟩

/-- C29: `insertAtPositionD` on a well-linked list of `n` nodes, for a position `p` in
the range of `int` above `INT_MIN` and a new node at a fresh address `a` (a list in a
64-bit address space has fewer than `2 ^ 63` nodes).  If `0 ≤ p ≤ n` the new node is
linked in at index `p`: the list is well linked, its first `p` cells and its last `n - p`
cells are the old ones in their order, and reading forward gives `v` at index `p`.  For
every other `p`, larger than `n` or negative, heap and head are as before the call.  In
the demonstration of `main`, 25 at position 2 of 10, 20, 30, 40, 50 gives 10, 20, 25, 30,
40, 50. -/
theorem dll_insertAtPositionD_spec (h : Heap) (head : Option Nat) (cells : List (Nat × Int))
    (v : Int) (p : Int) (a : Nat) (hw : WellLinked h head cells) (ha : h a = none)
    (hp₁ : -2 ^ 31 < p) (hp₂ : p < 2 ^ 31) (hn : cells.length < 2 ^ 63) :
    (0 ≤ p → p ≤ cells.length →
      ∃ h' head', insertAtPositionD h head v p a = some (h', head') ∧
        WellLinked h' head' (cells.take p.toNat ++ (a, v) :: cells.drop p.toNat) ∧
        readForward h' (cells.length + 1) head' =
          some ((cells.map Prod.snd).take p.toNat ++ v :: (cells.map Prod.snd).drop p.toNat) ∧
        ((cells.map Prod.snd).take p.toNat ++ v :: (cells.map Prod.snd).drop p.toNat)[p.toNat]? =
          some v) ∧
    (¬ (0 ≤ p ∧ p ≤ cells.length) → insertAtPositionD h head v p a = some (h, head)) ∧
    (insertAtPositionD demoHeap demoHead 25 2 6).bind (fun s => readForward s.1 9 s.2) =
      some [10, 20, 25, 30, 40, 50] := by
  refine ⟨fun h0 hle => ?_, fun hout => ?_, by decide⟩
  · obtain ⟨i, rfl⟩ := Int.eq_ofNat_of_zero_le h0
    have hi : i ≤ cells.length := by exact_mod_cast hle
    simp only [Int.toNat_ofNat]
    have key : ∃ h' head', insertAtPositionD h head v (i : Int) a = some (h', head') ∧
        WellLinked h' head' (cells.take i ++ (a, v) :: cells.drop i) := by
      cases i with
      | zero =>
        obtain ⟨h', e, w⟩ := insertAtBeginningD_spec v hw ha
        refine ⟨h', some a, ?_, ?_⟩
        · simp only [insertAtPositionD, Nat.cast_zero, if_true]
          exact e
        · simpa using w
      | succ k =>
        have hk : k < cells.length := hi
        have hsplit : cells = cells.take k ++ cells[k] :: cells.drop (k + 1) := by
          rw [← List.drop_eq_getElem_cons hk, List.take_append_drop]
        have hsplit' : cells.take (k + 1) = cells.take k ++ [cells[k]] :=
          (List.take_concat_get' cells k hk).symm
        have hp0 : ((k + 1 : Nat) : Int) ≠ 0 := by omega
        have hb : loopBound ((k + 1 : Nat) : Int) = (cells.take k).length := by
          rw [loopBound_of_pos (by omega) hp₂, List.length_take]
          omega
        have hw1 : WellLinked h head
            (cells.take k ++ ((cells[k]).1, (cells[k]).2) :: cells.drop (k + 1)) := by
          rw [← hsplit]; exact hw
        obtain ⟨h', e, w⟩ := insertAtPositionD_inside v _ hp0 hb hw1 ha
        refine ⟨h', head, e, ?_⟩
        rw [hsplit', List.append_assoc]
        exact w
    obtain ⟨h', head', e, w⟩ := key
    refine ⟨h', head', e, w, ?_, ?_⟩
    · have r := (wellLinked_reads w).1
      have hl : (cells.take i ++ (a, v) :: cells.drop i).length = cells.length + 1 := by
        simp only [List.length_append, List.length_take, List.length_cons, List.length_drop]
        omega
      rw [hl] at r
      rw [r, List.map_append, List.map_cons, List.map_take, List.map_drop]
    · rw [List.getElem?_append_right (by simp [hi])]
      simp [hi]
  · refine insertAtPositionD_outside v p ?_ ?_ hw ha
    · rintro rfl
      exact hout ⟨le_rfl, by positivity⟩
    · by_cases hneg : p < 0
      · have := loopBound_of_neg hp₁ hneg
        omega
      · have h1 : 1 ≤ p := by
          by_contra hc
          have : p = 0 := by omega
          subst this
          exact hout ⟨le_rfl, by positivity⟩
        rw [loopBound_of_pos h1 hp₂]
        have : ¬ p ≤ cells.length := fun hc => hout ⟨by omega, hc⟩
        omega

theorem dll_insertAtPositionD_spec_witness :
    WellLinked demoHeap demoHead demoCells ∧ demoHeap 6 = none ∧
      ∃ h' head', insertAtPositionD demoHeap demoHead 25 2 6 = some (h', head') ∧
        WellLinked h' head' (demoCells.take 2 ++ (6, 25) :: demoCells.drop 2) ∧
        readForward h' (demoCells.length + 1) head' =
          some ((demoCells.map Prod.snd).take 2 ++ 25 :: (demoCells.map Prod.snd).drop 2) ∧
        ((demoCells.map Prod.snd).take 2 ++ 25 :: (demoCells.map Prod.snd).drop 2)[2]? =
          some 25 :=
  ⟨by decide, by decide,
    (dll_insertAtPositionD_spec demoHeap demoHead demoCells 25 2 6 (by decide) (by decide)
      (by decide) (by decide) (by decide)).1 (by decide) (by decide)⟩

end DoublyLinkedList

/-! ## The delete operations of the four list variants on an empty list -/

/-- The circular delete operations on the ring 10, 20, 30: `deleteFromBeginning` returns 10
and leaves the ring 20, 30; `deleteFromEnd` returns 30 and leaves the ring 10, 20. -/
theorem circular_delete_demo :
    ((SinglyCircularLinkedList.deleteFromBeginning SinglyCircularLinkedList.demoRing
        (some 1) 9).map fun s =>
        (s.2.1, s.2.2, SinglyCircularLinkedList.readRing s.1 2 9 2, (s.1 1).isNone)) =
      some (some 2, 10, some [20, 30], true) ∧
    ((SinglyCircularLinkedList.deleteFromEnd SinglyCircularLinkedList.demoRing
        (some 1) 9).map fun s =>
        (s.2.1, s.2.2, SinglyCircularLinkedList.readRing s.1 1 9 1, (s.1 3).isNone)) =
      some (some 1, 30, some [10, 20], true) ∧
    ((DoublyCircularLinkedList.deleteFromBeginning DoublyCircularLinkedList.demoRing
        (some 1)).map fun s =>
        (s.2.1, s.2.2, DoublyCircularLinkedList.readRing s.1 2 9 2,
          DoublyCircularLinkedList.readRingBack s.1 3 9 3, (s.1 1).isNone)) =
      some (some 2, 10, some [20, 30], some [30, 20], true) ∧
    ((DoublyCircularLinkedList.deleteFromEnd DoublyCircularLinkedList.demoRing
        (some 1)).map fun s =>
        (s.2.1, s.2.2, DoublyCircularLinkedList.readRing s.1 1 9 1,
          DoublyCircularLinkedList.readRingBack s.1 2 9 2, (s.1 3).isNone)) =
      some (some 1, 30, some [10, 20], some [20, 10], true) :=
  ⟨by decide, by decide, by decide, by decide⟩

/-- C27: every delete operation of the four list variants, called on an empty list,
returns -1 and leaves the list empty (and the heap as it is).  Singly linked list:
`deleteFromBeginning`, `deleteFromEnd`, `deleteByValue`, `deleteAtPosition`; doubly linked
list: `deleteFromBeginningD`, `deleteFromEndD`, `deleteByValueD`; singly and doubly circular
lists: `deleteFromBeginning`, `deleteFromEnd`.  These are all the delete operations of the
four source files. -/
theorem delete_on_empty_list_returns_sentinel :
    SinglyLinkedList.deleteFromBeginning [] = ([], -1) ∧
    SinglyLinkedList.deleteFromEnd [] = ([], -1) ∧
    (∀ v, SinglyLinkedList.deleteByValue [] v = ([], some (-1))) ∧
    (∀ p, SinglyLinkedList.deleteAtPosition [] p = ([], -1)) ∧
    (∀ h, DoublyLinkedList.deleteFromBeginningD h none = some (h, none, -1)) ∧
    (∀ h, DoublyLinkedList.deleteFromEndD h none none = some (h, none, none, -1)) ∧
    (∀ h v fuel, DoublyLinkedList.deleteByValueD h none v fuel = some (h, none, -1)) ∧
    (∀ h fuel, SinglyCircularLinkedList.deleteFromBeginning h none fuel = some (h, none, -1)) ∧
    (∀ h fuel, SinglyCircularLinkedList.deleteFromEnd h none fuel = some (h, none, -1)) ∧
    (∀ h, DoublyCircularLinkedList.deleteFromBeginning h none = some (h, none, -1)) ∧
    (∀ h, DoublyCircularLinkedList.deleteFromEnd h none = some (h, none, -1)) :=
  ⟨rfl, rfl, fun _ => rfl, fun _ => rfl, fun _ => rfl, fun _ => rfl, fun _ _ _ => rfl,
    fun _ _ => rfl, fun _ _ => rfl, fun _ => rfl, fun _ => rfl⟩
